import Mathlib

/-!
# Verification of the `thirty` mesh engine

A shallow embedding of the mesh consolidation / smooth-normal / edge-splitting
engine of `thirty` (files `src/thirty/tools.py` and `src/thirty/mesh.py`),
together with proofs about it.

## Modelling conventions

* The Python code computes with the rendering engine's float vectors
  (`Vec2`, `Vec3`, `Vec4`).  We embed scalar arithmetic over `ℚ` (exact
  real-number semantics of the same formulas).
* `Vec3.normalized()` produces `v / |v|` (and, per the engine's semantics,
  the zero vector when `v` is the zero vector).  `|v|` is an irrational
  square root in general, so normalized vectors are represented
  *symbolically* by a raw (un-normalized) representative:
  - equality of two normalized vectors `u.normalized() == v.normalized()`
    is exactly the decidable relation `sameRay3 u v` on the raw vectors
    (both zero, or parallel with positive dot product);
  - the comparison `u.normalized().dot(v.normalized()) < c` used by the
    normal-grouping pass is exactly the decidable predicate
    `unitDotLt u v c` on the raw vectors.
* Python `dict`s preserve insertion order (first-insertion order for keys,
  last assignment wins for values); they are embedded as insertion-ordered
  association lists.
* Vertex and triangle ids are assigned densely (`0, 1, 2, ...`), and the
  `_vertices` / `_triangles` dicts are populated in id order, so both are
  embedded as plain lists indexed by id.
* Python raises (`KeyError` on a nonexistent id, `ValueError` in
  `replace_vertex` / `remove_from_triangle`, `IndexError` on `keys()[0]` of
  an empty dict).  The embedding makes these operations total (out-of-range
  reads return a default, failing updates are no-ops); every theorem below
  carries well-formedness hypotheses under which the failing branches are
  never reached, so the embedded run agrees with the Python run.
* `export` computes `split_cos = cos(radians(edge_angle))` once and uses
  only `split_cos` afterwards; the embedding is parametrized directly by
  `splitCos : ℚ`.  An angle `a` between unit normals exceeds `edge_angle`
  exactly when the cosine of `a` is below `split_cos`.
-/

namespace Thirty

/-! ## Vectors -/

/-- 3-component vector over `ℚ` (embeds the engine's `Vec3`). -/
structure Vec3 where
  x : ℚ
  y : ℚ
  z : ℚ
deriving DecidableEq, Repr

/-- 2-component vector over `ℚ` (embeds the engine's `Vec2`). -/
structure Vec2 where
  x : ℚ
  y : ℚ
deriving DecidableEq, Repr

/-- 4-component (RGBA) vector over `ℚ` (embeds the engine's `Vec4`). -/
structure Vec4 where
  r : ℚ
  g : ℚ
  b : ℚ
  a : ℚ
deriving DecidableEq, Repr

instance : Add Vec3 := ⟨fun u v => ⟨u.x + v.x, u.y + v.y, u.z + v.z⟩⟩
instance : Sub Vec3 := ⟨fun u v => ⟨u.x - v.x, u.y - v.y, u.z - v.z⟩⟩
instance : Zero Vec3 := ⟨⟨0, 0, 0⟩⟩
instance : Add Vec4 := ⟨fun u v => ⟨u.r + v.r, u.g + v.g, u.b + v.b, u.a + v.a⟩⟩
instance : Zero Vec4 := ⟨⟨0, 0, 0, 0⟩⟩
instance : Inhabited Vec3 := ⟨0⟩
instance : Inhabited Vec2 := ⟨⟨0, 0⟩⟩
instance : Inhabited Vec4 := ⟨0⟩

/-- Dot product on `Vec3`. -/
def dot3 (u v : Vec3) : ℚ := u.x * v.x + u.y * v.y + u.z * v.z

/-- Cross product on `Vec3` (the component formula used by `tri_face_norm`). -/
def cross3 (u v : Vec3) : Vec3 :=
  ⟨u.y * v.z - u.z * v.y, u.z * v.x - u.x * v.z, u.x * v.y - u.y * v.x⟩

/-- `tools.tri_face_norm(p1, p2, p3, normalized=False)`: the raw
(area-weighted) face normal `cross (p2 - p1) (p3 - p1)`.  The
`normalized=True` form is `(tri_face_norm p1 p2 p3).normalized()`,
represented symbolically by this raw vector. -/
def tri_face_norm (p1 p2 p3 : Vec3) : Vec3 := cross3 (p2 - p1) (p3 - p1)

/-- `sameRay3 u v` decides `u.normalized() == v.normalized()` from the raw
vectors: both are zero, or they are parallel with positive dot product. -/
def sameRay3 (u v : Vec3) : Bool :=
  (decide (u = 0) && decide (v = 0)) ||
    (decide (cross3 u v = 0) && decide (0 < dot3 u v))

/-- `unitDotLt u v c` decides `u.normalized().dot(v.normalized()) < c`
from the raw vectors `u`, `v` (with `normalized()` of the zero vector being
the zero vector):  writing `d = u⬝v` and `n = (u⬝u)(v⬝v)`, the comparison
`d / √n < c` is resolved by sign analysis and squaring. -/
def unitDotLt (u v : Vec3) (c : ℚ) : Bool :=
  let d := dot3 u v
  let n := dot3 u u * dot3 v v
  if n = 0 then decide (0 < c)
  else if d < 0 then
    if 0 ≤ c then true else decide (c ^ 2 * n < d ^ 2)
  else
    if c ≤ 0 then false else decide (d ^ 2 < c ^ 2 * n)

/-! ## `tools.connect_lines` -/

/-- `tools._connect_lines(upper, lower, wrap_around, ccw)`.  A triangle-index
pair `(upper_tuple, lower_tuple)` is embedded as `List ℕ × List ℕ`; the
`ValueError` raised on a malformed `(upper, lower)` combination is embedded
as `Except.error`. -/
def _connect_lines (upper lower : ℕ) (wrap_around ccw : Bool) :
    Except String (List (List ℕ × List ℕ)) :=
  if ¬(1 < upper ∧ upper = lower ∨ ([upper, lower].count 1 = 1)) then
    .error "Wrong input. upper and lower either need to be the same and > 1 or any combination of 1 and >=2"
  else if upper = 1 ∨ lower = 1 then
    if upper = 1 then
      if wrap_around then
        if ccw then .ok ((List.range lower).map fun i => ([0], [i, (i + 1) % lower]))
        else .ok ((List.range lower).map fun i => ([0], [(i + 1) % lower, i]))
      else
        if ccw then .ok ((List.range (lower - 1)).map fun i => ([0], [i, i + 1]))
        else .ok ((List.range (lower - 1)).map fun i => ([0], [i + 1, i]))
    else
      if wrap_around then
        if ccw then .ok ((List.range upper).map fun i => ([(i + 1) % upper, i], [0]))
        else .ok ((List.range upper).map fun i => ([i, (i + 1) % upper], [0]))
      else
        if ccw then .ok ((List.range (upper - 1)).map fun i => ([i + 1, i], [0]))
        else .ok ((List.range (upper - 1)).map fun i => ([i, i + 1], [0]))
  else
    .ok ((List.range (if wrap_around then upper else upper - 1)).foldl
      (fun indices i =>
        let next_i := (i + 1) % upper
        if ccw then
          indices ++ [([i], [i, next_i]), ([next_i, i], [next_i])]
        else
          indices ++ [([i], [next_i, i]), ([i, next_i], [next_i])]) [])

/-- `tools.connect_lines(upper, lower, wrap_around=True, ccw=True)`: the
public entry point.  The process-global memoization cache is semantically
transparent (`_connect_lines` is pure), so the embedding is the uncached
function with the Python defaults. -/
def connect_lines (upper lower : ℕ) (wrap_around : Bool := true)
    (ccw : Bool := true) : Except String (List (List ℕ × List ℕ)) :=
  _connect_lines upper lower wrap_around ccw

/-! ## List helpers (dict / list update primitives used by the embedding) -/

/-- Update position `i` of a list in place (no-op when out of range). -/
def listModify (l : List α) (i : ℕ) (f : α → α) : List α :=
  match l, i with
  | [], _ => []
  | a :: l, 0 => f a :: l
  | a :: l, n + 1 => a :: listModify l n f

/-! ## The mesh graph (`mesh.Mesh`) -/

/-- A normal value stored on a vertex or emitted by `export`.
`sentinel` is the placeholder `Vec3(-2, -2, -2)` set by `_Vertex.__init__`;
`unit s` denotes the normalized vector `s.normalized()` (with raw
representative `s`) — the only other values the code ever stores/emits. -/
inductive NormalV where
  | sentinel : NormalV
  | unit : Vec3 → NormalV
deriving DecidableEq, Repr

/-- `mesh.Mesh._Vertex`: position, color, texture coordinate, the incidence
list of triangle ids (append-ordered), and the assigned normal. -/
structure Vertex where
  point : Vec3
  color : Vec4
  texCoord : Vec2
  triangles : List ℕ
  normal : NormalV
deriving DecidableEq, Repr

instance : Inhabited Vertex := ⟨⟨default, default, default, [], .sentinel⟩⟩

/-- `mesh.Mesh._Triangle`: the three vertex references (by id) and the
frozen raw face normal `_normal_mag` (the unit normal `_normal` is its
normalization, represented by the same raw vector). -/
structure Triangle where
  va : ℕ
  vb : ℕ
  vc : ℕ
  normalMag : Vec3
deriving DecidableEq, Repr

instance : Inhabited Triangle := ⟨⟨0, 0, 0, 0⟩⟩

/-- `mesh.Mesh._Point`: a position and the insertion-ordered dedup map from
`(color, tex_coord)` to vertex id. -/
structure MPoint where
  point : Vec3
  combinations : List ((Vec4 × Vec2) × ℕ)
deriving DecidableEq, Repr

/-- `mesh.Mesh`: the points dict (insertion-ordered, keyed by position), and
the vertex and triangle stores.  Ids are dense, and the Python dicts
`_vertices` / `_triangles` are populated in id order, so both embed as
lists indexed by id; `_v_id` / `_t_id` are the list lengths. -/
structure Mesh where
  points : List (Vec3 × MPoint)
  vertices : List Vertex
  triangles : List Triangle
deriving DecidableEq, Repr

/-- The empty mesh (`Mesh.__init__`). -/
def Mesh.init : Mesh := ⟨[], [], []⟩

/-- Read vertex `vid` (`self._vertices[v_id]`; a `KeyError` id returns the
default, ruled out by the well-formedness hypotheses of the theorems). -/
def Mesh.getV (m : Mesh) (vid : ℕ) : Vertex := m.vertices.getD vid default

/-- Read triangle `tid` (`self._triangles[t_id]`, same convention). -/
def Mesh.getT (m : Mesh) (tid : ℕ) : Triangle := m.triangles.getD tid default

/-- Update vertex `vid` in place. -/
def Mesh.updV (m : Mesh) (vid : ℕ) (f : Vertex → Vertex) : Mesh :=
  { m with vertices := listModify m.vertices vid f }

/-- Update triangle `tid` in place. -/
def Mesh.updT (m : Mesh) (tid : ℕ) (f : Triangle → Triangle) : Mesh :=
  { m with triangles := listModify m.triangles tid f }

/-- `Mesh.insert_unique_vertex(point, color, tex_coord)`: append a fresh
vertex, bypassing the dedup map; returns the updated mesh and the new id. -/
def Mesh.insert_unique_vertex (m : Mesh) (p : Vec3) (c : Vec4) (tc : Vec2) :
    Mesh × ℕ :=
  ({ m with vertices := m.vertices ++ [⟨p, c, tc, [], .sentinel⟩] },
   m.vertices.length)

/-- Look up the `_points` dict (`point in self._points` / `self._points[point]`). -/
def lookupPoint (p : Vec3) : List (Vec3 × MPoint) → Option MPoint
  | [] => none
  | (q, pt) :: rest => if p = q then some pt else lookupPoint p rest

/-- Store into the `_points` dict (in-place update if the key exists,
append otherwise). -/
def storePoint (p : Vec3) (pt : MPoint) : List (Vec3 × MPoint) → List (Vec3 × MPoint)
  | [] => [(p, pt)]
  | (q, pt') :: rest =>
      if p = q then (q, pt) :: rest else (q, pt') :: storePoint p pt rest

/-- Look up a `(color, tex_coord)` key in a point's `_combinations` dict. -/
def lookupCombo (k : Vec4 × Vec2) : List ((Vec4 × Vec2) × ℕ) → Option ℕ
  | [] => none
  | (k', vid) :: rest => if k = k' then some vid else lookupCombo k rest

/-- `mesh.Mesh._Point.add_vertex(color, tex_coord, mesh)`: dedup lookup on
`(color, tex_coord)`; on a miss, `insert_unique_vertex` and register. -/
def MPoint.add_vertex (pt : MPoint) (c : Vec4) (tc : Vec2) (m : Mesh) :
    Mesh × MPoint × ℕ :=
  match lookupCombo (c, tc) pt.combinations with
  | some vid => (m, pt, vid)
  | none =>
      let r := m.insert_unique_vertex pt.point c tc
      (r.1, { pt with combinations := pt.combinations ++ [((c, tc), r.2)] }, r.2)

/-- `mesh.Mesh.add_vertex(point, color, tex_coord)`: create the point on
first sight, then delegate to `_Point.add_vertex`. -/
def Mesh.add_vertex (m : Mesh) (p : Vec3) (c : Vec4 := ⟨1, 1, 1, 1⟩)
    (tc : Vec2 := ⟨0, 0⟩) : Mesh × ℕ :=
  let pt : MPoint :=
    match lookupPoint p m.points with
    | some pt => pt
    | none => ⟨p, []⟩
  let r := pt.add_vertex c tc m
  ({ r.1 with points := storePoint p r.2.1 m.points }, r.2.2)

/-- `_Vertex.add_to_triangle(triangle)`: append `tid` to the incidence list. -/
def Mesh.add_to_triangle (m : Mesh) (vid tid : ℕ) : Mesh :=
  m.updV vid fun v => { v with triangles := v.triangles ++ [tid] }

/-- `mesh.Mesh.add_triangle(va, vb, vc)`: `none` embeds the `KeyError` on a
nonexistent vertex id; otherwise register the new triangle (its constructor
appends itself to each vertex's incidence list in the order `va, vb, vc` and
freezes the raw face normal from the three current positions). -/
def Mesh.add_triangle (m : Mesh) (a b c : ℕ) : Option (Mesh × ℕ) :=
  match m.vertices[a]?, m.vertices[b]?, m.vertices[c]? with
  | some va, some vb, some vc =>
      let tid := m.triangles.length
      let m1 := ((m.add_to_triangle a tid).add_to_triangle b tid).add_to_triangle c tid
      some ({ m1 with
              triangles := m1.triangles ++
                [⟨a, b, c, tri_face_norm va.point vb.point vc.point⟩] }, tid)
  | _, _, _ => none

/-- `_Triangle.replace_vertex(old, new)` on the triangle record: replace the
first of `va, vb, vc` equal to `old` (the trailing `ValueError` branch, when
`old` occupies no slot, leaves the record unchanged here and is ruled out by
the theorems' hypotheses). -/
def Triangle.replaceV (t : Triangle) (old new : ℕ) : Triangle :=
  if t.va = old then { t with va := new }
  else if t.vb = old then { t with vb := new }
  else if t.vc = old then { t with vc := new }
  else t

/-- `_Triangle.replace_vertex(old, new)` at the mesh level: rewrite the slot
and run `new.add_to_triangle(self)`. -/
def Mesh.replace_vertex (m : Mesh) (tid old new : ℕ) : Mesh :=
  (m.updT tid fun t => t.replaceV old new).add_to_triangle new tid

/-- `_Vertex.remove_from_triangle(triangle)`: pop the first occurrence of
`tid` from the incidence list (`ValueError` when absent, again ruled out by
hypotheses; the embedding leaves the list unchanged there). -/
def removeFirst (tid : ℕ) : List ℕ → List ℕ
  | [] => []
  | t :: rest => if t = tid then rest else t :: removeFirst tid rest

/-- `remove_from_triangle` at the mesh level. -/
def Mesh.remove_from_triangle (m : Mesh) (vid tid : ℕ) : Mesh :=
  m.updV vid fun v => { v with triangles := removeFirst tid v.triangles }

/-- Set a vertex's normal (`v.normal = value`). -/
def Mesh.setNormal (m : Mesh) (vid : ℕ) (n : NormalV) : Mesh :=
  m.updV vid fun v => { v with normal := n }

/-! ## The smoothing / edge-splitting pass (`Mesh._compute_smooth_normals`) -/

/-- One assignment `d[t] = vid` into the per-point `tris` dict comprehension
(Python dicts keep the first-insertion key order; a reassignment updates the
value in place). -/
def dictInsertTV (t vid : ℕ) : List (ℕ × ℕ) → List (ℕ × ℕ)
  | [] => [(t, vid)]
  | (t', v') :: rest =>
      if t = t' then (t, vid) :: rest else (t', v') :: dictInsertTV t vid rest

/-- Association lookup in the `tris` dict (`triangles[t]`). -/
def lookupTV (t : ℕ) : List (ℕ × ℕ) → Option ℕ
  | [] => none
  | (t', v) :: rest => if t = t' then some v else lookupTV t rest

/-- The per-point incidence dict
`{t: self._vertices[v_id] for v_id in p.vertices for t in self._vertices[v_id].triangles}`
(vertices in dedup-registration order, triangles in incidence-list order;
values are embedded as vertex ids). -/
def Mesh.trisFor (m : Mesh) (pt : MPoint) : List (ℕ × ℕ) :=
  pt.combinations.foldl
    (fun acc kv =>
      (m.getV kv.2).triangles.foldl (fun acc t => dictInsertTV t kv.2 acc) acc)
    []

/-- The inner loop of `_compute_normal_groups`: `t` is accepted by group `g`
when no member `tt` satisfies `t.normal.dot(tt.normal) < split_cos`. -/
def groupAccepts (m : Mesh) (splitCos : ℚ) (t : ℕ) (g : List ℕ) : Bool :=
  g.all fun tt => !unitDotLt (m.getT t).normalMag (m.getT tt).normalMag splitCos

/-- The `g_id` search of `_compute_normal_groups`: the index of the first
group accepting `t`, `none` for the Python sentinel `g_id == -1`. -/
def pickGroup (m : Mesh) (splitCos : ℚ) (t : ℕ) : List (List ℕ) → Option ℕ
  | [] => none
  | g :: gs =>
      if groupAccepts m splitCos t g then some 0
      else (pickGroup m splitCos t gs).map (· + 1)

/-- `Mesh._compute_normal_groups(triangles, split_cos)`: single-pass greedy
grouping of the `tris` keys, in order; join the first unanimously accepting
group, else start a new group. -/
def _compute_normal_groups (m : Mesh) (tris : List ℕ) (splitCos : ℚ) :
    List (List ℕ) :=
  tris.foldl
    (fun groups t =>
      if groups.isEmpty then [[t]]
      else
        match pickGroup m splitCos t groups with
        | some i => listModify groups i (· ++ [t])
        | none => groups ++ [[t]])
    []

/-- The raw normal sum `n = Vec3(0); for t in g: n += t.normal_mag` of a
group; the group's averaged normal is `n.normalized()`, represented by this
raw sum. -/
def groupSum (m : Mesh) (g : List ℕ) : Vec3 :=
  g.foldl (fun n t => n + (m.getT t).normalMag) 0

/-- The `v2n[vertex][normal] = [triangle, ...]` structure: an
insertion-ordered assoc list over vertex ids, whose values are
insertion-ordered assoc lists over normals (keyed, in the code, by the
normalized float vector; here by the raw sum compared via `sameRay3`). -/
abbrev V2N := List (ℕ × List (Vec3 × List ℕ))

/-- Insert into the inner normal-keyed dict: append `t` under an existing
key equal (as a normalized vector, i.e. `sameRay3`) to `n`, else append the
new key `n` with `[t]`. -/
def innerInsert (n : Vec3) (t : ℕ) : List (Vec3 × List ℕ) → List (Vec3 × List ℕ)
  | [] => [(n, [t])]
  | (k, ts) :: rest =>
      if sameRay3 n k then (k, ts ++ [t]) :: rest
      else (k, ts) :: innerInsert n t rest

/-- One iteration of the `v2n` construction for triangle `t` of a group with
normal `n` incident via vertex `vid`. -/
def v2nInsert (vid : ℕ) (n : Vec3) (t : ℕ) : V2N → V2N
  | [] => [(vid, [(n, [t])])]
  | (v', e) :: rest =>
      if vid = v' then (v', innerInsert n t e) :: rest
      else (v', e) :: v2nInsert vid n t rest

/-- `Mesh._compute_vertex_duplication(triangles, groups)`: compute each
group's summed raw normal and fill `v2n` group by group, triangle by
triangle (the Python code precomputes the `normals` list and then zips; the
fold below interleaves the same computations in the same order). -/
def _compute_vertex_duplication (m : Mesh) (tris : List (ℕ × ℕ))
    (groups : List (List ℕ)) : V2N :=
  groups.foldl
    (fun v2n g =>
      let n := groupSum m g
      g.foldl
        (fun v2n t =>
          match lookupTV t tris with
          | some vid => v2nInsert vid n t v2n
          | none => v2n)
        v2n)
    []

/-- The split step for one extra normal key `(n, ts)` of an over-clustered
vertex `vid`: `insert_unique_vertex` a copy, assign it `n`, and redirect
every triangle of that key from `vid` to the new vertex. -/
def Mesh.splitOne (m : Mesh) (vid : ℕ) (n : Vec3) (ts : List ℕ) : Mesh :=
  let v := m.getV vid
  let r := m.insert_unique_vertex v.point v.color v.texCoord
  let m2 := r.1.setNormal r.2 (.unit n)
  ts.foldl (fun mm t => (mm.replace_vertex t vid r.2).remove_from_triangle vid t) m2

/-- The body of the final loop of `_compute_smooth_normals` for one `v2n`
entry: a single normal key is assigned directly; with several, the first is
assigned to `vid` and each further key is split off.  (An empty entry would
be an `IndexError` on `list(v2n[v].keys())[0]` in Python; `v2n` entries are
never empty.) -/
def Mesh.processVertexEntry (m : Mesh) (vid : ℕ) (entry : List (Vec3 × List ℕ)) :
    Mesh :=
  match entry with
  | [] => m
  | [(n, _)] => m.setNormal vid (.unit n)
  | (n, _) :: rest =>
      let m1 := m.setNormal vid (.unit n)
      rest.foldl (fun mm kt => mm.splitOne vid kt.1 kt.2) m1

/-- The whole body of `_compute_smooth_normals` for one point. -/
def Mesh.processPoint (m : Mesh) (splitCos : ℚ) (pt : MPoint) : Mesh :=
  let tris := m.trisFor pt
  let groups := _compute_normal_groups m (tris.map Prod.fst) splitCos
  let v2n := _compute_vertex_duplication m tris groups
  v2n.foldl (fun mm ve => mm.processVertexEntry ve.1 ve.2) m

/-- The state of the smoothing pass after the first `k` points have been
processed (the pass iterates `self._points.values()` in insertion order;
the points dict itself is never modified by the pass). -/
def Mesh.smoothPrefix (m : Mesh) (splitCos : ℚ) (k : ℕ) : Mesh :=
  (m.points.take k).foldl (fun mm pp => mm.processPoint splitCos pp.2) m

/-- `Mesh._compute_smooth_normals(edge_angle)`, parametrized by
`split_cos = cos(radians(edge_angle))`. -/
def Mesh._compute_smooth_normals (m : Mesh) (splitCos : ℚ) : Mesh :=
  m.points.foldl (fun mm pp => mm.processPoint splitCos pp.2) m

/-! ## `Mesh.export` -/

/-- A color emitted by `export`: either a plain `Vec4`, or
`Vec4(*tuple(n.normalized()), 1.0)` for the raw vector `n`
(the `normal_as_color` debug mode). -/
inductive ColorOut where
  | c : Vec4 → ColorOut
  | unitColor : Vec3 → ColorOut
deriving DecidableEq, Repr

/-- One vertex record written by `VertexArray.add_row`. -/
structure Row where
  point : Vec3
  normal : NormalV
  color : ColorOut
  tex : Vec2
deriving DecidableEq, Repr

/-- Component-wise `Vec4` sum divided by 3 (`c = Vec4(0); c += v.color ...;
c /= 3`). -/
def avg3 (c1 c2 c3 : Vec4) : Vec4 :=
  ⟨(c1.r + c2.r + c3.r) / 3, (c1.g + c2.g + c3.g) / 3,
   (c1.b + c2.b + c3.b) / 3, (c1.a + c2.a + c3.a) / 3⟩

/-- The `c` local of the flat-shading branch of `export` (`none` embeds
Python's `c = None`, which is never emitted because the emitted color is
`c if flat_color else v.color`). -/
def Mesh.flatC (m : Mesh) (flat_color normal_as_color : Bool) (t : Triangle) :
    Option ColorOut :=
  if flat_color && !normal_as_color then
    some (.c (avg3 (m.getV t.va).color (m.getV t.vb).color (m.getV t.vc).color))
  else if normal_as_color then some (.unitColor t.normalMag)
  else none

/-- The flat-shading branch of `export`: per triangle, three `add_row` calls
(slots in order `va, vb, vc`, each with the triangle's frozen unit normal
`t.normal = t.normal_mag.normalized()`) and one `add_triangle` with the
three fresh consecutive row ids. -/
def Mesh.exportFlat (m : Mesh) (flat_color normal_as_color : Bool) :
    List Row × List (ℕ × ℕ × ℕ) :=
  m.triangles.foldl
    (fun out t =>
      let c := m.flatC flat_color normal_as_color t
      let base := out.1.length
      let rows := [t.va, t.vb, t.vc].map fun vid =>
        let v := m.getV vid
        Row.mk v.point (.unit t.normalMag)
          (if flat_color then c.getD (.c v.color) else .c v.color) v.texCoord
      (out.1 ++ rows, out.2 ++ [(base, base + 1, base + 2)]))
    ([], [])

/-- The color emitted for a vertex in the smooth branch when
`normal_as_color` is set: `Vec4(*tuple(v.normal), 1.0)` (the sentinel
`Vec3(-2)` gives the plain color `(-2, -2, -2, 1)`). -/
def nColor : NormalV → ColorOut
  | .sentinel => .c ⟨-2, -2, -2, 1⟩
  | .unit s => .unitColor s

/-- The smooth-shading branch of `export`: run the edge-splitting pass, then
one row per vertex in id order (so the `v2v` renumbering dict is the
identity on ids) and one index triple per triangle. -/
def Mesh.exportSmooth (m : Mesh) (splitCos : ℚ) (normal_as_color : Bool) :
    List Row × List (ℕ × ℕ × ℕ) :=
  let m' := m._compute_smooth_normals splitCos
  (m'.vertices.map fun v =>
     Row.mk v.point v.normal
       (if normal_as_color then nColor v.normal else .c v.color) v.texCoord,
   m'.triangles.map fun t => (t.va, t.vb, t.vc))

/-- `Mesh.export(flat_shading, flat_color, edge_angle, normal_as_color)`,
with `edge_angle` passed as `split_cos` (see the module conventions). -/
def Mesh.export (m : Mesh) (flat_shading flat_color : Bool) (splitCos : ℚ)
    (normal_as_color : Bool) : List Row × List (ℕ × ℕ × ℕ) :=
  if flat_shading then m.exportFlat flat_color normal_as_color
  else m.exportSmooth splitCos normal_as_color

/-! ## Reachable mesh states -/

/-- Meshes reachable from `Mesh.__init__` by `add_vertex` / `add_triangle`
calls (an `add_triangle` step requires the three ids to exist, i.e. the call
that does not raise `KeyError`). -/
inductive Built : Mesh → Prop
  | init : Built Mesh.init
  | vertex {m : Mesh} (p : Vec3) (c : Vec4) (tc : Vec2) :
      Built m → Built (m.add_vertex p c tc).1
  | triangle {m m' : Mesh} {a b c tid : ℕ} :
      Built m → m.add_triangle a b c = some (m', tid) → Built m'

/-! ## Lemmas: `connect_lines` (claim C6) -/

theorem band_foldl_length (n : ℕ) (ccw : Bool) (l : List ℕ)
    (init : List (List ℕ × List ℕ)) :
    (l.foldl
      (fun indices i =>
        let next_i := (i + 1) % n
        if ccw then
          indices ++ [([i], [i, next_i]), ([next_i, i], [next_i])]
        else
          indices ++ [([i], [next_i, i]), ([i, next_i], [next_i])]) init).length
      = init.length + 2 * l.length := by
  induction l generalizing init with
  | nil => simp
  | cons a l ih =>
      rw [List.foldl_cons, ih]
      cases ccw <;> simp <;> omega

/-- The length of `_connect_lines` output in the uniform-band branch. -/
theorem _connect_lines_band_length (n : ℕ) (hn : 1 < n) (wa ccw : Bool) :
    ∃ r, _connect_lines n n wa ccw = .ok r ∧
      r.length = 2 * (if wa then n else n - 1) := by
  have hcond : ¬¬(1 < n ∧ n = n ∨ [n, n].count 1 = 1) := by
    simp only [not_not]
    exact Or.inl ⟨hn, by simp⟩
  have hpole : ¬(n = 1 ∨ n = 1) := by omega
  unfold _connect_lines
  rw [if_neg hcond, if_neg hpole]
  refine ⟨_, rfl, ?_⟩
  rw [band_foldl_length]
  simp

/-- Claim C6: `connect_lines(n, n, wrap_around=True)` yields `2n` pairs and
`wrap_around=False` yields `2(n-1)` for `n > 1`; `connect_lines(1, n)` and
`connect_lines(n, 1)` (default arguments) yield `n` pairs for `n ≥ 2`; any
`(upper, lower)` that is neither (equal and both `> 1`) nor (exactly one
equal to `1`) raises the `ValueError`. -/
theorem connect_lines_counts :
    (∀ n : ℕ, 1 < n →
      (∃ r, connect_lines n n = .ok r ∧ r.length = 2 * n) ∧
      (∃ r, connect_lines n n false = .ok r ∧ r.length = 2 * (n - 1))) ∧
    (∀ n : ℕ, 2 ≤ n →
      (∃ r, connect_lines 1 n = .ok r ∧ r.length = n) ∧
      (∃ r, connect_lines n 1 = .ok r ∧ r.length = n)) ∧
    (∀ upper lower : ℕ, ∀ wa ccw : Bool,
      ¬(1 < upper ∧ upper = lower) → ¬([upper, lower].count 1 = 1) →
      ∃ e, connect_lines upper lower wa ccw = .error e) := by
  refine ⟨?_, ?_, ?_⟩
  · intro n hn
    exact ⟨(by simpa using _connect_lines_band_length n hn true true),
           (by simpa using _connect_lines_band_length n hn false true)⟩
  · intro n hn
    have hne : ¬n = 1 := by omega
    constructor
    · have hcount : [1, n].count 1 = 1 := by
        have h1 : ¬((1 : ℕ) = n) := by omega
        simp [List.count_cons, h1]
      have hcond : ¬¬(1 < 1 ∧ 1 = n ∨ [1, n].count 1 = 1) := by
        simp only [not_not]
        exact Or.inr hcount
      unfold connect_lines _connect_lines
      rw [if_neg hcond]
      refine ⟨(List.range n).map fun i => ([0], [i, (i + 1) % n]), ?_, by simp⟩
      norm_num
    · have hcount : [n, 1].count 1 = 1 := by
        have h1 : ¬((1 : ℕ) = n) := by omega
        simp [List.count_cons, h1]
      have hcond : ¬¬(1 < n ∧ n = 1 ∨ [n, 1].count 1 = 1) := by
        simp only [not_not]
        exact Or.inr hcount
      unfold connect_lines _connect_lines
      rw [if_neg hcond, if_pos (Or.inr rfl), if_neg hne]
      refine ⟨(List.range n).map fun i => ([(i + 1) % n, i], [0]), ?_, by simp⟩
      norm_num
  · intro u l wa ccw h1 h2
    refine ⟨"Wrong input. upper and lower either need to be the same and > 1 or any combination of 1 and >=2", ?_⟩
    unfold connect_lines _connect_lines
    rw [if_pos]
    rintro (h | h)
    · exact h1 ⟨h.1, h.2⟩
    · exact h2 h

/-- Witness for C6 at concrete inputs (`n = 4`, and the invalid pair
`(2, 3)` from the spec). -/
theorem connect_lines_counts_witness :
    ((∃ r, connect_lines 4 4 = .ok r ∧ r.length = 2 * 4) ∧
      (∃ r, connect_lines 4 4 false = .ok r ∧ r.length = 2 * (4 - 1))) ∧
    ((∃ r, connect_lines 1 4 = .ok r ∧ r.length = 4) ∧
      (∃ r, connect_lines 4 1 = .ok r ∧ r.length = 4)) ∧
    (∃ e, connect_lines 2 3 true true = .error e) :=
  ⟨connect_lines_counts.1 4 (by decide),
   connect_lines_counts.2.1 4 (by decide),
   connect_lines_counts.2.2 2 3 true true (by decide) (by decide)⟩

/-! ## Lemmas: triangle construction and `replace_vertex` (claim C7) -/

/-- `_Triangle.__getitem__`: the three vertex slots, in order. -/
def Triangle.slot (t : Triangle) : Fin 3 → ℕ
  | 0 => t.va
  | 1 => t.vb
  | 2 => t.vc

theorem getD_snoc_length {α : Type _} (l : List α) (a d : α) :
    (l ++ [a]).getD l.length d = a := by
  simp [List.getD_eq_getElem?_getD, List.getElem?_append_right]

/-- Claim C7: the raw face normal (and hence the unit face normal, its
normalization) is frozen at construction from the three vertex positions in
order; a successful `replace_vertex old new` (`old` is a slot, `new ≠ old`)
changes exactly one slot and never the stored normal; and the stored normal
is unchanged by any sequence of `replace_vertex` applications. -/
theorem triangle_normal_frozen :
    (∀ (m m' : Mesh) (a b c tid : ℕ), m.add_triangle a b c = some (m', tid) →
      m'.getT tid = ⟨a, b, c,
        tri_face_norm (m.getV a).point (m.getV b).point (m.getV c).point⟩) ∧
    (∀ (t : Triangle) (old new : ℕ), old ≠ new →
      (∃ i, t.slot i = old) →
      (t.replaceV old new).normalMag = t.normalMag ∧
      ∃! i : Fin 3, (t.replaceV old new).slot i ≠ t.slot i) ∧
    (∀ (t : Triangle) (l : List (ℕ × ℕ)),
      (l.foldl (fun t pr => t.replaceV pr.1 pr.2) t).normalMag = t.normalMag) := by
  refine ⟨?_, ?_, ?_⟩
  · intro m m' a b c tid h
    unfold Mesh.add_triangle at h
    split at h
    · rename_i va vb vc ha hb hc
      injection h with h'
      injection h' with hm htid
      subst hm
      subst htid
      have hva : m.getV a = va := by
        simp [Mesh.getV, List.getD_eq_getElem?_getD, ha]
      have hvb : m.getV b = vb := by
        simp [Mesh.getV, List.getD_eq_getElem?_getD, hb]
      have hvc : m.getV c = vc := by
        simp [Mesh.getV, List.getD_eq_getElem?_getD, hc]
      rw [hva, hvb, hvc]
      have htris : (((m.add_to_triangle a m.triangles.length).add_to_triangle b
          m.triangles.length).add_to_triangle c m.triangles.length).triangles
          = m.triangles := rfl
      simp [Mesh.getT, htris, getD_snoc_length]
    · exact Option.noConfusion h
  · intro t old new hne hmem
    constructor
    · simp only [Triangle.replaceV]
      split <;> [rfl; skip] <;> split <;> [rfl; skip] <;> split <;> rfl
    · obtain ⟨i, hi⟩ := hmem
      simp only [Triangle.replaceV]
      by_cases h1 : t.va = old
      · refine ⟨0, ?_, ?_⟩
        · simp only [if_pos h1, Triangle.slot]
          omega
        · intro j hj
          match j with
          | 0 => rfl
          | 1 => exact absurd (by simp only [if_pos h1, Triangle.slot]) (fun h => hj h)
          | 2 => exact absurd (by simp only [if_pos h1, Triangle.slot]) (fun h => hj h)
      · by_cases h2 : t.vb = old
        · refine ⟨1, ?_, ?_⟩
          · simp only [if_neg h1, if_pos h2, Triangle.slot]
            omega
          · intro j hj
            match j with
            | 1 => rfl
            | 0 => exact absurd (by simp only [if_neg h1, if_pos h2, Triangle.slot]) (fun h => hj h)
            | 2 => exact absurd (by simp only [if_neg h1, if_pos h2, Triangle.slot]) (fun h => hj h)
        · by_cases h3 : t.vc = old
          · refine ⟨2, ?_, ?_⟩
            · simp only [if_neg h1, if_neg h2, if_pos h3, Triangle.slot]
              omega
            · intro j hj
              match j with
              | 2 => rfl
              | 0 => exact absurd (by simp only [if_neg h1, if_neg h2, if_pos h3, Triangle.slot]) (fun h => hj h)
              | 1 => exact absurd (by simp only [if_neg h1, if_neg h2, if_pos h3, Triangle.slot]) (fun h => hj h)
          · exfalso
            match i with
            | 0 => exact h1 hi
            | 1 => exact h2 hi
            | 2 => exact h3 hi
  · intro t l
    induction l generalizing t with
    | nil => rfl
    | cons pr l ih =>
        rw [List.foldl_cons, ih]
        simp only [Triangle.replaceV]
        split <;> [rfl; skip] <;> split <;> [rfl; skip] <;> split <;> rfl

/-- A small concrete mesh used by witnesses: two vertices. -/
def wMesh0 : Mesh :=
  ((Mesh.init.add_vertex ⟨0,0,0⟩ ⟨1,1,1,1⟩ ⟨0,0⟩).1.add_vertex ⟨1,0,0⟩
    ⟨1,1,1,1⟩ ⟨0,0⟩).1

/-- `wMesh0` with one (degenerate) triangle added. -/
def wMesh0T : Mesh × ℕ := (wMesh0.add_triangle 0 1 0).getD (Mesh.init, 0)

/-- Witness for C7 at a concrete mesh (two vertices, one triangle, one
replacement). -/
theorem triangle_normal_frozen_witness :
    (wMesh0T.1.getT 0 = ⟨0, 1, 0,
      tri_face_norm (wMesh0.getV 0).point (wMesh0.getV 1).point
        (wMesh0.getV 0).point⟩) ∧
    ((Triangle.mk 0 1 2 ⟨0,0,1⟩).replaceV 1 5).normalMag
      = (Triangle.mk 0 1 2 ⟨0,0,1⟩).normalMag ∧
    (∃! i : Fin 3, ((Triangle.mk 0 1 2 ⟨0,0,1⟩).replaceV 1 5).slot i
      ≠ (Triangle.mk 0 1 2 ⟨0,0,1⟩).slot i) ∧
    ([((1 : ℕ), (5 : ℕ)), (0, 7)].foldl (fun t pr => t.replaceV pr.1 pr.2)
        (Triangle.mk 0 1 2 ⟨0,0,1⟩)).normalMag = ⟨0,0,1⟩ := by
  refine ⟨?_, ?_, ?_, ?_⟩
  · exact triangle_normal_frozen.1 wMesh0 wMesh0T.1 0 1 0 0
      (by with_unfolding_all rfl)
  · exact (triangle_normal_frozen.2.1 ⟨0, 1, 2, ⟨0,0,1⟩⟩ 1 5 (by decide)
      ⟨1, by decide⟩).1
  · exact (triangle_normal_frozen.2.1 ⟨0, 1, 2, ⟨0,0,1⟩⟩ 1 5 (by decide)
      ⟨1, by decide⟩).2
  · exact triangle_normal_frozen.2.2 ⟨0, 1, 2, ⟨0,0,1⟩⟩ [(1, 5), (0, 7)]

/-! ## Basic lemmas about the list/dict primitives -/

@[simp]
theorem listModify_length (l : List α) (i : ℕ) (f : α → α) :
    (listModify l i f).length = l.length := by
  induction l generalizing i with
  | nil => rfl
  | cons a l ih =>
      cases i with
      | zero => rfl
      | succ n => simp [listModify, ih]

theorem getD_listModify_self (l : List α) (i : ℕ) (f : α → α) (d : α)
    (h : i < l.length) : (listModify l i f).getD i d = f (l.getD i d) := by
  induction l generalizing i with
  | nil => simp at h
  | cons a l ih =>
      cases i with
      | zero => rfl
      | succ n => simpa [listModify] using ih n (by simpa using h)

theorem getD_listModify_ne (l : List α) (i j : ℕ) (f : α → α) (d : α)
    (h : i ≠ j) : (listModify l i f).getD j d = l.getD j d := by
  induction l generalizing i j with
  | nil => rfl
  | cons a l ih =>
      cases i with
      | zero => cases j with
        | zero => exact absurd rfl h
        | succ k => rfl
      | succ n => cases j with
        | zero => rfl
        | succ k => simpa [listModify] using ih n k (by omega)

theorem listModify_of_ge (l : List α) (i : ℕ) (f : α → α) (h : l.length ≤ i) :
    listModify l i f = l := by
  induction l generalizing i with
  | nil => rfl
  | cons a l ih =>
      cases i with
      | zero => simp at h
      | succ n => simp [listModify, ih n (by simpa using h)]

theorem getD_append_lt (l l' : List α) (i : ℕ) (d : α) (h : i < l.length) :
    (l ++ l').getD i d = l.getD i d := by
  simp [List.getD_eq_getElem?_getD, List.getElem?_append_left h]

theorem getD_of_ge (l : List α) (i : ℕ) (d : α) (h : l.length ≤ i) :
    l.getD i d = d := by
  simp [List.getD_eq_getElem?_getD, List.getElem?_eq_none h]

theorem removeFirst_count_self (tid : ℕ) (l : List ℕ) (h : tid ∈ l) :
    (removeFirst tid l).count tid = l.count tid - 1 := by
  induction l with
  | nil => simp at h
  | cons a l ih =>
      by_cases ha : a = tid
      · subst ha
        simp [removeFirst, List.count_cons]
      · have : tid ∈ l := by
          rcases List.mem_cons.1 h with h' | h'
          · exact absurd h'.symm ha
          · exact h'
        simp [removeFirst, ha, List.count_cons, ih this, Ne.symm ha]

theorem removeFirst_count_ne (tid x : ℕ) (l : List ℕ) (h : x ≠ tid) :
    (removeFirst tid l).count x = l.count x := by
  induction l with
  | nil => rfl
  | cons a l ih =>
      by_cases ha : a = tid
      · subst ha
        simp [removeFirst, List.count_cons, h]
      · simp [removeFirst, ha, List.count_cons, ih]

/-! ## Lemmas about the dict lookups/stores -/

theorem lookupPoint_storePoint_self (p : Vec3) (pt : MPoint)
    (l : List (Vec3 × MPoint)) : lookupPoint p (storePoint p pt l) = some pt := by
  induction l with
  | nil => simp [storePoint, lookupPoint]
  | cons a l ih =>
      by_cases h : p = a.1
      · simp [storePoint, h, lookupPoint]
      · simp [storePoint, h, lookupPoint, ih]

theorem lookupPoint_storePoint_ne (p q : Vec3) (pt : MPoint)
    (l : List (Vec3 × MPoint)) (h : q ≠ p) :
    lookupPoint q (storePoint p pt l) = lookupPoint q l := by
  induction l with
  | nil => simp [storePoint, lookupPoint, h]
  | cons a l ih =>
      by_cases hp : p = a.1
      · subst hp
        simp [storePoint, lookupPoint, h, ih]
      · by_cases hq : q = a.1
        · simp [storePoint, lookupPoint, hp, hq]
        · simp [storePoint, lookupPoint, hp, hq, ih]

theorem storePoint_of_lookup_self (p : Vec3) (pt : MPoint)
    (l : List (Vec3 × MPoint)) (h : lookupPoint p l = some pt) :
    storePoint p pt l = l := by
  induction l with
  | nil => simp [lookupPoint] at h
  | cons a l ih =>
      by_cases hp : p = a.1
      · have : a.2 = pt := by simpa [lookupPoint, hp] using h
        subst this
        simp [storePoint, hp]
      · have h' : lookupPoint p l = some pt := by simpa [lookupPoint, hp] using h
        simp [storePoint, hp, ih h']

theorem lookupPoint_mem (p : Vec3) (pt : MPoint) (l : List (Vec3 × MPoint))
    (h : lookupPoint p l = some pt) : (p, pt) ∈ l := by
  induction l with
  | nil => simp [lookupPoint] at h
  | cons a l ih =>
      by_cases hp : p = a.1
      · have h2 : a.2 = pt := by simpa [lookupPoint, hp] using h
        subst h2 hp
        exact List.mem_cons_self _ _
      · exact List.mem_cons_of_mem _ (ih (by simpa [lookupPoint, hp] using h))

theorem lookupPoint_eq_none (p : Vec3) (l : List (Vec3 × MPoint))
    (h : lookupPoint p l = none) : ∀ pr ∈ l, pr.1 ≠ p := by
  induction l with
  | nil => simp
  | cons a l ih =>
      intro pr hpr
      by_cases hp : p = a.1
      · simp [lookupPoint, hp] at h
      · rcases List.mem_cons.1 hpr with h' | h'
        · subst h'
          exact fun hc => hp hc.symm
        · exact ih (by simpa [lookupPoint, hp] using h) pr h'

theorem lookupPoint_append_none (p : Vec3) (l l' : List (Vec3 × MPoint))
    (h : lookupPoint p l = none) :
    lookupPoint p (l ++ l') = lookupPoint p l' := by
  induction l with
  | nil => simp
  | cons a l ih =>
      by_cases hp : p = a.1
      · simp [lookupPoint, hp] at h
      · simpa [lookupPoint, hp] using ih (by simpa [lookupPoint, hp] using h)

theorem storePoint_of_lookup_none (p : Vec3) (pt : MPoint)
    (l : List (Vec3 × MPoint)) (h : lookupPoint p l = none) :
    storePoint p pt l = l ++ [(p, pt)] := by
  induction l with
  | nil => rfl
  | cons a l ih =>
      by_cases hp : p = a.1
      · simp [lookupPoint, hp] at h
      · simp [storePoint, hp, ih (by simpa [lookupPoint, hp] using h)]

theorem lookupCombo_mem (k : Vec4 × Vec2) (vid : ℕ)
    (l : List ((Vec4 × Vec2) × ℕ)) (h : lookupCombo k l = some vid) :
    (k, vid) ∈ l := by
  induction l with
  | nil => simp [lookupCombo] at h
  | cons a l ih =>
      by_cases hk : k = a.1
      · have h2 : a.2 = vid := by simpa [lookupCombo, hk] using h
        subst h2 hk
        exact List.mem_cons_self _ _
      · exact List.mem_cons_of_mem _ (ih (by simpa [lookupCombo, hk] using h))

theorem lookupCombo_append_none (k : Vec4 × Vec2)
    (l l' : List ((Vec4 × Vec2) × ℕ)) (h : lookupCombo k l = none) :
    lookupCombo k (l ++ l') = lookupCombo k l' := by
  induction l with
  | nil => simp
  | cons a l ih =>
      by_cases hk : k = a.1
      · simp [lookupCombo, hk] at h
      · simpa [lookupCombo, hk] using ih (by simpa [lookupCombo, hk] using h)

theorem lookupCombo_eq_none (k : Vec4 × Vec2) (l : List ((Vec4 × Vec2) × ℕ))
    (h : lookupCombo k l = none) : ∀ cb ∈ l, cb.1 ≠ k := by
  induction l with
  | nil => simp
  | cons a l ih =>
      intro cb hcb
      by_cases hk : k = a.1
      · simp [lookupCombo, hk] at h
      · rcases List.mem_cons.1 hcb with h' | h'
        · subst h'
          exact fun hc => hk hc.symm
        · exact ih (by simpa [lookupCombo, hk] using h) cb h'

theorem mem_storePoint (p : Vec3) (pt : MPoint) (l : List (Vec3 × MPoint))
    (pr : Vec3 × MPoint) (h : pr ∈ storePoint p pt l) :
    pr = (p, pt) ∨ pr ∈ l := by
  induction l with
  | nil => simpa [storePoint] using h
  | cons a l ih =>
      by_cases hp : p = a.1
      · rcases List.mem_cons.1 (by simpa [storePoint, hp] using h) with h' | h'
        · subst h'
          exact Or.inl (by rw [hp])
        · exact Or.inr (List.mem_cons_of_mem _ h')
      · rcases List.mem_cons.1 (by simpa [storePoint, hp] using h) with h' | h'
        · exact Or.inr (h' ▸ List.mem_cons_self _ _)
        · rcases ih h' with h'' | h''
          · exact Or.inl h''
          · exact Or.inr (List.mem_cons_of_mem _ h'')

theorem storePoint_keys_of_found (p : Vec3) (pt pt' : MPoint)
    (l : List (Vec3 × MPoint)) (h : lookupPoint p l = some pt') :
    (storePoint p pt l).map Prod.fst = l.map Prod.fst := by
  induction l with
  | nil => simp [lookupPoint] at h
  | cons a l ih =>
      by_cases hp : p = a.1
      · simp [storePoint, hp]
      · simp [storePoint, hp, ih (by simpa [lookupPoint, hp] using h)]

/-! ## Field-preservation helpers for vertex/triangle updates -/

theorem getV_updV_ne (m : Mesh) (vid w : ℕ) (f : Vertex → Vertex) (h : vid ≠ w) :
    (m.updV vid f).getV w = m.getV w := by
  unfold Mesh.updV Mesh.getV
  exact getD_listModify_ne _ _ _ _ _ h

theorem getV_updV_self (m : Mesh) (vid : ℕ) (f : Vertex → Vertex)
    (h : vid < m.vertices.length) :
    (m.updV vid f).getV vid = f (m.getV vid) := by
  unfold Mesh.updV Mesh.getV
  exact getD_listModify_self _ _ _ _ h

theorem getV_updV_pres {β : Type _} (m : Mesh) (vid w : ℕ) (f : Vertex → Vertex)
    (g : Vertex → β) (hf : ∀ v, g (f v) = g v) :
    g ((m.updV vid f).getV w) = g (m.getV w) := by
  by_cases hw : vid = w
  · subst hw
    by_cases hl : vid < m.vertices.length
    · rw [getV_updV_self _ _ _ hl, hf]
    · unfold Mesh.updV Mesh.getV
      rw [listModify_of_ge _ _ _ (by omega)]
  · rw [getV_updV_ne _ _ _ _ hw]

theorem getT_updT_ne (m : Mesh) (tid w : ℕ) (f : Triangle → Triangle) (h : tid ≠ w) :
    (m.updT tid f).getT w = m.getT w := by
  unfold Mesh.updT Mesh.getT
  exact getD_listModify_ne _ _ _ _ _ h

theorem getT_updT_self (m : Mesh) (tid : ℕ) (f : Triangle → Triangle)
    (h : tid < m.triangles.length) :
    (m.updT tid f).getT tid = f (m.getT tid) := by
  unfold Mesh.updT Mesh.getT
  exact getD_listModify_self _ _ _ _ h

/-! ## The dedup well-formedness invariant -/

/-- Well-formedness of the `_points` dedup structure.  This is established
for every mesh built through the public API and is preserved by the
smoothing pass (which never registers its split vertices). -/
structure DedupWF (m : Mesh) : Prop where
  point_key : ∀ pr ∈ m.points, pr.2.point = pr.1
  keys_nodup : (m.points.map Prod.fst).Nodup
  combo_valid : ∀ pr ∈ m.points, ∀ cb ∈ pr.2.combinations,
    cb.2 < m.vertices.length ∧ (m.getV cb.2).point = pr.1 ∧
    (m.getV cb.2).color = cb.1.1 ∧ (m.getV cb.2).texCoord = cb.1.2
  combo_keys_nodup : ∀ pr ∈ m.points, (pr.2.combinations.map Prod.fst).Nodup

/-- Characterization of `add_vertex` by the three paths the code can take:
dedup hit, new `(color, texcoord)` combination at a known point, or a brand
new point. -/
theorem add_vertex_cases (m : Mesh) (p : Vec3) (c : Vec4) (tc : Vec2) :
    (∃ pt vid, lookupPoint p m.points = some pt ∧
      lookupCombo (c, tc) pt.combinations = some vid ∧
      m.add_vertex p c tc = (m, vid)) ∨
    (∃ pt, lookupPoint p m.points = some pt ∧
      lookupCombo (c, tc) pt.combinations = none ∧
      m.add_vertex p c tc =
        ({ points := storePoint p
            { pt with combinations :=
                pt.combinations ++ [((c, tc), m.vertices.length)] } m.points,
           vertices := m.vertices ++ [⟨pt.point, c, tc, [], .sentinel⟩],
           triangles := m.triangles }, m.vertices.length)) ∨
    (lookupPoint p m.points = none ∧
      m.add_vertex p c tc =
        ({ points := m.points ++ [(p, ⟨p, [((c, tc), m.vertices.length)]⟩)],
           vertices := m.vertices ++ [⟨p, c, tc, [], .sentinel⟩],
           triangles := m.triangles }, m.vertices.length)) := by
  rcases hp : lookupPoint p m.points with _ | pt
  · refine Or.inr (Or.inr ⟨rfl, ?_⟩)
    unfold Mesh.add_vertex MPoint.add_vertex
    rw [hp]
    dsimp only [lookupCombo]
    rw [storePoint_of_lookup_none p _ _ hp]
    rfl
  · rcases hc : lookupCombo (c, tc) pt.combinations with _ | vid
    · refine Or.inr (Or.inl ⟨pt, rfl, hc, ?_⟩)
      unfold Mesh.add_vertex MPoint.add_vertex
      rw [hp]
      dsimp only
      rw [hc]
      rfl
    · refine Or.inl ⟨pt, vid, rfl, hc, ?_⟩
      unfold Mesh.add_vertex MPoint.add_vertex
      rw [hp]
      dsimp only
      rw [hc]
      dsimp only
      rw [storePoint_of_lookup_self p _ _ hp]

/-- `add_vertex` on a dedup hit returns the registered id and leaves the
mesh unchanged. -/
theorem add_vertex_of_found (m : Mesh) (p : Vec3) (c : Vec4) (tc : Vec2)
    (pt : MPoint) (vid : ℕ) (hp : lookupPoint p m.points = some pt)
    (hc : lookupCombo (c, tc) pt.combinations = some vid) :
    m.add_vertex p c tc = (m, vid) := by
  unfold Mesh.add_vertex MPoint.add_vertex
  rw [hp]
  dsimp only
  rw [hc]
  dsimp only
  rw [storePoint_of_lookup_self p _ _ hp]

/-- After `add_vertex p c tc`, the returned id is registered for
`(c, tc)` at the point `p`. -/
theorem add_vertex_registered (m : Mesh) (p : Vec3) (c : Vec4) (tc : Vec2) :
    ∃ pt1, lookupPoint p (m.add_vertex p c tc).1.points = some pt1 ∧
      lookupCombo (c, tc) pt1.combinations = some (m.add_vertex p c tc).2 := by
  rcases add_vertex_cases m p c tc with ⟨pt, vid, hp, hc, he⟩ | ⟨pt, hp, hc, he⟩ | ⟨hp, he⟩
  · exact ⟨pt, by rw [he]; exact hp, by rw [he]; exact hc⟩
  · refine ⟨{ pt with combinations :=
        pt.combinations ++ [((c, tc), m.vertices.length)] }, ?_, ?_⟩
    · rw [he]
      exact lookupPoint_storePoint_self p _ m.points
    · rw [he]
      dsimp only
      rw [lookupCombo_append_none _ _ _ hc]
      simp [lookupCombo]
  · refine ⟨⟨p, [((c, tc), m.vertices.length)]⟩, ?_, ?_⟩
    · rw [he]
      dsimp only
      rw [lookupPoint_append_none _ _ _ hp]
      simp [lookupPoint]
    · rw [he]
      simp [lookupCombo]

/-- The immutable per-vertex attributes (position, color, texcoord):
nothing in the code ever modifies them after construction. -/
def Vertex.pct (v : Vertex) : Vec3 × Vec4 × Vec2 := (v.point, v.color, v.texCoord)

theorem pct_point {v w : Vertex} (h : v.pct = w.pct) : v.point = w.point := by
  simpa [Vertex.pct, Prod.ext_iff] using And.left (Prod.mk.injEq .. ▸ h)

theorem pct_fields {v w : Vertex} (h : v.pct = w.pct) :
    v.point = w.point ∧ v.color = w.color ∧ v.texCoord = w.texCoord := by
  simpa [Vertex.pct, Prod.ext_iff] using h

/-- Mesh extension: the points dict is unchanged and every existing vertex
keeps its position/color/texcoord (incidence lists and normals may change,
new vertices may be appended, triangles may change arbitrarily).  Every
operation of the smoothing pass produces an extension. -/
structure MExt (m m' : Mesh) : Prop where
  points_eq : m'.points = m.points
  len_le : m.vertices.length ≤ m'.vertices.length
  pct : ∀ vid < m.vertices.length, (m'.getV vid).pct = (m.getV vid).pct

theorem MExt.refl (m : Mesh) : MExt m m := ⟨rfl, le_refl _, fun _ _ => rfl⟩

theorem MExt.trans {m1 m2 m3 : Mesh} (h1 : MExt m1 m2) (h2 : MExt m2 m3) :
    MExt m1 m3 :=
  ⟨h2.points_eq.trans h1.points_eq, le_trans h1.len_le h2.len_le,
   fun vid hv => (h2.pct vid (lt_of_lt_of_le hv h1.len_le)).trans (h1.pct vid hv)⟩

/-- Dedup well-formedness transfers along mesh extension. -/
theorem DedupWF.mext {m m' : Mesh} (hm : DedupWF m) (h : MExt m m') :
    DedupWF m' := by
  constructor
  · rw [h.points_eq]
    exact hm.point_key
  · rw [h.points_eq]
    exact hm.keys_nodup
  · rw [h.points_eq]
    intro pr hpr cb hcb
    obtain ⟨h1, h2, h3, h4⟩ := hm.combo_valid pr hpr cb hcb
    obtain ⟨hp, hc, ht⟩ := pct_fields (h.pct cb.2 h1)
    exact ⟨lt_of_lt_of_le h1 h.len_le, hp.trans h2, hc.trans h3, ht.trans h4⟩
  · rw [h.points_eq]
    exact hm.combo_keys_nodup

theorem pct_updV (m : Mesh) (vid w : ℕ) (f : Vertex → Vertex)
    (hf : ∀ v, (f v).pct = v.pct) :
    ((m.updV vid f).getV w).pct = (m.getV w).pct :=
  getV_updV_pres m vid w f Vertex.pct hf

theorem MExt.updV (m : Mesh) (vid : ℕ) (f : Vertex → Vertex)
    (hf : ∀ v, (f v).pct = v.pct) : MExt m (m.updV vid f) :=
  ⟨rfl, by simp [Mesh.updV], fun w _ => pct_updV m vid w f hf⟩

theorem MExt.add_to_triangle (m : Mesh) (vid tid : ℕ) :
    MExt m (m.add_to_triangle vid tid) :=
  MExt.updV m vid _ (fun v => rfl)

theorem MExt.setNormal (m : Mesh) (vid : ℕ) (n : NormalV) :
    MExt m (m.setNormal vid n) :=
  MExt.updV m vid _ (fun v => rfl)

theorem MExt.remove_from_triangle (m : Mesh) (vid tid : ℕ) :
    MExt m (m.remove_from_triangle vid tid) :=
  MExt.updV m vid _ (fun v => rfl)

theorem MExt.updT (m : Mesh) (tid : ℕ) (f : Triangle → Triangle) :
    MExt m (m.updT tid f) :=
  ⟨rfl, le_refl _, fun _ _ => rfl⟩

theorem MExt.replace_vertex (m : Mesh) (tid old new : ℕ) :
    MExt m (m.replace_vertex tid old new) :=
  (MExt.updT m tid _).trans (MExt.add_to_triangle _ new tid)

theorem MExt.insert_unique_vertex (m : Mesh) (p : Vec3) (c : Vec4) (tc : Vec2) :
    MExt m (m.insert_unique_vertex p c tc).1 := by
  refine ⟨rfl, by simp [Mesh.insert_unique_vertex], fun vid hv => ?_⟩
  show ((m.vertices ++ _).getD vid default).pct = _
  rw [getD_append_lt _ _ _ _ hv]
  rfl

theorem MExt.splitFold (m2 : Mesh) (vid newId : ℕ) (ts : List ℕ) :
    MExt m2 (ts.foldl
      (fun mm t => (mm.replace_vertex t vid newId).remove_from_triangle vid t) m2) := by
  induction ts generalizing m2 with
  | nil => exact MExt.refl m2
  | cons t ts ih =>
      rw [List.foldl_cons]
      exact ((MExt.replace_vertex m2 t vid newId).trans
        (MExt.remove_from_triangle _ vid t)).trans (ih _)

theorem MExt.splitOne (m : Mesh) (vid : ℕ) (n : Vec3) (ts : List ℕ) :
    MExt m (m.splitOne vid n ts) := by
  unfold Mesh.splitOne
  dsimp only
  exact ((MExt.insert_unique_vertex m _ _ _).trans
    (MExt.setNormal _ _ _)).trans (MExt.splitFold _ vid _ ts)

theorem MExt.splitsFold (m1 : Mesh) (vid : ℕ) (l : List (Vec3 × List ℕ)) :
    MExt m1 (l.foldl (fun mm kt => mm.splitOne vid kt.1 kt.2) m1) := by
  induction l generalizing m1 with
  | nil => exact MExt.refl m1
  | cons kt rest ih =>
      rw [List.foldl_cons]
      exact (MExt.splitOne m1 vid kt.1 kt.2).trans (ih _)

theorem MExt.processVertexEntry (m : Mesh) (vid : ℕ)
    (entry : List (Vec3 × List ℕ)) : MExt m (m.processVertexEntry vid entry) := by
  match entry with
  | [] => exact MExt.refl m
  | [(n, ts)] => exact MExt.setNormal m vid (.unit n)
  | (n, ts) :: kt2 :: rest =>
      show MExt m ((kt2 :: rest).foldl (fun mm kt => mm.splitOne vid kt.1 kt.2)
        (m.setNormal vid (.unit n)))
      exact (MExt.setNormal m vid (.unit n)).trans (MExt.splitsFold _ vid _)

theorem MExt.foldEntries (l : List (ℕ × List (Vec3 × List ℕ))) (m : Mesh) :
    MExt m (l.foldl (fun mm ve => mm.processVertexEntry ve.1 ve.2) m) := by
  induction l generalizing m with
  | nil => exact MExt.refl m
  | cons ve rest ih =>
      rw [List.foldl_cons]
      exact (MExt.processVertexEntry m ve.1 ve.2).trans (ih _)

theorem MExt.processPoint (m : Mesh) (splitCos : ℚ) (pt : MPoint) :
    MExt m (m.processPoint splitCos pt) := by
  unfold Mesh.processPoint
  exact MExt.foldEntries _ m

theorem MExt.foldPoints (l : List (Vec3 × MPoint)) (splitCos : ℚ) (m : Mesh) :
    MExt m (l.foldl (fun mm pp => mm.processPoint splitCos pp.2) m) := by
  induction l generalizing m with
  | nil => exact MExt.refl m
  | cons pp rest ih =>
      rw [List.foldl_cons]
      exact (MExt.processPoint m splitCos pp.2).trans (ih _)

theorem MExt.smooth (m : Mesh) (splitCos : ℚ) :
    MExt m (m._compute_smooth_normals splitCos) := by
  unfold Mesh._compute_smooth_normals
  exact MExt.foldPoints m.points splitCos m

/-- `add_triangle` produces a mesh extension. -/
theorem MExt.add_triangle {m m' : Mesh} {a b c tid : ℕ}
    (h : m.add_triangle a b c = some (m', tid)) : MExt m m' := by
  unfold Mesh.add_triangle at h
  split at h
  · rename_i va vb vc ha hb hc
    injection h with h'
    injection h' with hm htid
    subst hm
    refine (((MExt.add_to_triangle m a m.triangles.length).trans
      (MExt.add_to_triangle _ b m.triangles.length)).trans
      (MExt.add_to_triangle _ c m.triangles.length)).trans ?_
    exact ⟨rfl, le_refl _, fun _ _ => rfl⟩
  · exact Option.noConfusion h

/-- `add_vertex` preserves dedup well-formedness. -/
theorem DedupWF.add_vertex {m : Mesh} (hm : DedupWF m) (p : Vec3) (c : Vec4)
    (tc : Vec2) : DedupWF (m.add_vertex p c tc).1 := by
  rcases add_vertex_cases m p c tc with ⟨pt, vid, hp, hc, he⟩ | ⟨pt, hp, hc, he⟩ | ⟨hp, he⟩
  · rw [he]
    exact hm
  · rw [he]
    have hptmem : (p, pt) ∈ m.points := lookupPoint_mem _ _ _ hp
    have hppt : pt.point = p := hm.point_key _ hptmem
    have hgetV : ∀ w < m.vertices.length,
        (({ points := storePoint p { pt with combinations :=
              pt.combinations ++ [((c, tc), m.vertices.length)] } m.points,
            vertices := m.vertices ++ [⟨pt.point, c, tc, [], .sentinel⟩],
            triangles := m.triangles } : Mesh).getV w) = m.getV w := by
      intro w hw
      show (m.vertices ++ _).getD w default = _
      rw [getD_append_lt _ _ _ _ hw]
      rfl
    constructor
    · intro pr hpr
      rcases mem_storePoint _ _ _ _ hpr with h' | h'
      · subst h'
        exact hppt
      · exact hm.point_key _ h'
    · show (List.map Prod.fst (storePoint p _ m.points)).Nodup
      rw [storePoint_keys_of_found p _ pt m.points hp]
      exact hm.keys_nodup
    · intro pr hpr cb hcb
      rcases mem_storePoint _ _ _ _ hpr with h' | h'
      · subst h'
        rcases List.mem_append.1 hcb with h'' | h''
        · obtain ⟨h1, h2, h3, h4⟩ := hm.combo_valid _ hptmem cb h''
          rw [hgetV cb.2 h1]
          refine ⟨by simp; omega, h2, h3, h4⟩
        · have hv : cb = ((c, tc), m.vertices.length) := by simpa using h''
          subst hv
          have hnew : (m.vertices ++
              [(⟨pt.point, c, tc, [], .sentinel⟩ : Vertex)]).getD
              m.vertices.length default = ⟨pt.point, c, tc, [], .sentinel⟩ :=
            getD_snoc_length _ _ _
          refine ⟨by simp, ?_, ?_, ?_⟩
          · show ((m.vertices ++ _).getD m.vertices.length default).point = _
            rw [hnew]
            exact hppt
          · show ((m.vertices ++ _).getD m.vertices.length default).color = _
            rw [hnew]
          · show ((m.vertices ++ _).getD m.vertices.length default).texCoord = _
            rw [hnew]
      · obtain ⟨h1, h2, h3, h4⟩ := hm.combo_valid _ h' cb hcb
        rw [hgetV cb.2 h1]
        exact ⟨by simp; omega, h2, h3, h4⟩
    · intro pr hpr
      rcases mem_storePoint _ _ _ _ hpr with h' | h'
      · subst h'
        show (List.map Prod.fst (pt.combinations ++ _)).Nodup
        rw [List.map_append]
        refine List.Nodup.append (hm.combo_keys_nodup _ hptmem) (by simp) ?_
        intro k hk1 hk2
        have : k = (c, tc) := by simpa using hk2
        subst this
        obtain ⟨cb, hcb, hcbk⟩ := List.mem_map.1 hk1
        exact lookupCombo_eq_none _ _ hc cb hcb hcbk
      · exact hm.combo_keys_nodup _ h'
  · rw [he]
    have hnotin := lookupPoint_eq_none _ _ hp
    have hgetV : ∀ w < m.vertices.length,
        (({ points := m.points ++ [(p, ⟨p, [((c, tc), m.vertices.length)]⟩)],
            vertices := m.vertices ++ [⟨p, c, tc, [], .sentinel⟩],
            triangles := m.triangles } : Mesh).getV w) = m.getV w := by
      intro w hw
      show (m.vertices ++ _).getD w default = _
      rw [getD_append_lt _ _ _ _ hw]
      rfl
    constructor
    · intro pr hpr
      rcases List.mem_append.1 hpr with h' | h'
      · exact hm.point_key _ h'
      · have : pr = (p, ⟨p, [((c, tc), m.vertices.length)]⟩) := by simpa using h'
        subst this
        rfl
    · show (List.map Prod.fst (m.points ++ _)).Nodup
      rw [List.map_append]
      refine List.Nodup.append hm.keys_nodup (by simp) ?_
      intro q hq1 hq2
      have : q = p := by simpa using hq2
      subst this
      obtain ⟨pr, hpr, hprk⟩ := List.mem_map.1 hq1
      exact hnotin pr hpr hprk
    · intro pr hpr cb hcb
      rcases List.mem_append.1 hpr with h' | h'
      · obtain ⟨h1, h2, h3, h4⟩ := hm.combo_valid _ h' cb hcb
        rw [hgetV cb.2 h1]
        exact ⟨by simp; omega, h2, h3, h4⟩
      · have hv1 : pr = (p, ⟨p, [((c, tc), m.vertices.length)]⟩) := by simpa using h'
        subst hv1
        have hv2 : cb = ((c, tc), m.vertices.length) := by simpa using hcb
        subst hv2
        have hnew : (m.vertices ++ [(⟨p, c, tc, [], .sentinel⟩ : Vertex)]).getD
            m.vertices.length default = ⟨p, c, tc, [], .sentinel⟩ :=
          getD_snoc_length _ _ _
        refine ⟨by simp, ?_, ?_, ?_⟩
        · show ((m.vertices ++ _).getD m.vertices.length default).point = _
          rw [hnew]
        · show ((m.vertices ++ _).getD m.vertices.length default).color = _
          rw [hnew]
        · show ((m.vertices ++ _).getD m.vertices.length default).texCoord = _
          rw [hnew]
    · intro pr hpr
      rcases List.mem_append.1 hpr with h' | h'
      · exact hm.combo_keys_nodup _ h'
      · have : pr = (p, ⟨p, [((c, tc), m.vertices.length)]⟩) := by simpa using h'
        subst this
        simp

/-- Every mesh reachable through the public API satisfies `DedupWF`. -/
theorem Built.dedupWF {m : Mesh} (h : Built m) : DedupWF m := by
  induction h with
  | init =>
      refine ⟨?_, ?_, ?_, ?_⟩ <;> simp [Mesh.init]
  | vertex p c tc _ ih => exact ih.add_vertex p c tc
  | triangle _ he ih => exact ih.mext (MExt.add_triangle he)

/-! ## Claim C5: deduplicating insert -/

/-- Claim C5: on any mesh built through the public API, a second
`add_vertex` with the identical `(point, color, texcoord)` triple returns
the same id, and a second call at the same position with a different
`(color, texcoord)` pair returns a different id while both vertices carry
the position `p`. -/
theorem add_vertex_dedup (m : Mesh) (hm : Built m) (p : Vec3)
    (c c' : Vec4) (tc tc' : Vec2) :
    ((m.add_vertex p c tc).1.add_vertex p c tc).2 = (m.add_vertex p c tc).2 ∧
    ((c, tc) ≠ (c', tc') →
      ((m.add_vertex p c tc).1.add_vertex p c' tc').2 ≠ (m.add_vertex p c tc).2 ∧
      (((m.add_vertex p c tc).1.add_vertex p c' tc').1.getV
          ((m.add_vertex p c tc).1.add_vertex p c' tc').2).point = p ∧
      (((m.add_vertex p c tc).1.add_vertex p c' tc').1.getV
          (m.add_vertex p c tc).2).point = p) := by
  obtain ⟨pt1, hp1, hc1⟩ := add_vertex_registered m p c tc
  have hwf1 : DedupWF (m.add_vertex p c tc).1 := hm.dedupWF.add_vertex p c tc
  have hmem1 : (p, pt1) ∈ (m.add_vertex p c tc).1.points := lookupPoint_mem _ _ _ hp1
  have hcb1 : ((c, tc), (m.add_vertex p c tc).2) ∈ pt1.combinations :=
    lookupCombo_mem _ _ _ hc1
  obtain ⟨hid1lt, hid1p, hid1c, hid1t⟩ := hwf1.combo_valid _ hmem1 _ hcb1
  constructor
  · rw [add_vertex_of_found _ p c tc pt1 _ hp1 hc1]
  · intro hne
    rcases add_vertex_cases (m.add_vertex p c tc).1 p c' tc' with
      ⟨pt, vid, hp, hc, he⟩ | ⟨pt, hp, hc, he⟩ | ⟨hp, he⟩
    · have hpt : pt = pt1 := by
        rw [hp1] at hp
        exact (Option.some.inj hp).symm
      subst hpt
      have hcb2 := lookupCombo_mem _ _ _ hc
      obtain ⟨hvlt, hvp, hvc, hvt⟩ := hwf1.combo_valid _ hmem1 _ hcb2
      rw [he]
      refine ⟨?_, hvp, hid1p⟩
      intro heq
      apply hne
      show ((c, tc) : Vec4 × Vec2) = (c', tc')
      rw [heq] at hvc hvt
      have hcc : c = c' := hid1c.symm.trans hvc
      have htt : tc = tc' := hid1t.symm.trans hvt
      rw [hcc, htt]
    · have hpt : pt = pt1 := by
        rw [hp1] at hp
        exact (Option.some.inj hp).symm
      subst hpt
      have hptp := hwf1.point_key _ hmem1
      rw [he]
      refine ⟨by intro heq; omega, ?_, ?_⟩
      · show (((m.add_vertex p c tc).1.vertices ++ _).getD
          (m.add_vertex p c tc).1.vertices.length default).point = p
        rw [getD_snoc_length]
        exact hptp
      · show (((m.add_vertex p c tc).1.vertices ++ _).getD
          (m.add_vertex p c tc).2 default).point = p
        rw [getD_append_lt _ _ _ _ hid1lt]
        exact hid1p
    · rw [hp1] at hp
      exact Option.noConfusion hp

/-- Witness for C5 at a concrete mesh (the empty mesh; white vs. black
color at the origin). -/
theorem add_vertex_dedup_witness :
    (((Mesh.init.add_vertex ⟨0,0,0⟩ ⟨1,1,1,1⟩ ⟨0,0⟩).1.add_vertex
        ⟨0,0,0⟩ ⟨1,1,1,1⟩ ⟨0,0⟩).2
      = (Mesh.init.add_vertex ⟨0,0,0⟩ ⟨1,1,1,1⟩ ⟨0,0⟩).2) ∧
    (((Mesh.init.add_vertex ⟨0,0,0⟩ ⟨1,1,1,1⟩ ⟨0,0⟩).1.add_vertex
        ⟨0,0,0⟩ ⟨0,0,0,1⟩ ⟨0,0⟩).2
      ≠ (Mesh.init.add_vertex ⟨0,0,0⟩ ⟨1,1,1,1⟩ ⟨0,0⟩).2 ∧
      (((Mesh.init.add_vertex ⟨0,0,0⟩ ⟨1,1,1,1⟩ ⟨0,0⟩).1.add_vertex
          ⟨0,0,0⟩ ⟨0,0,0,1⟩ ⟨0,0⟩).1.getV
        ((Mesh.init.add_vertex ⟨0,0,0⟩ ⟨1,1,1,1⟩ ⟨0,0⟩).1.add_vertex
          ⟨0,0,0⟩ ⟨0,0,0,1⟩ ⟨0,0⟩).2).point = ⟨0,0,0⟩ ∧
      (((Mesh.init.add_vertex ⟨0,0,0⟩ ⟨1,1,1,1⟩ ⟨0,0⟩).1.add_vertex
          ⟨0,0,0⟩ ⟨0,0,0,1⟩ ⟨0,0⟩).1.getV
        (Mesh.init.add_vertex ⟨0,0,0⟩ ⟨1,1,1,1⟩ ⟨0,0⟩).2).point = ⟨0,0,0⟩) := by
  have h := add_vertex_dedup Mesh.init Built.init ⟨0,0,0⟩ ⟨1,1,1,1⟩ ⟨0,0,0,1⟩
    ⟨0,0⟩ ⟨0,0⟩
  exact ⟨h.1, h.2 (by simp)⟩

/-! ## Claim C2: the greedy normal-grouping pass -/

/-- Spec-side predicate: `cosine similarity ≥ c` between the unit normals of
the raw vectors `u` and `v` (written from the spec's words, to be compared
with the code's rejection test `unitDotLt`). -/
def unitDotGe (u v : Vec3) (c : ℚ) : Bool :=
  let d := dot3 u v
  let n := dot3 u u * dot3 v v
  if n = 0 then decide (c ≤ 0)
  else if 0 ≤ d then
    if 0 ≤ c then decide (c ^ 2 * n ≤ d ^ 2) else true
  else
    if 0 ≤ c then false else decide (d ^ 2 ≤ c ^ 2 * n)

theorem dot3_self_nonneg (u : Vec3) : 0 ≤ dot3 u u := by
  unfold dot3
  nlinarith [mul_self_nonneg u.x, mul_self_nonneg u.y, mul_self_nonneg u.z]

theorem unitDotGe_eq_not_lt (u v : Vec3) (c : ℚ) :
    unitDotGe u v c = !unitDotLt u v c := by
  unfold unitDotGe unitDotLt
  dsimp only
  by_cases hn : dot3 u u * dot3 v v = 0
  · rw [if_pos hn, if_pos hn, ← decide_not]
    exact decide_eq_decide.2 not_lt.symm
  · have hnn : 0 ≤ dot3 u u * dot3 v v :=
      mul_nonneg (dot3_self_nonneg u) (dot3_self_nonneg v)
    rw [if_neg hn, if_neg hn]
    by_cases hd : dot3 u v < 0
    · have hd' : ¬ 0 ≤ dot3 u v := not_le_of_lt hd
      rw [if_pos hd, if_neg hd']
      by_cases hc : 0 ≤ c
      · simp [hc]
      · rw [if_neg hc, if_neg hc, ← decide_not]
        exact decide_eq_decide.2 not_lt.symm
    · have hd' : 0 ≤ dot3 u v := le_of_not_lt hd
      rw [if_neg hd, if_pos hd']
      by_cases hc : 0 ≤ c
      · rw [if_pos hc]
        by_cases hc0 : c ≤ 0
        · have hcz : c = 0 := le_antisymm hc0 hc
          subst hcz
          simp [sq_nonneg]
        · rw [if_neg hc0, ← decide_not]
          exact decide_eq_decide.2 not_lt.symm
      · have hc0 : c ≤ 0 := le_of_not_le hc
        rw [if_neg hc, if_pos hc0]
        rfl

/-- §4.4 step 2 of the spec, written from its words: iterate the given
triangles in order; each triangle joins the FIRST existing cluster whose
EVERY member has cosine similarity at least `splitCos` with it (unanimous
similarity); if no cluster accepts it, a new cluster is appended.  (Used
only to be compared against the code's `_compute_normal_groups`.) -/
def specGreedyGroups (m : Mesh) (tris : List ℕ) (splitCos : ℚ) :
    List (List ℕ) :=
  tris.foldl
    (fun groups t =>
      match List.findIdx? (fun g => g.all fun tt =>
          unitDotGe (m.getT t).normalMag (m.getT tt).normalMag splitCos) groups with
      | some i => listModify groups i (· ++ [t])
      | none => groups ++ [[t]])
    []

theorem pickGroup_eq_findIdx (m : Mesh) (splitCos : ℚ) (t : ℕ)
    (gs : List (List ℕ)) :
    pickGroup m splitCos t gs = List.findIdx? (fun g => g.all fun tt =>
      unitDotGe (m.getT t).normalMag (m.getT tt).normalMag splitCos) gs := by
  induction gs with
  | nil => rfl
  | cons g gs ih =>
      show (if groupAccepts m splitCos t g then some 0
        else (pickGroup m splitCos t gs).map (· + 1)) = _
      rw [List.findIdx?_cons]
      have hacc : groupAccepts m splitCos t g
          = g.all (fun tt => unitDotGe (m.getT t).normalMag
              (m.getT tt).normalMag splitCos) := by
        unfold groupAccepts
        simp only [unitDotGe_eq_not_lt]
      rw [← hacc, ih, List.findIdx?_succ]

theorem pickGroup_lt (m : Mesh) (splitCos : ℚ) (t : ℕ)
    (gs : List (List ℕ)) (i : ℕ) (h : pickGroup m splitCos t gs = some i) :
    i < gs.length := by
  induction gs generalizing i with
  | nil => exact Option.noConfusion h
  | cons g gs ih =>
      rw [show pickGroup m splitCos t (g :: gs)
          = (if groupAccepts m splitCos t g then some 0
             else (pickGroup m splitCos t gs).map (· + 1)) from rfl] at h
      by_cases hacc : groupAccepts m splitCos t g
      · rw [if_pos hacc] at h
        have hz : i = 0 := by simpa using h.symm
        subst hz
        simp
      · rw [if_neg hacc] at h
        rcases hpick : pickGroup m splitCos t gs with _ | j
        · rw [hpick] at h
          exact Option.noConfusion h
        · rw [hpick] at h
          have hj : j + 1 = i := by simpa using h
          subst hj
          have := ih j hpick
          simp only [List.length_cons]
          omega

theorem join_count_listModify_append (gs : List (List ℕ)) (i t x : ℕ)
    (hi : i < gs.length) :
    (listModify gs i (· ++ [t])).join.count x
      = gs.join.count x + List.count x [t] := by
  induction gs generalizing i with
  | nil => simp at hi
  | cons g gs ih =>
      cases i with
      | zero =>
          show (((g ++ [t]) ++ gs.join).count x)
            = ((g ++ gs.join).count x) + List.count x [t]
          rw [List.count_append, List.count_append, List.count_append]
          omega
      | succ n =>
          have hih := ih n (by simpa using hi)
          show ((g ++ (listModify gs n (· ++ [t])).join).count x)
            = ((g ++ gs.join).count x) + List.count x [t]
          rw [List.count_append, List.count_append, hih]
          omega

theorem normal_groups_fold_count (m : Mesh) (splitCos : ℚ) (tris : List ℕ)
    (gs : List (List ℕ)) (x : ℕ) :
    ((tris.foldl
      (fun groups t =>
        if groups.isEmpty then [[t]]
        else
          match pickGroup m splitCos t groups with
          | some i => listModify groups i (· ++ [t])
          | none => groups ++ [[t]])
      gs).join).count x = gs.join.count x + tris.count x := by
  induction tris generalizing gs with
  | nil => simp
  | cons t tris ih =>
      rw [List.foldl_cons, ih]
      have hbody : ((if gs.isEmpty then [[t]]
          else
            match pickGroup m splitCos t gs with
            | some i => listModify gs i (· ++ [t])
            | none => gs ++ [[t]]).join).count x
          = gs.join.count x + List.count x [t] := by
        by_cases hemp : gs.isEmpty
        · have : gs = [] := List.isEmpty_iff.1 hemp
          subst this
          simp
        · rw [if_neg hemp]
          rcases hpick : pickGroup m splitCos t gs with _ | i

          · simp [List.count_append]
          · exact join_count_listModify_append gs i t x
              (pickGroup_lt m splitCos t gs i hpick)
      rw [hbody]
      by_cases hx : x = t
      · subst hx
        simp [List.count_cons]
        omega
      · simp [List.count_cons, hx]

/-- The grouping pass on any triangle list is exactly the spec's single
greedy pass (each triangle joining the first cluster that unanimously
accepts it at cosine similarity ≥ `splitCos`, else opening a new cluster),
and the produced clusters partition the input triangle list (as a
multiset). -/
theorem normal_groups_spec (m : Mesh) (tris : List ℕ) (splitCos : ℚ) :
    _compute_normal_groups m tris splitCos = specGreedyGroups m tris splitCos ∧
    ∀ x, ((_compute_normal_groups m tris splitCos).join).count x
      = tris.count x := by
  constructor
  · unfold _compute_normal_groups specGreedyGroups
    congr 1
    funext groups t
    rw [← pickGroup_eq_findIdx]
    cases groups with
    | nil => rfl
    | cons g gs => simp
  · intro x
    unfold _compute_normal_groups
    simpa using normal_groups_fold_count m splitCos tris [] x

/-! ## Claim C8: the flat-shading branch of `export` -/

instance : Inhabited Row := ⟨⟨default, .sentinel, .c default, default⟩⟩

/-- The three rows emitted for one triangle by the flat-shading branch
(slots in order, each with the triangle's frozen unit face normal). -/
def Mesh.flatRows (m : Mesh) (fc nac : Bool) (t : Triangle) : List Row :=
  let c := m.flatC fc nac t
  [t.va, t.vb, t.vc].map fun vid =>
    let v := m.getV vid
    Row.mk v.point (.unit t.normalMag)
      (if fc then c.getD (.c v.color) else .c v.color) v.texCoord

theorem exportFlat_fold (m : Mesh) (fc nac : Bool) (ts : List Triangle)
    (init : List Row × List (ℕ × ℕ × ℕ)) :
    (ts.foldl
      (fun out t =>
        let c := m.flatC fc nac t
        let base := out.1.length
        let rows := [t.va, t.vb, t.vc].map fun vid =>
          let v := m.getV vid
          Row.mk v.point (.unit t.normalMag)
            (if fc then c.getD (.c v.color) else .c v.color) v.texCoord
        (out.1 ++ rows, out.2 ++ [(base, base + 1, base + 2)]))
      init).1 = init.1 ++ (ts.map (m.flatRows fc nac)).join := by
  induction ts generalizing init with
  | nil => simp
  | cons t ts ih =>
      rw [List.foldl_cons, ih]
      simp [Mesh.flatRows, List.append_assoc]

theorem exportFlat_rows (m : Mesh) (fc nac : Bool) :
    (m.exportFlat fc nac).1 = (m.triangles.map (m.flatRows fc nac)).join := by
  unfold Mesh.exportFlat
  exact exportFlat_fold m fc nac m.triangles ([], [])

theorem getD_append_ge {α : Type _} (l l' : List α) (n : ℕ) (d : α)
    (h : l.length ≤ n) : (l ++ l').getD n d = l'.getD (n - l.length) d := by
  simp [List.getD_eq_getElem?_getD, List.getElem?_append_right h]

theorem join_map3_length {α β : Type _} (f : α → List β) (l : List α)
    (hf : ∀ a, (f a).length = 3) : ((l.map f).join).length = 3 * l.length := by
  induction l with
  | nil => simp
  | cons a l ih =>
      show ((f a) ++ (l.map f).join).length = _
      rw [List.length_append, ih, hf a]
      simp
      ring

theorem join_map3_getD {α β : Type _} [Inhabited α] [Inhabited β] (f : α → List β)
    (l : List α) (hf : ∀ a, (f a).length = 3) (i j : ℕ) (hi : i < l.length)
    (hj : j < 3) :
    ((l.map f).join).getD (3 * i + j) default = (f (l.getD i default)).getD j default := by
  induction l generalizing i with
  | nil => simp at hi
  | cons a l ih =>
      cases i with
      | zero =>
          have h0 : 3 * 0 + j = j := by omega
          rw [h0]
          show ((f a) ++ (l.map f).join).getD j default = _
          rw [getD_append_lt _ _ _ _ (by rw [hf a]; omega)]
          rfl
      | succ n =>
          show ((f a) ++ (l.map f).join).getD (3 * (n + 1) + j) default = _
          rw [getD_append_ge _ _ _ _ (by rw [hf a]; omega)]
          have h1 : 3 * (n + 1) + j - (f a).length = 3 * n + j := by
            rw [hf a]
            ring_nf
            omega
          rw [h1, ih n (by simpa using hi)]
          rfl

/-- The color rule of the flat branch as the code actually computes it:
with `flat_color` the color is the normal-tuple when `normal_as_color` is
set and the triangle's averaged vertex color otherwise; WITHOUT
`flat_color` the per-vertex stored color is always used — even when
`normal_as_color` is set. -/
def flatColorSpec (m : Mesh) (fc nac : Bool) (t : Triangle) (v : Vertex) :
    ColorOut :=
  if fc then
    (if nac then .unitColor t.normalMag
     else .c (avg3 (m.getV t.va).color (m.getV t.vb).color (m.getV t.vc).color))
  else .c v.color

theorem flatRows_getD (m : Mesh) (fc nac : Bool) (t : Triangle) (j : Fin 3) :
    (m.flatRows fc nac t).getD j.val default =
      Row.mk (m.getV (t.slot j)).point (.unit t.normalMag)
        (flatColorSpec m fc nac t (m.getV (t.slot j)))
        (m.getV (t.slot j)).texCoord := by
  have hcolor : ∀ v : Vertex,
      (if fc then (m.flatC fc nac t).getD (.c v.color) else .c v.color)
        = flatColorSpec m fc nac t v := by
    intro v
    unfold Mesh.flatC flatColorSpec
    cases fc <;> cases nac <;> rfl
  match j with
  | ⟨0, _⟩ =>
      show Row.mk _ _ (if fc then (m.flatC fc nac t).getD _ else _) _ = _
      rw [hcolor]
      rfl
  | ⟨1, _⟩ =>
      show Row.mk _ _ (if fc then (m.flatC fc nac t).getD _ else _) _ = _
      rw [hcolor]
      rfl
  | ⟨2, _⟩ =>
      show Row.mk _ _ (if fc then (m.flatC fc nac t).getD _ else _) _ = _
      rw [hcolor]
      rfl

/-- Claim C8, amended: `export` with `flat_shading=True` emits exactly three
vertex records per triangle, in slot order, each carrying the triangle's
frozen face normal; the emitted color is the averaged triangle color when
`flat_color=True, normal_as_color=False`, the `(normal, 1)` tuple when
`flat_color=True, normal_as_color=True`, and the per-vertex stored color
whenever `flat_color=False` — including when `normal_as_color=True` (the
flag is ignored without `flat_color`, contrary to the original claim). -/
theorem export_flat_spec (m : Mesh) (fc nac : Bool) (sc : ℚ) :
    (m.export true fc sc nac).1.length = 3 * m.triangles.length ∧
    ∀ i : ℕ, i < m.triangles.length → ∀ j : Fin 3,
      (m.export true fc sc nac).1.getD (3 * i + j.val) default =
        Row.mk (m.getV ((m.getT i).slot j)).point (.unit (m.getT i).normalMag)
          (flatColorSpec m fc nac (m.getT i) (m.getV ((m.getT i).slot j)))
          (m.getV ((m.getT i).slot j)).texCoord := by
  have hexp : (m.export true fc sc nac).1 = (m.exportFlat fc nac).1 := rfl
  have hlen3 : ∀ t, (m.flatRows fc nac t).length = 3 := fun t => rfl
  constructor
  · rw [hexp, exportFlat_rows]
    exact join_map3_length _ _ hlen3
  · intro i hi j
    rw [hexp, exportFlat_rows,
      join_map3_getD (m.flatRows fc nac) m.triangles hlen3 i j.val hi j.isLt]
    exact flatRows_getD m fc nac (m.triangles.getD i default) j

/-- The mesh of the C8 counterexample: one triangle with red/green/blue
vertex colors. -/
def cMesh8 : Mesh :=
  let s1 := Mesh.init.add_vertex ⟨0,0,0⟩ ⟨1,0,0,1⟩ ⟨0,0⟩
  let s2 := s1.1.add_vertex ⟨1,0,0⟩ ⟨0,1,0,1⟩ ⟨0,0⟩
  let s3 := s2.1.add_vertex ⟨0,1,0⟩ ⟨0,0,1,1⟩ ⟨0,0⟩
  ((s3.1.add_triangle 0 1 2).getD (Mesh.init, 0)).1

/-- Counterexample to claim C8 as stated: with `flat_shading=True`,
`flat_color=False` and `normal_as_color=True`, the first emitted vertex
record carries the stored per-vertex color `(1,0,0,1)`, not the
`(normal, 1)` tuple the claim requires whenever `normal_as_color` is set. -/
theorem export_flat_color_cex :
    ((cMesh8.export true false 0 true).1.getD 0 default).color
        = ColorOut.c ⟨1, 0, 0, 1⟩ ∧
    ((cMesh8.export true false 0 true).1.getD 0 default).color
        ≠ ColorOut.unitColor (cMesh8.getT 0).normalMag := by
  constructor
  · with_unfolding_all rfl
  · intro h
    exact ColorOut.noConfusion (by with_unfolding_all exact h :
      ColorOut.c ⟨1, 0, 0, 1⟩ = ColorOut.unitColor (cMesh8.getT 0).normalMag)

/-- Witness for C8 (amended) at `cMesh8` with `flat_color=False`,
`normal_as_color=True`, row `(i, j) = (0, 0)`. -/
theorem export_flat_spec_witness :
    (cMesh8.export true false 0 true).1.length = 3 * cMesh8.triangles.length ∧
    (cMesh8.export true false 0 true).1.getD 0 default =
      Row.mk (cMesh8.getV ((cMesh8.getT 0).slot 0)).point
        (.unit (cMesh8.getT 0).normalMag)
        (flatColorSpec cMesh8 false true (cMesh8.getT 0)
          (cMesh8.getV ((cMesh8.getT 0).slot 0)))
        (cMesh8.getV ((cMesh8.getT 0).slot 0)).texCoord :=
  ⟨(export_flat_spec cMesh8 false true 0).1,
   (export_flat_spec cMesh8 false true 0).2 0
     (by with_unfolding_all decide) 0⟩

/-! ## The bidirectional incidence invariant -/

/-- Number of slots of a triangle that reference vertex id `vid`. -/
def Triangle.slotCount (t : Triangle) (vid : ℕ) : ℕ :=
  (if t.va = vid then 1 else 0) + (if t.vb = vid then 1 else 0) +
    (if t.vc = vid then 1 else 0)

/-- Bidirectional incidence (claim C9), with multiplicity: a vertex's
incidence list holds each triangle id exactly as often as that triangle
references the vertex, all recorded ids are live, and every triangle's
slots are live vertex ids. -/
structure Inc (m : Mesh) : Prop where
  listValid : ∀ vid < m.vertices.length,
    ∀ tid ∈ (m.getV vid).triangles, tid < m.triangles.length
  count : ∀ vid < m.vertices.length, ∀ tid < m.triangles.length,
    (m.getV vid).triangles.count tid = (m.getT tid).slotCount vid
  slotValid : ∀ tid < m.triangles.length,
    (m.getT tid).va < m.vertices.length ∧
    (m.getT tid).vb < m.vertices.length ∧
    (m.getT tid).vc < m.vertices.length

theorem slotCount_eq_zero_of_lt (t : Triangle) (vid L : ℕ)
    (hva : t.va < L) (hvb : t.vb < L) (hvc : t.vc < L) (h : L ≤ vid) :
    t.slotCount vid = 0 := by
  unfold Triangle.slotCount
  have h1 : t.va ≠ vid := by omega
  have h2 : t.vb ≠ vid := by omega
  have h3 : t.vc ≠ vid := by omega
  simp [h1, h2, h3]

theorem Inc.init : Inc Mesh.init := by
  refine ⟨?_, ?_, ?_⟩ <;> intro vid h <;> simp [Mesh.init] at h

/-- `Inc` is preserved by vertex updates that do not change the incidence
list (normal assignment). -/
theorem Inc.updV_keep_triangles (m : Mesh) (vid : ℕ) (f : Vertex → Vertex)
    (hf : ∀ v, (f v).triangles = v.triangles) (h : Inc m) :
    Inc (m.updV vid f) := by
  have htr : ∀ w, ((m.updV vid f).getV w).triangles = (m.getV w).triangles :=
    fun w => getV_updV_pres m vid w f (fun v => v.triangles) hf
  refine ⟨?_, ?_, ?_⟩
  · intro w hw tid htid
    rw [htr w] at htid
    exact h.listValid w (by simpa [Mesh.updV] using hw) tid htid
  · intro w hw tid htid
    rw [htr w]
    exact h.count w (by simpa [Mesh.updV] using hw) tid htid
  · intro tid htid
    have := h.slotValid tid htid
    simpa [Mesh.updV] using this

theorem Inc.setNormal_pres (m : Mesh) (vid : ℕ) (n : NormalV) (h : Inc m) :
    Inc (m.setNormal vid n) :=
  h.updV_keep_triangles m vid _ (fun _ => rfl)

/-- `Inc` is preserved by `insert_unique_vertex`. -/
theorem Inc.insert_unique (m : Mesh) (p : Vec3) (c : Vec4) (tc : Vec2)
    (h : Inc m) : Inc (m.insert_unique_vertex p c tc).1 := by
  have hget : ∀ w < m.vertices.length,
      ((m.insert_unique_vertex p c tc).1.getV w) = m.getV w := by
    intro w hw
    show (m.vertices ++ _).getD w default = _
    rw [getD_append_lt _ _ _ _ hw]
    rfl
  have hnew : ((m.insert_unique_vertex p c tc).1.getV m.vertices.length)
      = ⟨p, c, tc, [], .sentinel⟩ := by
    show (m.vertices ++ _).getD m.vertices.length default = _
    exact getD_snoc_length _ _ _
  have hlen : (m.insert_unique_vertex p c tc).1.vertices.length
      = m.vertices.length + 1 := by
    simp [Mesh.insert_unique_vertex]
  refine ⟨?_, ?_, ?_⟩
  · intro w hw tid htid
    by_cases hwl : w < m.vertices.length
    · rw [hget w hwl] at htid
      exact h.listValid w hwl tid htid
    · have : w = m.vertices.length := by omega
      subst this
      rw [hnew] at htid
      simp at htid
  · intro w hw tid htid
    by_cases hwl : w < m.vertices.length
    · rw [hget w hwl]
      exact h.count w hwl tid htid
    · have hwe : w = m.vertices.length := by omega
      subst hwe
      rw [hnew]
      obtain ⟨h1, h2, h3⟩ := h.slotValid tid htid
      have hT : (m.insert_unique_vertex p c tc).1.getT tid = m.getT tid := rfl
      show ([] : List ℕ).count tid = _
      rw [hT, slotCount_eq_zero_of_lt _ _ m.vertices.length h1 h2 h3 (le_refl _)]
      rfl
  · intro tid htid
    obtain ⟨h1, h2, h3⟩ := h.slotValid tid htid
    have hT : (m.insert_unique_vertex p c tc).1.getT tid = m.getT tid := rfl
    rw [hT, hlen]
    refine ⟨by omega, by omega, by omega⟩

theorem replaceV_slotCount (tr : Triangle) (old new : ℕ) (hne : old ≠ new)
    (hocc : 1 ≤ tr.slotCount old) :
    (tr.replaceV old new).slotCount old = tr.slotCount old - 1 ∧
    (tr.replaceV old new).slotCount new = tr.slotCount new + 1 ∧
    ∀ x, x ≠ old → x ≠ new → (tr.replaceV old new).slotCount x = tr.slotCount x := by
  refine ⟨?_, ?_, fun x hxo hxn => ?_⟩ <;>
    · unfold Triangle.replaceV Triangle.slotCount at *
      split_ifs at * <;> simp_all <;> omega

theorem Inc.set_points (m : Mesh) (P : List (Vec3 × MPoint)) (h : Inc m) :
    Inc ⟨P, m.vertices, m.triangles⟩ :=
  ⟨h.listValid, h.count, h.slotValid⟩

theorem Inc.add_vertex_pres (m : Mesh) (p : Vec3) (c : Vec4) (tc : Vec2)
    (h : Inc m) : Inc (m.add_vertex p c tc).1 := by
  rcases add_vertex_cases m p c tc with ⟨pt, vid, hp, hc, he⟩ | ⟨pt, hp, hc, he⟩ | ⟨hp, he⟩
  · rw [he]
    exact h
  · rw [he]
    exact Inc.set_points _ _ (h.insert_unique m pt.point c tc)
  · rw [he]
    exact Inc.set_points _ _ (h.insert_unique m p c tc)

theorem length_add_to_triangle (m : Mesh) (vid tid : ℕ) :
    (m.add_to_triangle vid tid).vertices.length = m.vertices.length := by
  simp [Mesh.add_to_triangle, Mesh.updV]

theorem triangles_add_to_triangle (m : Mesh) (vid tid : ℕ) :
    (m.add_to_triangle vid tid).triangles = m.triangles := rfl

theorem count_add_to_triangle (m : Mesh) (vid tid : ℕ)
    (hv : vid < m.vertices.length) (w x : ℕ) :
    ((m.add_to_triangle vid tid).getV w).triangles.count x
      = (m.getV w).triangles.count x + (if w = vid ∧ x = tid then 1 else 0) := by
  unfold Mesh.add_to_triangle
  by_cases hw : vid = w
  · subst hw
    rw [show (m.updV vid (fun v => { v with triangles := v.triangles ++ [tid] })).getV vid
        = { m.getV vid with triangles := (m.getV vid).triangles ++ [tid] } from
      getV_updV_self m vid _ hv]
    show ((m.getV vid).triangles ++ [tid]).count x = _
    rw [List.count_append]
    by_cases hx : x = tid
    · subst hx
      simp
    · simp [hx]
  · rw [getV_updV_ne m vid w _ hw]
    have hcond : ¬(w = vid ∧ x = tid) := fun hc => hw hc.1.symm
    simp [hcond]

/-- `Inc` is preserved by a successful `add_triangle`. -/
theorem Inc.add_triangle_pres {m m' : Mesh} {a b c tid : ℕ}
    (hadd : m.add_triangle a b c = some (m', tid)) (h : Inc m) : Inc m' := by
  unfold Mesh.add_triangle at hadd
  split at hadd
  · rename_i va vb vc ha hb hc
    injection hadd with h'
    injection h' with hm htid
    subst hm
    have hal : a < m.vertices.length := by
      by_contra hcon
      rw [List.getElem?_eq_none (by omega)] at ha
      exact Option.noConfusion ha
    have hbl : b < m.vertices.length := by
      by_contra hcon
      rw [List.getElem?_eq_none (by omega)] at hb
      exact Option.noConfusion hb
    have hcl : c < m.vertices.length := by
      by_contra hcon
      rw [List.getElem?_eq_none (by omega)] at hc
      exact Option.noConfusion hc
    set T := m.triangles.length with hT
    set m1 := ((m.add_to_triangle a T).add_to_triangle b T).add_to_triangle c T
      with hm1
    have hlen1 : m1.vertices.length = m.vertices.length := by
      rw [hm1, length_add_to_triangle, length_add_to_triangle,
        length_add_to_triangle]
    have htris1 : m1.triangles = m.triangles := rfl
    have hcount1 : ∀ w x, ((m1.getV w).triangles).count x
        = (m.getV w).triangles.count x
          + (if w = a ∧ x = T then 1 else 0)
          + (if w = b ∧ x = T then 1 else 0)
          + (if w = c ∧ x = T then 1 else 0) := by
      intro w x
      rw [hm1]
      rw [count_add_to_triangle _ c T
        (by rw [length_add_to_triangle, length_add_to_triangle]; exact hcl)]
      rw [count_add_to_triangle _ b T (by rw [length_add_to_triangle]; exact hbl)]
      rw [count_add_to_triangle _ a T hal]
    have hmem1 : ∀ w x, x ∈ (m1.getV w).triangles →
        x ∈ (m.getV w).triangles ∨ x = T := by
      intro w x hx
      have := hcount1 w x
      by_cases hxt : x = T
      · exact Or.inr hxt
      · left
        have hpos : 0 < ((m1.getV w).triangles).count x := List.count_pos_iff.2 hx
        rw [hcount1 w x] at hpos
        simp only [hxt, and_false, if_false, add_zero] at hpos
        exact List.count_pos_iff.1 hpos
    -- the final mesh appends the new triangle record
    set tri : Triangle := ⟨a, b, c, tri_face_norm va.point vb.point vc.point⟩
      with htri
    have hgetT_old : ∀ u < T, (({ m1 with triangles := m1.triangles ++ [tri] }
        : Mesh).getT u) = m.getT u := by
      intro u hu
      show (m1.triangles ++ [tri]).getD u default = _
      rw [htris1, getD_append_lt _ _ _ _ hu]
      rfl
    have hgetT_new : (({ m1 with triangles := m1.triangles ++ [tri] }
        : Mesh).getT T) = tri := by
      show (m1.triangles ++ [tri]).getD T default = tri
      rw [htris1]
      exact getD_snoc_length _ _ _
    have hlen2 : ({ m1 with triangles := m1.triangles ++ [tri] }
        : Mesh).triangles.length = T + 1 := by
      show (m1.triangles ++ [tri]).length = T + 1
      rw [htris1]
      simp
    have hvlen2 : ({ m1 with triangles := m1.triangles ++ [tri] }
        : Mesh).vertices.length = m.vertices.length := hlen1
    have hgetV2 : ∀ w, ({ m1 with triangles := m1.triangles ++ [tri] }
        : Mesh).getV w = m1.getV w := fun _ => rfl
    refine ⟨?_, ?_, ?_⟩
    · intro w hw x hx
      rw [hgetV2] at hx
      rw [hvlen2] at hw
      rw [hlen2]
      rcases hmem1 w x hx with hmem | hmem
      · have := h.listValid w hw x hmem
        omega
      · omega
    · intro w hw x hxl
      rw [hgetV2, hcount1 w x]
      rw [hvlen2] at hw
      by_cases hxt : x = T
      · subst hxt
        rw [hgetT_new]
        have hzero : (m.getV w).triangles.count T = 0 := by
          rw [List.count_eq_zero]
          intro hmem
          exact absurd (h.listValid w hw T hmem) (by rw [hT]; exact lt_irrefl _)
        rw [hzero]
        simp only [htri, Triangle.slotCount, eq_self_iff_true, and_true]
        split_ifs <;> omega
      · have hxT : x < T := by
          rw [hlen2] at hxl
          omega
        rw [hgetT_old x hxT]
        have := h.count w hw x hxT
        simp [hxt, this]
    · intro u hu
      rw [hlen2] at hu
      by_cases hut : u = T
      · subst hut
        rw [hgetT_new, hvlen2, htri]
        exact ⟨hal, hbl, hcl⟩
      · have huT : u < T := by omega
        rw [hgetT_old u huT, hvlen2]
        exact h.slotValid u huT
  · exact Option.noConfusion hadd

/-- Every mesh reachable through the public API satisfies the incidence
invariant. -/
theorem Built.inc {m : Mesh} (h : Built m) : Inc m := by
  induction h with
  | init => exact Inc.init
  | vertex p c tc _ ih => exact ih.add_vertex_pres _ p c tc
  | triangle _ he ih => exact Inc.add_triangle_pres he ih

theorem mem_removeFirst_of_ne (t x : ℕ) (l : List ℕ) (h : x ≠ t) :
    x ∈ removeFirst t l ↔ x ∈ l := by
  induction l with
  | nil => rfl
  | cons a l ih =>
      by_cases ha : a = t
      · subst ha
        simp [removeFirst, h, Ne.symm h]
      · simp [removeFirst, ha, ih]

theorem mem_removeFirst_subset (t x : ℕ) (l : List ℕ)
    (h : x ∈ removeFirst t l) : x ∈ l := by
  induction l with
  | nil => simpa [removeFirst] using h
  | cons a l ih =>
      by_cases ha : a = t
      · subst ha
        simp only [removeFirst, if_pos rfl] at h
        exact List.mem_cons_of_mem _ h
      · simp only [removeFirst, if_neg ha] at h
        rcases List.mem_cons.1 h with h' | h'
        · exact h' ▸ List.mem_cons_self _ _
        · exact List.mem_cons_of_mem _ (ih h')

theorem replaceV_slots_lt (tr : Triangle) (old new L : ℕ)
    (ha : tr.va < L) (hb : tr.vb < L) (hc : tr.vc < L) (hn : new < L) :
    (tr.replaceV old new).va < L ∧ (tr.replaceV old new).vb < L ∧
    (tr.replaceV old new).vc < L := by
  unfold Triangle.replaceV
  split_ifs <;> exact ⟨by simpa, by simpa, by simpa⟩

/-- The combined `replace_vertex(old, new)` + `old.remove_from_triangle`
step performed for each triangle of a split-off cluster: full state
characterization and preservation of the incidence invariant. -/
theorem step_replace_remove (s : Mesh) (t vid newId : ℕ)
    (ht : t < s.triangles.length) (hvid : vid < s.vertices.length)
    (hnew : newId < s.vertices.length) (hne : vid ≠ newId)
    (hmem : t ∈ (s.getV vid).triangles) (hInc : Inc s) :
    Inc ((s.replace_vertex t vid newId).remove_from_triangle vid t) ∧
    ((s.replace_vertex t vid newId).remove_from_triangle vid t).vertices.length
      = s.vertices.length ∧
    ((s.replace_vertex t vid newId).remove_from_triangle vid t).triangles.length
      = s.triangles.length ∧
    (∀ w, w ≠ vid → w ≠ newId →
      ((s.replace_vertex t vid newId).remove_from_triangle vid t).getV w
        = s.getV w) ∧
    ((s.replace_vertex t vid newId).remove_from_triangle vid t).getV vid
      = { s.getV vid with triangles := removeFirst t (s.getV vid).triangles } ∧
    ((s.replace_vertex t vid newId).remove_from_triangle vid t).getV newId
      = { s.getV newId with triangles := (s.getV newId).triangles ++ [t] } ∧
    (∀ u, u ≠ t →
      ((s.replace_vertex t vid newId).remove_from_triangle vid t).getT u
        = s.getT u) ∧
    ((s.replace_vertex t vid newId).remove_from_triangle vid t).getT t
      = (s.getT t).replaceV vid newId := by
  have hocc : 1 ≤ (s.getT t).slotCount vid := by
    have := hInc.count vid hvid t ht
    have hpos : 0 < (s.getV vid).triangles.count t := List.count_pos_iff.2 hmem
    omega
  obtain ⟨hsc1, hsc2, hsc3⟩ := replaceV_slotCount (s.getT t) vid newId hne hocc
  -- abbreviations for the two intermediate meshes
  have hlen_v : ((s.replace_vertex t vid newId).remove_from_triangle vid t).vertices.length
      = s.vertices.length := by
    show (listModify _ vid _).length = _
    rw [listModify_length]
    show (listModify _ newId _).length = _
    rw [listModify_length]
    rfl
  have hlen_t : ((s.replace_vertex t vid newId).remove_from_triangle vid t).triangles.length
      = s.triangles.length := by
    show (listModify s.triangles t _).length = _
    rw [listModify_length]
  have hgetT_ne : ∀ u, u ≠ t →
      ((s.replace_vertex t vid newId).remove_from_triangle vid t).getT u
        = s.getT u := by
    intro u hu
    show (s.updT t _).getT u = _
    exact getT_updT_ne s t u _ (fun hc => hu hc.symm)
  have hgetT_t : ((s.replace_vertex t vid newId).remove_from_triangle vid t).getT t
      = (s.getT t).replaceV vid newId := by
    show (s.updT t _).getT t = _
    exact getT_updT_self s t _ ht
  have hvlen_updT : (s.updT t (fun tr => tr.replaceV vid newId)).vertices.length
      = s.vertices.length := rfl
  have hgetV_updT : ∀ w, (s.updT t (fun tr => tr.replaceV vid newId)).getV w
      = s.getV w := fun _ => rfl
  have hgetV_other : ∀ w, w ≠ vid → w ≠ newId →
      ((s.replace_vertex t vid newId).remove_from_triangle vid t).getV w
        = s.getV w := by
    intro w hwv hwn
    unfold Mesh.remove_from_triangle
    rw [getV_updV_ne _ vid w _ (fun hc => hwv hc.symm)]
    unfold Mesh.replace_vertex Mesh.add_to_triangle
    rw [getV_updV_ne _ newId w _ (fun hc => hwn hc.symm)]
    exact hgetV_updT w
  have hgetV_new : ((s.replace_vertex t vid newId).remove_from_triangle vid t).getV newId
      = { s.getV newId with triangles := (s.getV newId).triangles ++ [t] } := by
    unfold Mesh.remove_from_triangle
    rw [getV_updV_ne _ vid newId _ hne]
    unfold Mesh.replace_vertex Mesh.add_to_triangle
    rw [getV_updV_self _ newId _ (by rw [hvlen_updT]; exact hnew)]
    rw [hgetV_updT newId]
  have hgetV_vid : ((s.replace_vertex t vid newId).remove_from_triangle vid t).getV vid
      = { s.getV vid with triangles := removeFirst t (s.getV vid).triangles } := by
    unfold Mesh.remove_from_triangle
    have hlen' : vid < (s.replace_vertex t vid newId).vertices.length := by
      unfold Mesh.replace_vertex Mesh.add_to_triangle
      show vid < (listModify _ newId _).length
      rw [listModify_length]
      exact hvid
    rw [getV_updV_self _ vid _ hlen']
    have : (s.replace_vertex t vid newId).getV vid = s.getV vid := by
      unfold Mesh.replace_vertex Mesh.add_to_triangle
      rw [getV_updV_ne _ newId vid _ (Ne.symm hne)]
      exact hgetV_updT vid
    rw [this]
  refine ⟨?_, hlen_v, hlen_t, hgetV_other, hgetV_vid, hgetV_new, hgetT_ne, hgetT_t⟩
  refine ⟨?_, ?_, ?_⟩
  · intro w hw u hu
    rw [hlen_v] at hw
    by_cases hwv : w = vid
    · subst hwv
      rw [hgetV_vid] at hu
      rw [hlen_t]
      exact hInc.listValid w hw u (mem_removeFirst_subset t u _ hu)
    · by_cases hwn : w = newId
      · subst hwn
        rw [hgetV_new] at hu
        rw [hlen_t]
        rcases List.mem_append.1 hu with h' | h'
        · exact hInc.listValid w hw u h'
        · have : u = t := by simpa using h'
          subst this
          exact ht
      · rw [hgetV_other w hwv hwn] at hu
        rw [hlen_t]
        exact hInc.listValid w hw u hu
  · intro w hw u hu
    rw [hlen_v] at hw
    rw [hlen_t] at hu
    by_cases hut : u = t
    · subst hut
      rw [hgetT_t]
      by_cases hwv : w = vid
      · subst hwv
        rw [hgetV_vid]
        show (removeFirst u (s.getV w).triangles).count u = _
        rw [removeFirst_count_self u _ hmem, hInc.count w hw u hu, hsc1]
      · by_cases hwn : w = newId
        · subst hwn
          rw [hgetV_new]
          show ((s.getV w).triangles ++ [u]).count u = _
          rw [List.count_append, hInc.count w hw u hu, hsc2]
          simp
        · rw [hgetV_other w hwv hwn, hInc.count w hw u hu]
          exact (hsc3 w hwv hwn).symm
    · rw [hgetT_ne u hut]
      by_cases hwv : w = vid
      · subst hwv
        rw [hgetV_vid]
        show (removeFirst t (s.getV w).triangles).count u = _
        rw [removeFirst_count_ne t u _ hut, hInc.count w hw u hu]
      · by_cases hwn : w = newId
        · subst hwn
          rw [hgetV_new]
          show ((s.getV w).triangles ++ [t]).count u = _
          rw [List.count_append, hInc.count w hw u hu]
          simp [hut]
        · rw [hgetV_other w hwv hwn, hInc.count w hw u hu]
  · intro u hu
    rw [hlen_t] at hu
    rw [hlen_v]
    by_cases hut : u = t
    · subst hut
      rw [hgetT_t]
      obtain ⟨h1, h2, h3⟩ := hInc.slotValid u hu
      exact replaceV_slots_lt _ vid newId _ h1 h2 h3 hnew
    · rw [hgetT_ne u hut]
      exact hInc.slotValid u hu

/-- Repeated `remove_from_triangle`: pop the first occurrence of each id of
`ts`, in order. -/
def removeList (ts : List ℕ) (l : List ℕ) : List ℕ :=
  ts.foldl (fun l t => removeFirst t l) l

/-- The redirection fold inside `splitOne`, as a named function (so that its
characterization below can be stated once and reused). -/
def splitFoldFn (vid newId : ℕ) (ts : List ℕ) (s : Mesh) : Mesh :=
  ts.foldl (fun mm t => (mm.replace_vertex t vid newId).remove_from_triangle vid t) s

theorem splitFold_spec (vid newId : ℕ) (ts : List ℕ) (s : Mesh)
    (hvid : vid < s.vertices.length) (hnew : newId < s.vertices.length)
    (hne : vid ≠ newId) (hInc : Inc s)
    (hsub : ∀ t ∈ ts, t ∈ (s.getV vid).triangles)
    (hnodup : ts.Nodup) :
    Inc (splitFoldFn vid newId ts s) ∧
    (splitFoldFn vid newId ts s).vertices.length = s.vertices.length ∧
    (splitFoldFn vid newId ts s).triangles.length = s.triangles.length ∧
    (∀ w, w ≠ vid → w ≠ newId →
      (splitFoldFn vid newId ts s).getV w = s.getV w) ∧
    (splitFoldFn vid newId ts s).getV vid
      = { s.getV vid with triangles := removeList ts (s.getV vid).triangles } ∧
    (splitFoldFn vid newId ts s).getV newId
      = { s.getV newId with triangles := (s.getV newId).triangles ++ ts } ∧
    (∀ u, u ∉ ts → (splitFoldFn vid newId ts s).getT u = s.getT u) ∧
    (∀ t ∈ ts, (splitFoldFn vid newId ts s).getT t
      = (s.getT t).replaceV vid newId) := by
  induction ts generalizing s with
  | nil =>
      refine ⟨hInc, rfl, rfl, fun _ _ _ => rfl, rfl, by rw [List.append_nil]; rfl,
        fun _ _ => rfl, fun t ht => absurd ht (List.not_mem_nil t)⟩
  | cons t ts ih =>
      have htmem : t ∈ (s.getV vid).triangles := hsub t (List.mem_cons_self _ _)
      have ht : t < s.triangles.length := hInc.listValid vid hvid t htmem
      obtain ⟨sInc, sLenV, sLenT, sGetVO, sGetVvid, sGetVnew, sGetTO, sGetTt⟩ :=
        step_replace_remove s t vid newId ht hvid hnew hne htmem hInc
      set s' := (s.replace_vertex t vid newId).remove_from_triangle vid t with hs'
      have hnotts : t ∉ ts := (List.nodup_cons.1 hnodup).1
      have hstep : splitFoldFn vid newId (t :: ts) s = splitFoldFn vid newId ts s' := rfl
      have hsub' : ∀ u ∈ ts, u ∈ (s'.getV vid).triangles := by
        intro u hu
        rw [sGetVvid]
        show u ∈ removeFirst t (s.getV vid).triangles
        rw [mem_removeFirst_of_ne t u _ (fun hc => hnotts (hc ▸ hu))]
        exact hsub u (List.mem_cons_of_mem _ hu)
      obtain ⟨iInc, iLenV, iLenT, iGetVO, iGetVvid, iGetVnew, iGetTO, iGetTt⟩ :=
        ih s' (by rw [sLenV]; exact hvid) (by rw [sLenV]; exact hnew) sInc hsub'
          (List.nodup_cons.1 hnodup).2
      rw [hstep]
      refine ⟨iInc, by rw [iLenV, sLenV], by rw [iLenT, sLenT], ?_, ?_, ?_, ?_, ?_⟩
      · intro w hwv hwn
        rw [iGetVO w hwv hwn, sGetVO w hwv hwn]
      · rw [iGetVvid, sGetVvid]
        rfl
      · rw [iGetVnew, sGetVnew]
        show ({ s.getV newId with
          triangles := ((s.getV newId).triangles ++ [t]) ++ ts } : Vertex) = _
        rw [List.append_assoc]
        rfl
      · intro u hu
        rw [iGetTO u (fun hc => hu (List.mem_cons_of_mem _ hc)),
          sGetTO u (fun hc => hu (hc ▸ List.mem_cons_self _ _))]
      · intro u hu
        rcases List.mem_cons.1 hu with h' | h'
        · subst h'
          rw [iGetTO u hnotts, sGetTt]
        · rw [iGetTt u h', sGetTO u (fun hc => hnotts (hc ▸ h'))]

/-- Characterization of `splitOne`: one fresh vertex (id = current vertex
count) carrying the original vertex's position/color/texcoord, the
incidence list `ts` and the assigned normal; every triangle of `ts`
redirected from `vid` to the fresh id; `vid`'s incidence list pruned; all
other vertices and triangles untouched; incidence preserved. -/
theorem splitOne_spec (mm : Mesh) (vid : ℕ) (n : Vec3) (ts : List ℕ)
    (hvid : vid < mm.vertices.length) (hInc : Inc mm)
    (hsub : ∀ t ∈ ts, t ∈ (mm.getV vid).triangles)
    (hnodup : ts.Nodup) :
    Inc (mm.splitOne vid n ts) ∧
    (mm.splitOne vid n ts).vertices.length = mm.vertices.length + 1 ∧
    (mm.splitOne vid n ts).triangles.length = mm.triangles.length ∧
    (∀ w < mm.vertices.length, w ≠ vid →
      (mm.splitOne vid n ts).getV w = mm.getV w) ∧
    (mm.splitOne vid n ts).getV vid
      = { mm.getV vid with triangles := removeList ts (mm.getV vid).triangles } ∧
    (mm.splitOne vid n ts).getV mm.vertices.length
      = ⟨(mm.getV vid).point, (mm.getV vid).color, (mm.getV vid).texCoord,
          ts, .unit n⟩ ∧
    (∀ u, u ∉ ts → (mm.splitOne vid n ts).getT u = mm.getT u) ∧
    (∀ t ∈ ts, (mm.splitOne vid n ts).getT t
      = (mm.getT t).replaceV vid mm.vertices.length) := by
  have hone : mm.splitOne vid n ts
      = splitFoldFn vid mm.vertices.length ts
          (((mm.insert_unique_vertex (mm.getV vid).point (mm.getV vid).color
            (mm.getV vid).texCoord).1).setNormal mm.vertices.length (.unit n)) := rfl
  set m2 := ((mm.insert_unique_vertex (mm.getV vid).point (mm.getV vid).color
    (mm.getV vid).texCoord).1).setNormal mm.vertices.length (.unit n) with hm2
  have hm2len : m2.vertices.length = mm.vertices.length + 1 := by
    rw [hm2]
    show (listModify _ _ _).length = _
    rw [listModify_length]
    simp [Mesh.insert_unique_vertex]
  have hm2tlen : m2.triangles.length = mm.triangles.length := rfl
  have hm2getT : ∀ u, m2.getT u = mm.getT u := fun _ => rfl
  have hm2getV : ∀ w < mm.vertices.length, m2.getV w = mm.getV w := by
    intro w hw
    rw [hm2]
    unfold Mesh.setNormal
    rw [getV_updV_ne _ _ _ _ (by omega)]
    show (mm.vertices ++ _).getD w default = _
    rw [getD_append_lt _ _ _ _ hw]
    rfl
  have hm2new : m2.getV mm.vertices.length
      = ⟨(mm.getV vid).point, (mm.getV vid).color, (mm.getV vid).texCoord,
          [], .unit n⟩ := by
    rw [hm2]
    unfold Mesh.setNormal
    rw [getV_updV_self _ _ _ (by
      show _ < (mm.vertices ++ _).length
      simp)]
    have : (mm.insert_unique_vertex (mm.getV vid).point (mm.getV vid).color
        (mm.getV vid).texCoord).1.getV mm.vertices.length
        = ⟨(mm.getV vid).point, (mm.getV vid).color, (mm.getV vid).texCoord,
            [], .sentinel⟩ := by
      show (mm.vertices ++ _).getD mm.vertices.length default = _
      exact getD_snoc_length _ _ _
    rw [this]
  have hm2Inc : Inc m2 :=
    (Inc.insert_unique mm _ _ _ hInc).setNormal_pres _ _ _
  obtain ⟨fInc, fLenV, fLenT, fGetVO, fGetVvid, fGetVnew, fGetTO, fGetTt⟩ :=
    splitFold_spec vid mm.vertices.length ts m2
      (by rw [hm2len]; omega) (by rw [hm2len]; omega) (by omega) hm2Inc
      (by
        intro u hu
        rw [hm2getV vid hvid]
        exact hsub u hu)
      hnodup
  rw [hone]
  refine ⟨fInc, by rw [fLenV, hm2len], by rw [fLenT, hm2tlen], ?_, ?_, ?_, ?_, ?_⟩
  · intro w hw hwv
    rw [fGetVO w hwv (by omega), hm2getV w hw]
  · rw [fGetVvid, hm2getV vid hvid]
  · rw [fGetVnew, hm2new]
    rfl
  · intro u hu
    rw [fGetTO u hu, hm2getT u]
  · intro u hu
    rw [fGetTt u hu, hm2getT u]

/-- All triangle ids appearing in a `v2n` entry (its normal keys' lists,
concatenated in order). -/
def flatTs (entry : List (Vec3 × List ℕ)) : List ℕ :=
  (entry.map Prod.snd).join

theorem flatTs_cons (kt : Vec3 × List ℕ) (rest : List (Vec3 × List ℕ)) :
    flatTs (kt :: rest) = kt.2 ++ flatTs rest := rfl

theorem mem_removeList_of_not_mem (ts : List ℕ) (x : ℕ) (l : List ℕ)
    (h : x ∉ ts) : x ∈ removeList ts l ↔ x ∈ l := by
  induction ts generalizing l with
  | nil => rfl
  | cons t ts ih =>
      show x ∈ removeList ts (removeFirst t l) ↔ _
      rw [ih (removeFirst t l) (fun hc => h (List.mem_cons_of_mem _ hc)),
        mem_removeFirst_of_ne t x l (fun hc => h (hc ▸ List.mem_cons_self _ _))]

theorem removeList_append (l1 l2 l : List ℕ) :
    removeList (l1 ++ l2) l = removeList l2 (removeList l1 l) := by
  unfold removeList
  rw [List.foldl_append]

theorem mem_flatTs_of_getD (rest : List (Vec3 × List ℕ)) (j : ℕ) (t : ℕ)
    (hj : j < rest.length) (ht : t ∈ (rest.getD j default).2) :
    t ∈ flatTs rest := by
  induction rest generalizing j with
  | nil => simp at hj
  | cons kt rest ih =>
      rw [flatTs_cons]
      cases j with
      | zero =>
          exact List.mem_append.2 (Or.inl ht)
      | succ n =>
          exact List.mem_append.2 (Or.inr (ih n (by simpa using hj) ht))

/-- The fold over the remaining normal keys in `_compute_smooth_normals`'s
final loop (one `splitOne` per key). -/
def splitKeysFn (vid : ℕ) (rest : List (Vec3 × List ℕ)) (s : Mesh) : Mesh :=
  rest.foldl (fun mm kt => mm.splitOne vid kt.1 kt.2) s

theorem splitKeys_spec (vid : ℕ) (rest : List (Vec3 × List ℕ)) (s : Mesh)
    (hvid : vid < s.vertices.length) (hInc : Inc s)
    (hsub : ∀ t ∈ flatTs rest, t ∈ (s.getV vid).triangles)
    (hnodup : (flatTs rest).Nodup) :
    Inc (splitKeysFn vid rest s) ∧
    (splitKeysFn vid rest s).vertices.length
      = s.vertices.length + rest.length ∧
    (splitKeysFn vid rest s).triangles.length = s.triangles.length ∧
    (∀ w < s.vertices.length, w ≠ vid →
      (splitKeysFn vid rest s).getV w = s.getV w) ∧
    (splitKeysFn vid rest s).getV vid
      = { s.getV vid with
          triangles := removeList (flatTs rest) (s.getV vid).triangles } ∧
    (∀ i < rest.length, (splitKeysFn vid rest s).getV (s.vertices.length + i)
      = ⟨(s.getV vid).point, (s.getV vid).color, (s.getV vid).texCoord,
          (rest.getD i default).2, .unit (rest.getD i default).1⟩) ∧
    (∀ u, u ∉ flatTs rest → (splitKeysFn vid rest s).getT u = s.getT u) ∧
    (∀ i < rest.length, ∀ t ∈ (rest.getD i default).2,
      (splitKeysFn vid rest s).getT t
        = (s.getT t).replaceV vid (s.vertices.length + i)) := by
  induction rest generalizing s with
  | nil =>
      refine ⟨hInc, by simp [splitKeysFn], rfl, fun _ _ _ => rfl, rfl,
        fun i hi => absurd hi (by simp), fun _ _ => rfl, fun i hi => absurd hi (by simp)⟩
  | cons kt rest ih =>
      obtain ⟨n, ts⟩ := kt
      have hflat : flatTs ((n, ts) :: rest) = ts ++ flatTs rest := rfl
      rw [hflat] at hsub hnodup
      have hdisj : ∀ x ∈ flatTs rest, x ∉ ts := by
        intro x hx hxts
        exact (List.disjoint_of_nodup_append hnodup) hxts hx
      obtain ⟨sInc, sLenV, sLenT, sGetVO, sGetVvid, sGetVnew, sGetTO, sGetTt⟩ :=
        splitOne_spec s vid n ts hvid hInc
          (fun t ht => hsub t (List.mem_append.2 (Or.inl ht)))
          (List.Nodup.of_append_left hnodup)
      set s' := s.splitOne vid n ts with hs'
      have hstep : splitKeysFn vid ((n, ts) :: rest) s = splitKeysFn vid rest s' := rfl
      obtain ⟨iInc, iLenV, iLenT, iGetVO, iGetVvid, iGetVnew, iGetTO, iGetTt⟩ :=
        ih s' (by rw [sLenV]; omega) sInc
          (by
            intro u hu
            rw [sGetVvid]
            show u ∈ removeList ts (s.getV vid).triangles
            rw [mem_removeList_of_not_mem ts u _ (hdisj u hu)]
            exact hsub u (List.mem_append.2 (Or.inr hu)))
          (List.Nodup.of_append_right hnodup)
      rw [hstep]
      refine ⟨iInc, ?_, by rw [iLenT, sLenT], ?_, ?_, ?_, ?_, ?_⟩
      · rw [iLenV, sLenV]
        simp only [List.length_cons]
        omega
      · intro w hw hwv
        rw [iGetVO w (by omega) hwv, sGetVO w hw hwv]
      · rw [iGetVvid, sGetVvid]
        show _ = ({ s.getV vid with
          triangles := removeList (ts ++ flatTs rest) (s.getV vid).triangles } : Vertex)
        rw [removeList_append]
      · intro i hi
        cases i with
        | zero =>
            have hw : s.vertices.length + 0 = s.vertices.length := by omega
            rw [hw]
            rw [iGetVO s.vertices.length (by omega) (by omega), sGetVnew]
            rfl
        | succ j =>
            have hw : s.vertices.length + (j + 1) = s'.vertices.length + j := by
              rw [sLenV]
              omega
            rw [hw, iGetVnew j (by simpa using hi)]
            rw [sGetVvid]
            rfl
      · intro u hu
        rw [iGetTO u (fun hc => hu (List.mem_append.2 (Or.inr hc))),
          sGetTO u (fun hc => hu (List.mem_append.2 (Or.inl hc)))]
      · intro i hi t ht
        cases i with
        | zero =>
            have hw : s.vertices.length + 0 = s.vertices.length := by omega
            rw [hw]
            have htts : t ∈ ts := ht
            rw [iGetTO t (fun hc => hdisj t hc htts), sGetTt t htts]
        | succ j =>
            have hw : s.vertices.length + (j + 1) = s'.vertices.length + j := by
              rw [sLenV]
              omega
            have htflat : t ∈ flatTs rest :=
              mem_flatTs_of_getD rest j t (by simpa using hi) ht
            rw [hw, iGetTt j (by simpa using hi) t ht,
              sGetTO t (fun hc => hdisj t htflat hc)]

/-- Characterization of the body of the final loop of
`_compute_smooth_normals` for one `v2n` entry. -/
theorem processVertexEntry_spec (s : Mesh) (vid : ℕ)
    (entry : List (Vec3 × List ℕ))
    (hvid : vid < s.vertices.length) (hInc : Inc s)
    (hsub : ∀ t ∈ flatTs entry, t ∈ (s.getV vid).triangles)
    (hnodup : (flatTs entry).Nodup) (hne : entry ≠ []) :
    Inc (s.processVertexEntry vid entry) ∧
    (s.processVertexEntry vid entry).points = s.points ∧
    (s.processVertexEntry vid entry).vertices.length
      = s.vertices.length + (entry.length - 1) ∧
    (s.processVertexEntry vid entry).triangles.length = s.triangles.length ∧
    (∀ w < s.vertices.length, w ≠ vid →
      (s.processVertexEntry vid entry).getV w = s.getV w) ∧
    (s.processVertexEntry vid entry).getV vid
      = { s.getV vid with
          normal := .unit (entry.getD 0 default).1,
          triangles := removeList (flatTs entry.tail) (s.getV vid).triangles } ∧
    (∀ i < entry.tail.length,
      (s.processVertexEntry vid entry).getV (s.vertices.length + i)
        = ⟨(s.getV vid).point, (s.getV vid).color, (s.getV vid).texCoord,
            (entry.tail.getD i default).2, .unit (entry.tail.getD i default).1⟩) ∧
    (∀ u, u ∉ flatTs entry.tail →
      (s.processVertexEntry vid entry).getT u = s.getT u) ∧
    (∀ i < entry.tail.length, ∀ t ∈ (entry.tail.getD i default).2,
      (s.processVertexEntry vid entry).getT t
        = (s.getT t).replaceV vid (s.vertices.length + i)) := by
  match entry with
  | [] => exact absurd rfl hne
  | [(n, ts)] =>
      have hE : s.processVertexEntry vid [(n, ts)] = s.setNormal vid (.unit n) := rfl
      rw [hE]
      refine ⟨hInc.setNormal_pres s vid _, rfl, by simp [Mesh.setNormal, Mesh.updV],
        rfl, ?_, ?_, ?_, fun _ _ => rfl, ?_⟩
      · intro w hw hwv
        exact getV_updV_ne s vid w _ (fun hc => hwv hc.symm)
      · rw [show (s.setNormal vid (.unit n)).getV vid
            = { s.getV vid with normal := .unit n } from
          getV_updV_self s vid _ hvid]
        rfl
      · intro i hi
        simp at hi
      · intro i hi
        simp at hi
  | (n, ts) :: kt2 :: rest' =>
      have hE : s.processVertexEntry vid ((n, ts) :: kt2 :: rest')
          = splitKeysFn vid (kt2 :: rest') (s.setNormal vid (.unit n)) := rfl
      set s1 := s.setNormal vid (.unit n) with hs1
      have hs1len : s1.vertices.length = s.vertices.length := by
        simp [hs1, Mesh.setNormal, Mesh.updV]
      have hs1tlen : s1.triangles.length = s.triangles.length := rfl
      have hs1getT : ∀ u, s1.getT u = s.getT u := fun _ => rfl
      have hs1getVO : ∀ w, w ≠ vid → s1.getV w = s.getV w := by
        intro w hw
        exact getV_updV_ne s vid w _ (fun hc => hw hc.symm)
      have hs1getVvid : s1.getV vid = { s.getV vid with normal := .unit n } :=
        getV_updV_self s vid _ hvid
      have hflat : flatTs ((n, ts) :: kt2 :: rest') = ts ++ flatTs (kt2 :: rest') := rfl
      rw [hflat] at hsub hnodup
      obtain ⟨kInc, kLenV, kLenT, kGetVO, kGetVvid, kGetVnew, kGetTO, kGetTt⟩ :=
        splitKeys_spec vid (kt2 :: rest') s1 (by rw [hs1len]; exact hvid)
          (hInc.setNormal_pres s vid _)
          (by
            intro u hu
            rw [hs1getVvid]
            show u ∈ (s.getV vid).triangles
            exact hsub u (List.mem_append.2 (Or.inr hu)))
          (List.Nodup.of_append_right hnodup)
      rw [hE]
      refine ⟨kInc, (MExt.splitsFold s1 vid (kt2 :: rest')).points_eq.trans rfl,
        ?_, by rw [kLenT, hs1tlen], ?_, ?_, ?_, ?_, ?_⟩
      · rw [kLenV, hs1len]
        simp only [List.length_cons]
        omega
      · intro w hw hwv
        rw [kGetVO w (by omega) hwv, hs1getVO w hwv]
      · rw [kGetVvid, hs1getVvid]
        rfl
      · intro i hi
        have hw : s.vertices.length + i = s1.vertices.length + i := by
          rw [hs1len]
        rw [hw, kGetVnew i hi, hs1getVvid]
        rfl
      · intro u hu
        rw [kGetTO u hu, hs1getT u]
      · intro i hi t ht
        have hw : s.vertices.length + i = s1.vertices.length + i := by
          rw [hs1len]
        rw [hw, kGetTt i hi t ht, hs1getT t]

/-! ## Static facts about the per-point `tris` dict -/

theorem mem_dictInsertTV (t v : ℕ) (l : List (ℕ × ℕ)) (pr : ℕ × ℕ)
    (h : pr ∈ dictInsertTV t v l) : pr = (t, v) ∨ pr ∈ l := by
  induction l with
  | nil => simpa [dictInsertTV] using h
  | cons a l ih =>
      by_cases ht : t = a.1
      · rcases List.mem_cons.1 (by simpa [dictInsertTV, ht] using h) with h' | h'
        · exact Or.inl (by rw [ht]; exact h')
        · exact Or.inr (List.mem_cons_of_mem _ h')
      · rcases List.mem_cons.1 (by simpa [dictInsertTV, ht] using h) with h' | h'
        · exact Or.inr (h' ▸ List.mem_cons_self _ _)
        · rcases ih h' with h'' | h''
          · exact Or.inl h''
          · exact Or.inr (List.mem_cons_of_mem _ h'')

theorem mem_keys_dictInsertTV (t v x : ℕ) (l : List (ℕ × ℕ))
    (h : x ∈ (dictInsertTV t v l).map Prod.fst) :
    x = t ∨ x ∈ l.map Prod.fst := by
  obtain ⟨pr, hpr, hpk⟩ := List.mem_map.1 h
  rcases mem_dictInsertTV t v l pr hpr with h' | h'
  · exact Or.inl (by rw [← hpk, h'])
  · exact Or.inr (List.mem_map.2 ⟨pr, h', hpk⟩)

theorem keys_dictInsertTV_nodup (t v : ℕ) (l : List (ℕ × ℕ))
    (h : (l.map Prod.fst).Nodup) :
    ((dictInsertTV t v l).map Prod.fst).Nodup := by
  induction l with
  | nil => simp [dictInsertTV]
  | cons a l ih =>
      rw [List.map_cons, List.nodup_cons] at h
      simp only [dictInsertTV]
      by_cases ht : t = a.1
      · rw [if_pos ht, List.map_cons, List.nodup_cons]
        exact ⟨ht ▸ h.1, h.2⟩
      · rw [if_neg ht, List.map_cons, List.nodup_cons]
        refine ⟨fun hc => ?_, ih h.2⟩
        rcases mem_keys_dictInsertTV t v a.1 l hc with h' | h'
        · exact ht h'.symm
        · exact h.1 h'

theorem lookupTV_mem (t v : ℕ) (l : List (ℕ × ℕ)) (h : lookupTV t l = some v) :
    (t, v) ∈ l := by
  induction l with
  | nil => simp [lookupTV] at h
  | cons a l ih =>
      by_cases ht : t = a.1
      · have h2 : a.2 = v := by simpa [lookupTV, ht] using h
        subst h2 ht
        exact List.mem_cons_self _ _
      · exact List.mem_cons_of_mem _ (ih (by simpa [lookupTV, ht] using h))

theorem lookupTV_isSome_of_mem_keys (t : ℕ) (l : List (ℕ × ℕ))
    (h : t ∈ l.map Prod.fst) : ∃ v, lookupTV t l = some v := by
  induction l with
  | nil => simp at h
  | cons a l ih =>
      by_cases ht : t = a.1
      · exact ⟨a.2, by simp [lookupTV, ht]⟩
      · have h' : t ∈ l.map Prod.fst := by
          rcases List.mem_map.1 h with ⟨pr, hpr, hpe⟩
          rcases List.mem_cons.1 hpr with h'' | h''
          · exact absurd (by rw [← hpe, h'']) ht
          · exact List.mem_map.2 ⟨pr, h'', hpe⟩
        obtain ⟨v, hv⟩ := ih h'
        exact ⟨v, by simpa [lookupTV, ht] using hv⟩

theorem keys_innerTrisFold_nodup (vid : ℕ) (l : List ℕ) :
    ∀ acc : List (ℕ × ℕ), (acc.map Prod.fst).Nodup →
    ((l.foldl (fun acc t => dictInsertTV t vid acc) acc).map Prod.fst).Nodup := by
  induction l with
  | nil => exact fun _ h => h
  | cons t l ih => exact fun acc h => ih _ (keys_dictInsertTV_nodup t vid acc h)

theorem mem_innerTrisFold (vid : ℕ) (l : List ℕ) (acc : List (ℕ × ℕ))
    (pr : ℕ × ℕ) (h : pr ∈ l.foldl (fun acc t => dictInsertTV t vid acc) acc) :
    pr ∈ acc ∨ (pr.2 = vid ∧ pr.1 ∈ l) := by
  induction l generalizing acc with
  | nil => exact Or.inl h
  | cons t l ih =>
      rcases ih _ h with h' | h'
      · rcases mem_dictInsertTV t vid acc pr h' with h'' | h''
        · right
          exact ⟨by rw [h''], by rw [h'']; exact List.mem_cons_self _ _⟩
        · exact Or.inl h''
      · right
        exact ⟨h'.1, List.mem_cons_of_mem _ h'.2⟩

theorem mem_trisForAux (m : Mesh) (cbs : List ((Vec4 × Vec2) × ℕ))
    (acc : List (ℕ × ℕ)) (pr : ℕ × ℕ)
    (h : pr ∈ cbs.foldl (fun acc kv =>
      (m.getV kv.2).triangles.foldl (fun acc t => dictInsertTV t kv.2 acc) acc) acc) :
    pr ∈ acc ∨ (pr.2 ∈ cbs.map Prod.snd ∧ pr.1 ∈ (m.getV pr.2).triangles) := by
  induction cbs generalizing acc with
  | nil => exact Or.inl h
  | cons kv cbs ih =>
      rcases ih _ h with h' | h'
      · rcases mem_innerTrisFold kv.2 _ acc pr h' with h'' | h''
        · exact Or.inl h''
        · right
          refine ⟨List.mem_map.2 ⟨kv, List.mem_cons_self _ _, h''.1.symm⟩, ?_⟩
          rw [h''.1]
          exact h''.2
      · right
        obtain ⟨w, hw, hwp⟩ := List.mem_map.1 h'.1
        exact ⟨List.mem_map.2 ⟨w, List.mem_cons_of_mem _ hw, hwp⟩, h'.2⟩

/-- Every entry of the per-point `tris` dict records a genuine incidence:
the value is a registered vertex of the point and the key is a triangle in
that vertex's incidence list. -/
theorem mem_trisFor (m : Mesh) (pt : MPoint) (pr : ℕ × ℕ)
    (h : pr ∈ m.trisFor pt) :
    pr.2 ∈ pt.combinations.map Prod.snd ∧ pr.1 ∈ (m.getV pr.2).triangles := by
  rcases mem_trisForAux m pt.combinations [] pr h with h' | h'
  · simp at h'
  · exact h'

theorem trisFor_keys_nodup (m : Mesh) (pt : MPoint) :
    ((m.trisFor pt).map Prod.fst).Nodup := by
  suffices H : ∀ (cbs : List ((Vec4 × Vec2) × ℕ)) (acc : List (ℕ × ℕ)),
      (acc.map Prod.fst).Nodup →
      ((cbs.foldl (fun acc kv =>
        (m.getV kv.2).triangles.foldl (fun acc t => dictInsertTV t kv.2 acc) acc)
        acc).map Prod.fst).Nodup by
    exact H pt.combinations [] (by simp)
  intro cbs
  induction cbs with
  | nil => exact fun acc h => h
  | cons kv cbs ih =>
      intro acc hacc
      exact ih _ (keys_innerTrisFold_nodup kv.2 (m.getV kv.2).triangles acc hacc)

/-! ## Vector algebra for `sameRay3` and `unitDotLt` -/

theorem dot3_comm (u v : Vec3) : dot3 u v = dot3 v u := by
  unfold dot3
  ring

theorem dot3_zero_right (v : Vec3) : dot3 v 0 = 0 := by
  show v.x * (0 : ℚ) + v.y * (0 : ℚ) + v.z * (0 : ℚ) = 0
  ring

theorem dot3_self_eq_zero {u : Vec3} (h : dot3 u u = 0) : u = 0 := by
  obtain ⟨x, y, z⟩ := u
  unfold dot3 at h
  dsimp at h
  have hx : x = 0 := by nlinarith [mul_self_nonneg x, mul_self_nonneg y, mul_self_nonneg z]
  have hy : y = 0 := by nlinarith [mul_self_nonneg x, mul_self_nonneg y, mul_self_nonneg z]
  have hz : z = 0 := by nlinarith [mul_self_nonneg x, mul_self_nonneg y, mul_self_nonneg z]
  subst hx
  subst hy
  subst hz
  rfl

theorem dot3_self_pos {u : Vec3} (h : u ≠ 0) : 0 < dot3 u u := by
  rcases lt_or_eq_of_le (dot3_self_nonneg u) with h' | h'
  · exact h'
  · exact absurd (dot3_self_eq_zero h'.symm) h

theorem cross3_self (u : Vec3) : cross3 u u = 0 := by
  show (⟨u.y * u.z - u.z * u.y, u.z * u.x - u.x * u.z,
    u.x * u.y - u.y * u.x⟩ : Vec3) = 0
  rw [show (0 : Vec3) = ⟨0, 0, 0⟩ from rfl]
  simp only [Vec3.mk.injEq]
  refine ⟨by ring, by ring, by ring⟩

theorem cross3_eq_zero_comm {u v : Vec3} (h : cross3 u v = 0) : cross3 v u = 0 := by
  have h1 : u.y * v.z - u.z * v.y = 0 := congrArg Vec3.x h
  have h2 : u.z * v.x - u.x * v.z = 0 := congrArg Vec3.y h
  have h3 : u.x * v.y - u.y * v.x = 0 := congrArg Vec3.z h
  show (⟨v.y * u.z - v.z * u.y, v.z * u.x - v.x * u.z,
    v.x * u.y - v.y * u.x⟩ : Vec3) = 0
  rw [show (0 : Vec3) = ⟨0, 0, 0⟩ from rfl]
  simp only [Vec3.mk.injEq]
  refine ⟨by linear_combination -h1, by linear_combination -h2, by linear_combination -h3⟩

theorem sameRay3_refl (u : Vec3) : sameRay3 u u = true := by
  unfold sameRay3
  by_cases h : u = 0
  · subst h
    simp
  · have hd : 0 < dot3 u u := dot3_self_pos h
    simp [cross3_self, hd]

theorem sameRay3_symm (u v : Vec3) : sameRay3 u v = sameRay3 v u := by
  unfold sameRay3
  have hd : dot3 u v = dot3 v u := dot3_comm u v
  have hcr : (decide (cross3 u v = 0) : Bool) = decide (cross3 v u = 0) :=
    decide_eq_decide.2 ⟨fun h => cross3_eq_zero_comm h, fun h => cross3_eq_zero_comm h⟩
  rw [hd, hcr, Bool.and_comm (decide (u = 0))]

theorem sameRay3_trans_key {u v k : Vec3} (hu : sameRay3 u k = true)
    (hv : sameRay3 v k = true) : sameRay3 u v = true := by
  unfold sameRay3 at hu hv ⊢
  rw [Bool.or_eq_true, Bool.and_eq_true, Bool.and_eq_true,
    decide_eq_true_eq, decide_eq_true_eq, decide_eq_true_eq, decide_eq_true_eq] at hu hv
  rcases hu with ⟨hu0, hk0⟩ | ⟨hcu, hdu⟩
  · rcases hv with ⟨hv0, _⟩ | ⟨_, hdv⟩
    · rw [Bool.or_eq_true, Bool.and_eq_true, decide_eq_true_eq, decide_eq_true_eq]
      exact Or.inl ⟨hu0, hv0⟩
    · rw [hk0, dot3_zero_right] at hdv
      exact absurd hdv (lt_irrefl 0)
  · rcases hv with ⟨_, hk0⟩ | ⟨hcv, hdv⟩
    · rw [hk0, dot3_zero_right] at hdu
      exact absurd hdu (lt_irrefl 0)
    · have hk : k ≠ 0 := by
        intro hk0
        rw [hk0, dot3_zero_right] at hdu
        exact absurd hdu (lt_irrefl 0)
      have hD : 0 < dot3 k k := dot3_self_pos hk
      have h1u : u.y * k.z - u.z * k.y = 0 := congrArg Vec3.x hcu
      have h2u : u.z * k.x - u.x * k.z = 0 := congrArg Vec3.y hcu
      have h3u : u.x * k.y - u.y * k.x = 0 := congrArg Vec3.z hcu
      have h1v : v.y * k.z - v.z * k.y = 0 := congrArg Vec3.x hcv
      have h2v : v.z * k.x - v.x * k.z = 0 := congrArg Vec3.y hcv
      have h3v : v.x * k.y - v.y * k.x = 0 := congrArg Vec3.z hcv
      have hux : u.x * dot3 k k = dot3 u k * k.x := by
        unfold dot3
        linear_combination k.y * h3u - k.z * h2u
      have huy : u.y * dot3 k k = dot3 u k * k.y := by
        unfold dot3
        linear_combination k.z * h1u - k.x * h3u
      have huz : u.z * dot3 k k = dot3 u k * k.z := by
        unfold dot3
        linear_combination k.x * h2u - k.y * h1u
      have hvx : v.x * dot3 k k = dot3 v k * k.x := by
        unfold dot3
        linear_combination k.y * h3v - k.z * h2v
      have hvy : v.y * dot3 k k = dot3 v k * k.y := by
        unfold dot3
        linear_combination k.z * h1v - k.x * h3v
      have hvz : v.z * dot3 k k = dot3 v k * k.z := by
        unfold dot3
        linear_combination k.x * h2v - k.y * h1v
      have hDD : dot3 k k * dot3 k k ≠ 0 := by positivity
      have hgx : (u.y * v.z - u.z * v.y) * (dot3 k k * dot3 k k) = 0 := by
        linear_combination (v.z * dot3 k k) * huy + (dot3 u k * k.y) * hvz
          - (v.y * dot3 k k) * huz - (dot3 u k * k.z) * hvy
      have hgy : (u.z * v.x - u.x * v.z) * (dot3 k k * dot3 k k) = 0 := by
        linear_combination (v.x * dot3 k k) * huz + (dot3 u k * k.z) * hvx
          - (v.z * dot3 k k) * hux - (dot3 u k * k.x) * hvz
      have hgz : (u.x * v.y - u.y * v.x) * (dot3 k k * dot3 k k) = 0 := by
        linear_combination (v.y * dot3 k k) * hux + (dot3 u k * k.x) * hvy
          - (v.x * dot3 k k) * huy - (dot3 u k * k.y) * hvx
      have hcross : cross3 u v = 0 := by
        show (⟨u.y * v.z - u.z * v.y, u.z * v.x - u.x * v.z,
          u.x * v.y - u.y * v.x⟩ : Vec3) = 0
        rw [show (0 : Vec3) = ⟨0, 0, 0⟩ from rfl]
        simp only [Vec3.mk.injEq]
        refine ⟨?_, ?_, ?_⟩
        · rcases mul_eq_zero.1 hgx with h' | h'
          · exact h'
          · exact absurd h' hDD
        · rcases mul_eq_zero.1 hgy with h' | h'
          · exact h'
          · exact absurd h' hDD
        · rcases mul_eq_zero.1 hgz with h' | h'
          · exact h'
          · exact absurd h' hDD
      have hdotEq : dot3 u v * (dot3 k k * dot3 k k)
          = dot3 u k * dot3 v k * dot3 k k := by
        unfold dot3
        unfold dot3 at hux huy huz hvx hvy hvz
        linear_combination (v.x * (k.x * k.x + k.y * k.y + k.z * k.z)) * hux
          + (v.y * (k.x * k.x + k.y * k.y + k.z * k.z)) * huy
          + (v.z * (k.x * k.x + k.y * k.y + k.z * k.z)) * huz
          + ((u.x * k.x + u.y * k.y + u.z * k.z) * k.x) * hvx
          + ((u.x * k.x + u.y * k.y + u.z * k.z) * k.y) * hvy
          + ((u.x * k.x + u.y * k.y + u.z * k.z) * k.z) * hvz
      have hdotPos : 0 < dot3 u v := by
        by_contra hcon
        push_neg at hcon
        have h1 : 0 < dot3 u k * dot3 v k * dot3 k k :=
          mul_pos (mul_pos hdu hdv) hD
        have h2 : dot3 u v * (dot3 k k * dot3 k k) ≤ 0 :=
          mul_nonpos_of_nonpos_of_nonneg hcon (by positivity)
        rw [hdotEq] at h2
        linarith
      simp only [Bool.or_eq_true, Bool.and_eq_true, decide_eq_true_eq]
      exact Or.inr ⟨hcross, hdotPos⟩

theorem unitDotLt_symm (u v : Vec3) (c : ℚ) : unitDotLt u v c = unitDotLt v u c := by
  unfold unitDotLt
  rw [dot3_comm u v, mul_comm (dot3 u u)]

/-! ## Pairwise separation inside the greedy normal groups -/

theorem getD_lt_eq {α : Type _} (l : List α) (i : ℕ) (d : α) (h : i < l.length) :
    l.getD i d = l[i] := by
  simp [List.getD_eq_getElem?_getD, List.getElem?_eq_getElem h]

theorem groupAccepts_pairwise (m : Mesh) (splitCos : ℚ) (t : ℕ) (g : List ℕ)
    (h : groupAccepts m splitCos t g = true) :
    ∀ tt ∈ g, unitDotLt (m.getT tt).normalMag (m.getT t).normalMag splitCos = false := by
  intro tt htt
  have h' := (List.all_eq_true.1 h) tt htt
  rw [unitDotLt_symm]
  simpa using h'

theorem pickGroup_accepts (m : Mesh) (splitCos : ℚ) (t : ℕ) :
    ∀ (gs : List (List ℕ)) (i : ℕ), pickGroup m splitCos t gs = some i →
      groupAccepts m splitCos t (gs.getD i []) = true := by
  intro gs
  induction gs with
  | nil =>
      intro i h
      simp [pickGroup] at h
  | cons g gs ih =>
      intro i h
      unfold pickGroup at h
      by_cases hg : groupAccepts m splitCos t g
      · rw [if_pos hg] at h
        injection h with h'
        subst h'
        exact hg
      · rw [if_neg hg] at h
        rcases hmap : pickGroup m splitCos t gs with _ | j
        · rw [hmap] at h
          simp at h
        · rw [hmap] at h
          simp at h
          subst h
          exact ih j hmap

theorem mem_listModify {α : Type _} [Inhabited α] (l : List α) (i : ℕ) (f : α → α)
    (x : α) (h : x ∈ listModify l i f) :
    x ∈ l ∨ (i < l.length ∧ x = f (l.getD i default)) := by
  induction l generalizing i with
  | nil =>
      left
      exact h
  | cons a l ih =>
      cases i with
      | zero =>
          rcases List.mem_cons.1 h with h' | h'
          · right
            exact ⟨by simp, h'⟩
          · left
            exact List.mem_cons_of_mem _ h'
      | succ n =>
          rcases List.mem_cons.1 h with h' | h'
          · left
            exact h' ▸ List.mem_cons_self _ _
          · rcases ih n h' with h'' | h''
            · left
              exact List.mem_cons_of_mem _ h''
            · right
              exact ⟨by simpa using h''.1, h''.2⟩

/-- Every cluster produced by the greedy grouping is pairwise accepting:
any two distinct members have unit-normal dot product `≥ splitCos` (stated
as the negation of `unitDotLt`), because each member was unanimously
accepted against all earlier ones. -/
theorem normal_groups_pairwise (m : Mesh) (splitCos : ℚ) (tris : List ℕ) :
    ∀ g ∈ _compute_normal_groups m tris splitCos,
      List.Pairwise (fun a b =>
        unitDotLt (m.getT a).normalMag (m.getT b).normalMag splitCos = false) g := by
  suffices H : ∀ (ts : List ℕ) (gs : List (List ℕ)),
      (∀ g ∈ gs, List.Pairwise (fun a b =>
        unitDotLt (m.getT a).normalMag (m.getT b).normalMag splitCos = false) g) →
      ∀ g ∈ ts.foldl
        (fun groups t =>
          if groups.isEmpty then [[t]]
          else
            match pickGroup m splitCos t groups with
            | some i => listModify groups i (· ++ [t])
            | none => groups ++ [[t]])
        gs,
        List.Pairwise (fun a b =>
          unitDotLt (m.getT a).normalMag (m.getT b).normalMag splitCos = false) g by
    intro g hg
    exact H tris [] (by simp) g hg
  intro ts
  induction ts with
  | nil => exact fun gs h => h
  | cons t ts ih =>
      intro gs hgs
      rw [List.foldl_cons]
      apply ih
      by_cases hemp : gs.isEmpty
      · rw [if_pos hemp]
        intro g hg
        have : g = [t] := by simpa using hg
        subst this
        simp
      · rw [if_neg hemp]
        rcases hpick : pickGroup m splitCos t gs with _ | i
        · intro g hg
          rcases List.mem_append.1 hg with h' | h'
          · exact hgs g h'
          · have : g = [t] := by simpa using h'
            subst this
            simp
        · intro g hg
          rcases mem_listModify gs i _ g hg with h' | ⟨hi, he⟩
          · exact hgs g h'
          · subst he
            rw [List.pairwise_append]
            refine ⟨hgs _ (by
              rw [getD_lt_eq gs i default hi]
              exact List.getElem_mem hi), by simp, ?_⟩
            intro a ha b hb
            have hb' : b = t := by simpa using hb
            rw [hb']
            exact groupAccepts_pairwise m splitCos t _
              (pickGroup_accepts m splitCos t gs i hpick) a
              (by
                rw [getD_lt_eq gs i ([] : List ℕ) hi]
                rw [getD_lt_eq gs i default hi] at ha
                exact ha)

theorem mem_join_getD (l : List (List ℕ)) (j : ℕ) (x : ℕ) (hj : j < l.length)
    (hx : x ∈ l.getD j []) : x ∈ l.join := by
  induction l generalizing j with
  | nil => simp at hj
  | cons a l ih =>
      show x ∈ a ++ l.join
      cases j with
      | zero => exact List.mem_append.2 (Or.inl hx)
      | succ n => exact List.mem_append.2 (Or.inr (ih n (by simpa using hj) hx))

theorem join_count_ge_two (l : List (List ℕ)) (x : ℕ) (i j : ℕ) (hij : i < j)
    (hj : j < l.length) (hxi : x ∈ l.getD i []) (hxj : x ∈ l.getD j []) :
    2 ≤ l.join.count x := by
  induction l generalizing i j with
  | nil => simp at hj
  | cons a l ih =>
      show 2 ≤ (a ++ l.join).count x
      rw [List.count_append]
      cases i with
      | zero =>
          have h1 : 0 < a.count x := List.count_pos_iff.2 hxi
          cases j with
          | zero => omega
          | succ j' =>
              have h2 : x ∈ l.join := mem_join_getD l j' x (by simpa using hj) hxj
              have h2' : 0 < l.join.count x := List.count_pos_iff.2 h2
              omega
      | succ i' =>
          cases j with
          | zero => omega
          | succ j' =>
              have := ih i' j' (by omega) (by simpa using hj) hxi hxj
              omega

theorem mem_getD_of_mem_join (l : List (List ℕ)) (x : ℕ) (h : x ∈ l.join) :
    ∃ j < l.length, x ∈ l.getD j [] := by
  obtain ⟨g, hg, hx⟩ := List.mem_join.1 h
  obtain ⟨n, hn, he⟩ := List.getElem_of_mem hg
  exact ⟨n, hn, by rw [getD_lt_eq l n [] hn, he]; exact hx⟩

/-- In the grouping of a duplicate-free triangle list, each triangle lies in
exactly one cluster (uniqueness of the cluster index). -/
theorem group_index_unique (m : Mesh) (splitCos : ℚ) (tris : List ℕ)
    (ht : ∀ x, tris.count x ≤ 1) (x : ℕ) (i j : ℕ)
    (hi : i < (_compute_normal_groups m tris splitCos).length)
    (hj : j < (_compute_normal_groups m tris splitCos).length)
    (hxi : x ∈ (_compute_normal_groups m tris splitCos).getD i [])
    (hxj : x ∈ (_compute_normal_groups m tris splitCos).getD j []) : i = j := by
  have hcnt : (_compute_normal_groups m tris splitCos).join.count x = tris.count x := by
    unfold _compute_normal_groups
    simpa using normal_groups_fold_count m splitCos tris [] x
  rcases Nat.lt_trichotomy i j with h' | h' | h'
  · have := join_count_ge_two _ x i j h' hj hxi hxj
    have := ht x
    omega
  · exact h'
  · have := join_count_ge_two _ x j i h' hi hxj hxi
    have := ht x
    omega

theorem normal_groups_mem_tris (m : Mesh) (splitCos : ℚ) (tris : List ℕ)
    (g : List ℕ) (hg : g ∈ _compute_normal_groups m tris splitCos)
    (x : ℕ) (hx : x ∈ g) : x ∈ tris := by
  have hcnt : (_compute_normal_groups m tris splitCos).join.count x = tris.count x := by
    unfold _compute_normal_groups
    simpa using normal_groups_fold_count m splitCos tris [] x
  have hmem : x ∈ (_compute_normal_groups m tris splitCos).join :=
    List.mem_join.2 ⟨g, hg, hx⟩
  have := List.count_pos_iff.2 hmem
  rw [hcnt] at this
  exact List.count_pos_iff.1 this

theorem mem_tris_mem_join (m : Mesh) (splitCos : ℚ) (tris : List ℕ)
    (x : ℕ) (hx : x ∈ tris) : x ∈ (_compute_normal_groups m tris splitCos).join := by
  have hcnt : (_compute_normal_groups m tris splitCos).join.count x = tris.count x := by
    unfold _compute_normal_groups
    simpa using normal_groups_fold_count m splitCos tris [] x
  have := List.count_pos_iff.2 hx
  rw [← hcnt] at this
  exact List.count_pos_iff.1 this

/-! ## Static facts about the `v2n` structure -/

theorem innerInsert_ne_nil (n : Vec3) (t : ℕ) (e : List (Vec3 × List ℕ)) :
    innerInsert n t e ≠ [] := by
  cases e with
  | nil => simp [innerInsert]
  | cons q rest =>
      obtain ⟨k, ts⟩ := q
      unfold innerInsert
      split_ifs <;> simp

theorem innerInsert_cons (n : Vec3) (t : ℕ) (k : Vec3) (ts : List ℕ)
    (rest : List (Vec3 × List ℕ)) :
    innerInsert n t ((k, ts) :: rest)
      = if sameRay3 n k then (k, ts ++ [t]) :: rest
        else (k, ts) :: innerInsert n t rest := rfl

theorem v2nInsert_cons (vid : ℕ) (n : Vec3) (t : ℕ) (v' : ℕ)
    (e : List (Vec3 × List ℕ)) (rest : V2N) :
    v2nInsert vid n t ((v', e) :: rest)
      = if vid = v' then (v', innerInsert n t e) :: rest
        else (v', e) :: v2nInsert vid n t rest := rfl

theorem mem_innerInsert (n : Vec3) (t : ℕ) (e : List (Vec3 × List ℕ))
    (q : Vec3 × List ℕ) (h : q ∈ innerInsert n t e) :
    q = (n, [t]) ∨ q ∈ e ∨
      ∃ k ts, (k, ts) ∈ e ∧ sameRay3 n k = true ∧ q = (k, ts ++ [t]) := by
  induction e with
  | nil =>
      left
      simpa [innerInsert] using h
  | cons p rest ih =>
      obtain ⟨k, ts⟩ := p
      by_cases hs : sameRay3 n k
      · rw [innerInsert_cons, if_pos hs] at h
        rcases List.mem_cons.1 h with h' | h'
        · exact Or.inr (Or.inr ⟨k, ts, List.mem_cons_self _ _, hs, h'⟩)
        · exact Or.inr (Or.inl (List.mem_cons_of_mem _ h'))
      · rw [innerInsert_cons, if_neg hs] at h
        rcases List.mem_cons.1 h with h' | h'
        · exact Or.inr (Or.inl (h' ▸ List.mem_cons_self _ _))
        · rcases ih h' with h'' | h'' | ⟨k', ts', hm, hs', he⟩
          · exact Or.inl h''
          · exact Or.inr (Or.inl (List.mem_cons_of_mem _ h''))
          · exact Or.inr (Or.inr ⟨k', ts', List.mem_cons_of_mem _ hm, hs', he⟩)

theorem mem_flatTs_innerInsert (n : Vec3) (t : ℕ) (e : List (Vec3 × List ℕ))
    (x : ℕ) (h : x ∈ flatTs (innerInsert n t e)) : x = t ∨ x ∈ flatTs e := by
  induction e with
  | nil =>
      left
      simpa [innerInsert, flatTs] using h
  | cons p rest ih =>
      obtain ⟨k, ts⟩ := p
      by_cases hs : sameRay3 n k
      · rw [innerInsert_cons, if_pos hs, flatTs_cons] at h
        rcases List.mem_append.1 h with h' | h'
        · rcases List.mem_append.1 h' with h'' | h''
          · right
            rw [flatTs_cons]
            exact List.mem_append.2 (Or.inl h'')
          · left
            simpa using h''
        · right
          rw [flatTs_cons]
          exact List.mem_append.2 (Or.inr h')
      · rw [innerInsert_cons, if_neg hs, flatTs_cons] at h
        rcases List.mem_append.1 h with h' | h'
        · right
          rw [flatTs_cons]
          exact List.mem_append.2 (Or.inl h')
        · rcases ih h' with h'' | h''
          · exact Or.inl h''
          · right
            rw [flatTs_cons]
            exact List.mem_append.2 (Or.inr h'')

theorem flatTs_innerInsert_superset (n : Vec3) (t : ℕ) (e : List (Vec3 × List ℕ))
    (x : ℕ) (h : x ∈ flatTs e) : x ∈ flatTs (innerInsert n t e) := by
  induction e with
  | nil => simp [flatTs] at h
  | cons p rest ih =>
      obtain ⟨k, ts⟩ := p
      rw [flatTs_cons] at h
      by_cases hs : sameRay3 n k
      · rw [innerInsert_cons, if_pos hs, flatTs_cons]
        rcases List.mem_append.1 h with h' | h'
        · exact List.mem_append.2 (Or.inl (List.mem_append.2 (Or.inl h')))
        · exact List.mem_append.2 (Or.inr h')
      · rw [innerInsert_cons, if_neg hs, flatTs_cons]
        rcases List.mem_append.1 h with h' | h'
        · exact List.mem_append.2 (Or.inl h')
        · exact List.mem_append.2 (Or.inr (ih h'))

theorem count_flatTs_innerInsert (n : Vec3) (t x : ℕ) (e : List (Vec3 × List ℕ)) :
    (flatTs (innerInsert n t e)).count x
      = (flatTs e).count x + (if x = t then 1 else 0) := by
  have hsingle : ([t] : List ℕ).count x = (if x = t then 1 else 0) := by
    by_cases hx : x = t
    · subst hx
      simp
    · rw [if_neg hx, List.count_eq_zero]
      simp [hx]
  induction e with
  | nil =>
      show (flatTs [(n, [t])]).count x = (flatTs ([] : List (Vec3 × List ℕ))).count x + _
      rw [show flatTs [(n, [t])] = [t] ++ flatTs ([] : List (Vec3 × List ℕ)) from rfl]
      simp [flatTs, hsingle]
  | cons p rest ih =>
      obtain ⟨k, ts⟩ := p
      by_cases hs : sameRay3 n k
      · rw [innerInsert_cons, if_pos hs, flatTs_cons, flatTs_cons]
        show ((ts ++ [t]) ++ flatTs rest).count x
          = (ts ++ flatTs rest).count x + (if x = t then 1 else 0)
        rw [List.count_append, List.count_append, List.count_append, hsingle]
        omega
      · rw [innerInsert_cons, if_neg hs, flatTs_cons, flatTs_cons]
        show (ts ++ flatTs (innerInsert n t rest)).count x
          = (ts ++ flatTs rest).count x + (if x = t then 1 else 0)
        rw [List.count_append, List.count_append, ih]
        omega

theorem mem_v2nInsert (vid : ℕ) (n : Vec3) (t : ℕ) (v : V2N)
    (pr : ℕ × List (Vec3 × List ℕ)) (h : pr ∈ v2nInsert vid n t v) :
    pr = (vid, [(n, [t])]) ∨ pr ∈ v ∨
      ∃ e, (vid, e) ∈ v ∧ pr = (vid, innerInsert n t e) := by
  induction v with
  | nil =>
      left
      simpa [v2nInsert] using h
  | cons p rest ih =>
      obtain ⟨v', e⟩ := p
      by_cases hv : vid = v'
      · subst hv
        rw [v2nInsert_cons, if_pos rfl] at h
        rcases List.mem_cons.1 h with h' | h'
        · exact Or.inr (Or.inr ⟨e, List.mem_cons_self _ _, h'⟩)
        · exact Or.inr (Or.inl (List.mem_cons_of_mem _ h'))
      · rw [v2nInsert_cons, if_neg hv] at h
        rcases List.mem_cons.1 h with h' | h'
        · exact Or.inr (Or.inl (h' ▸ List.mem_cons_self _ _))
        · rcases ih h' with h'' | h'' | ⟨e', hm, he⟩
          · exact Or.inl h''
          · exact Or.inr (Or.inl (List.mem_cons_of_mem _ h''))
          · exact Or.inr (Or.inr ⟨e', List.mem_cons_of_mem _ hm, he⟩)

theorem mem_keys_v2nInsert (vid : ℕ) (n : Vec3) (t : ℕ) (v : V2N) (x : ℕ)
    (h : x ∈ (v2nInsert vid n t v).map Prod.fst) :
    x = vid ∨ x ∈ v.map Prod.fst := by
  obtain ⟨pr, hpr, he⟩ := List.mem_map.1 h
  rcases mem_v2nInsert vid n t v pr hpr with h' | h' | ⟨e, hm, h'⟩
  · left
    rw [← he, h']
  · right
    exact List.mem_map.2 ⟨pr, h', he⟩
  · left
    rw [← he, h']

theorem keys_v2nInsert_nodup (vid : ℕ) (n : Vec3) (t : ℕ) (v : V2N)
    (h : (v.map Prod.fst).Nodup) :
    ((v2nInsert vid n t v).map Prod.fst).Nodup := by
  induction v with
  | nil => simp [v2nInsert]
  | cons p rest ih =>
      obtain ⟨v', e⟩ := p
      rw [List.map_cons, List.nodup_cons] at h
      by_cases hv : vid = v'
      · subst hv
        rw [v2nInsert_cons, if_pos rfl]
        rw [List.map_cons, List.nodup_cons]
        exact ⟨h.1, h.2⟩
      · rw [v2nInsert_cons, if_neg hv]
        rw [List.map_cons, List.nodup_cons]
        refine ⟨?_, ih h.2⟩
        intro hc
        rcases mem_keys_v2nInsert vid n t rest v' hc with h' | h'
        · exact hv h'.symm
        · exact h.1 h'

/-- The total number of occurrences of triangle `x` across all entries of a
`v2n` structure. -/
def v2nCount (x : ℕ) (v : V2N) : ℕ :=
  (v.map (fun pr => (flatTs pr.2).count x)).sum

theorem v2nCount_insert (vid : ℕ) (n : Vec3) (t x : ℕ) (v : V2N) :
    v2nCount x (v2nInsert vid n t v)
      = v2nCount x v + (if x = t then 1 else 0) := by
  have hsingle : ([t] : List ℕ).count x = (if x = t then 1 else 0) := by
    by_cases hx : x = t
    · subst hx
      simp
    · rw [if_neg hx, List.count_eq_zero]
      simp [hx]
  induction v with
  | nil =>
      unfold v2nCount
      rw [show v2nInsert vid n t [] = [(vid, [(n, [t])])] from rfl]
      rw [List.map_cons, List.map_nil, List.sum_cons, List.sum_nil]
      rw [show flatTs [(n, [t])] = [t] from rfl, hsingle]
      omega
  | cons p rest ih =>
      obtain ⟨v', e⟩ := p
      by_cases hv : vid = v'
      · subst hv
        rw [v2nInsert_cons, if_pos rfl]
        show (flatTs (innerInsert n t e)).count x + v2nCount x rest
          = ((flatTs e).count x + v2nCount x rest) + (if x = t then 1 else 0)
        rw [count_flatTs_innerInsert]
        omega
      · rw [v2nInsert_cons, if_neg hv]
        show (flatTs e).count x + v2nCount x (v2nInsert vid n t rest)
          = ((flatTs e).count x + v2nCount x rest) + (if x = t then 1 else 0)
        rw [ih]
        omega

theorem flat_count_le_v2nCount (x : ℕ) (v : V2N)
    (pr : ℕ × List (Vec3 × List ℕ)) (h : pr ∈ v) :
    (flatTs pr.2).count x ≤ v2nCount x v :=
  List.single_le_sum (fun b _ => Nat.zero_le b) _
    (List.mem_map.2 ⟨pr, h, rfl⟩)

theorem v2n_pairwise_disjoint (v : V2N) (h : ∀ x, v2nCount x v ≤ 1) :
    List.Pairwise (fun a b => ∀ t, t ∈ flatTs a.2 → t ∉ flatTs b.2) v := by
  induction v with
  | nil => exact List.Pairwise.nil
  | cons pr rest ih =>
      refine List.Pairwise.cons ?_ (ih ?_)
      · intro pr' hpr' t ht ht'
        have h1 : 1 ≤ (flatTs pr.2).count t := List.count_pos_iff.2 ht
        have h2 : 1 ≤ (flatTs pr'.2).count t := List.count_pos_iff.2 ht'
        have h3 : (flatTs pr'.2).count t ≤ v2nCount t rest :=
          flat_count_le_v2nCount t rest pr' hpr'
        have h4 := h t
        unfold v2nCount at h4
        rw [List.map_cons, List.sum_cons] at h4
        unfold v2nCount at h3
        omega
      · intro x
        have h4 := h x
        unfold v2nCount at h4 ⊢
        rw [List.map_cons, List.sum_cons] at h4
        omega

/-- The `v2n` construction as a single fold over the (triangle, group-sum)
insertion sequence, in the order `_compute_vertex_duplication` performs
them. -/
def v2nInsertMany (tris : List (ℕ × ℕ)) (ps : List (ℕ × Vec3)) (v : V2N) : V2N :=
  ps.foldl
    (fun v2n pr =>
      match lookupTV pr.1 tris with
      | some vid => v2nInsert vid pr.2 pr.1 v2n
      | none => v2n) v

theorem v2nInsertMany_cons (tris : List (ℕ × ℕ)) (pr : ℕ × Vec3)
    (ps : List (ℕ × Vec3)) (v : V2N) :
    v2nInsertMany tris (pr :: ps) v
      = v2nInsertMany tris ps
          (match lookupTV pr.1 tris with
           | some vid => v2nInsert vid pr.2 pr.1 v
           | none => v) := rfl

theorem vdup_eq_insertMany (m : Mesh) (tris : List (ℕ × ℕ))
    (groups : List (List ℕ)) :
    _compute_vertex_duplication m tris groups
      = v2nInsertMany tris
          ((groups.map (fun g => g.map (fun t => (t, groupSum m g)))).join) [] := by
  unfold _compute_vertex_duplication v2nInsertMany
  rw [List.foldl_join, List.foldl_map]
  congr 1
  funext v2n g
  rw [List.foldl_map]

theorem innerInsert_keys_pairwise (n : Vec3) (t : ℕ) (e : List (Vec3 × List ℕ))
    (h : List.Pairwise (fun a b : Vec3 × List ℕ => sameRay3 a.1 b.1 = false) e) :
    List.Pairwise (fun a b : Vec3 × List ℕ => sameRay3 a.1 b.1 = false)
      (innerInsert n t e) := by
  induction e with
  | nil => simp [innerInsert]
  | cons q rest ih =>
      obtain ⟨k, ts⟩ := q
      rw [List.pairwise_cons] at h
      by_cases hs : sameRay3 n k
      · rw [innerInsert_cons, if_pos hs]
        exact List.Pairwise.cons (fun b hb => h.1 b hb) h.2
      · rw [innerInsert_cons, if_neg hs]
        refine List.Pairwise.cons ?_ (ih h.2)
        intro b hb
        rcases mem_innerInsert n t rest b hb with h' | h' | ⟨k', ts', hm, hs', h'⟩
        · rw [h']
          show sameRay3 k n = false
          rw [sameRay3_symm]
          exact Bool.eq_false_iff.2 (fun hc => hs hc)
        · exact h.1 b h'
        · rw [h']
          exact h.1 (k', ts') hm

/-- Well-formedness of a (partially built) `v2n` structure with respect to
the `tris` dict and the clusters: keys are distinct vertex ids that occur as
`tris` values, entries and their per-normal lists are nonempty, each listed
triangle's `tris` value is the entry's vertex, every normal key is the
raw sum of some cluster whose listed triangles all belong to clusters with
a positively-parallel sum, and within one entry distinct normal keys are
never positively parallel. -/
structure V2NWF (m : Mesh) (tris : List (ℕ × ℕ)) (groups : List (List ℕ))
    (v : V2N) : Prop where
  keys_nodup : (v.map Prod.fst).Nodup
  key_src : ∀ pr ∈ v, ∃ t, lookupTV t tris = some pr.1
  entry_ne : ∀ pr ∈ v, pr.2 ≠ []
  ts_ne : ∀ pr ∈ v, ∀ q ∈ pr.2, q.2 ≠ []
  tri_src : ∀ pr ∈ v, ∀ t ∈ flatTs pr.2, lookupTV t tris = some pr.1
  key_grp : ∀ pr ∈ v, ∀ q ∈ pr.2, ∃ g ∈ groups, q.1 = groupSum m g
  tri_grp : ∀ pr ∈ v, ∀ q ∈ pr.2, ∀ t ∈ q.2,
    ∃ g ∈ groups, t ∈ g ∧ sameRay3 (groupSum m g) q.1 = true
  key_sep : ∀ pr ∈ v,
    List.Pairwise (fun a b : Vec3 × List ℕ => sameRay3 a.1 b.1 = false) pr.2

theorem V2NWF.insert {m : Mesh} {tris : List (ℕ × ℕ)} {groups : List (List ℕ)}
    {v : V2N} (h : V2NWF m tris groups v)
    (vid t : ℕ) (g : List ℕ) (hg : g ∈ groups) (htg : t ∈ g)
    (hl : lookupTV t tris = some vid) :
    V2NWF m tris groups (v2nInsert vid (groupSum m g) t v) := by
  constructor
  · exact keys_v2nInsert_nodup _ _ _ _ h.keys_nodup
  · intro pr hpr
    rcases mem_v2nInsert _ _ _ _ pr hpr with h' | h' | ⟨e, hm, h'⟩
    · exact ⟨t, by rw [h']; exact hl⟩
    · exact h.key_src pr h'
    · exact ⟨t, by rw [h']; exact hl⟩
  · intro pr hpr
    rcases mem_v2nInsert _ _ _ _ pr hpr with h' | h' | ⟨e, hm, h'⟩
    · rw [h']
      simp
    · exact h.entry_ne pr h'
    · rw [h']
      exact innerInsert_ne_nil _ _ _
  · intro pr hpr q hq
    rcases mem_v2nInsert _ _ _ _ pr hpr with h' | h' | ⟨e, hm, h'⟩
    · rw [h'] at hq
      have hq' : q = (groupSum m g, [t]) := by simpa using hq
      rw [hq']
      simp
    · exact h.ts_ne pr h' q hq
    · rw [h'] at hq
      rcases mem_innerInsert _ _ _ _ (by exact hq) with h'' | h'' | ⟨k, ts, hkm, hs, h''⟩
      · rw [h'']
        simp
      · exact h.ts_ne (vid, e) hm q h''
      · rw [h'']
        simp
  · intro pr hpr x hx
    rcases mem_v2nInsert _ _ _ _ pr hpr with h' | h' | ⟨e, hm, h'⟩
    · rw [h'] at hx
      have hx' : x = t := by
        have : x ∈ ([t] : List ℕ) := hx
        simpa using this
      subst hx'
      rw [h']
      exact hl
    · exact h.tri_src pr h' x hx
    · rw [h'] at hx
      rcases mem_flatTs_innerInsert _ _ _ _ (by exact hx) with h'' | h''
      · subst h''
        rw [h']
        exact hl
      · rw [h']
        exact h.tri_src (vid, e) hm x h''
  · intro pr hpr q hq
    rcases mem_v2nInsert _ _ _ _ pr hpr with h' | h' | ⟨e, hm, h'⟩
    · rw [h'] at hq
      have hq' : q = (groupSum m g, [t]) := by simpa using hq
      exact ⟨g, hg, by rw [hq']⟩
    · exact h.key_grp pr h' q hq
    · rw [h'] at hq
      rcases mem_innerInsert _ _ _ _ (by exact hq) with h'' | h'' | ⟨k, ts, hkm, hs, h''⟩
      · exact ⟨g, hg, by rw [h'']⟩
      · exact h.key_grp (vid, e) hm q h''
      · obtain ⟨g', hg', he'⟩ := h.key_grp (vid, e) hm (k, ts) hkm
        exact ⟨g', hg', by rw [h'']; exact he'⟩
  · intro pr hpr q hq x hx
    rcases mem_v2nInsert _ _ _ _ pr hpr with h' | h' | ⟨e, hm, h'⟩
    · rw [h'] at hq
      have hq' : q = (groupSum m g, [t]) := by simpa using hq
      rw [hq'] at hx
      have hx' : x = t := by simpa using hx
      subst hx'
      exact ⟨g, hg, htg, by rw [hq']; exact sameRay3_refl _⟩
    · exact h.tri_grp pr h' q hq x hx
    · rw [h'] at hq
      rcases mem_innerInsert _ _ _ _ (by exact hq) with h'' | h'' | ⟨k, ts, hkm, hs, h''⟩
      · rw [h''] at hx
        have hx' : x = t := by simpa using hx
        subst hx'
        exact ⟨g, hg, htg, by rw [h'']; exact sameRay3_refl _⟩
      · exact h.tri_grp (vid, e) hm q h'' x hx
      · rw [h''] at hx
        rcases List.mem_append.1 hx with h3 | h3
        · obtain ⟨g', hg', hm', hs'⟩ := h.tri_grp (vid, e) hm (k, ts) hkm x h3
          exact ⟨g', hg', hm', by rw [h'']; exact hs'⟩
        · have hx' : x = t := by simpa using h3
          subst hx'
          exact ⟨g, hg, htg, by rw [h'']; exact hs⟩
  · intro pr hpr
    rcases mem_v2nInsert _ _ _ _ pr hpr with h' | h' | ⟨e, hm, h'⟩
    · rw [h']
      simp
    · exact h.key_sep pr h'
    · rw [h']
      exact innerInsert_keys_pairwise _ _ _ (h.key_sep (vid, e) hm)

theorem V2NWF.nil (m : Mesh) (tris : List (ℕ × ℕ)) (groups : List (List ℕ)) :
    V2NWF m tris groups [] := by
  constructor <;> simp

theorem v2nInsertMany_wf (m : Mesh) (tris : List (ℕ × ℕ))
    (groups : List (List ℕ)) (ps : List (ℕ × Vec3)) (v : V2N)
    (hps : ∀ pr ∈ ps, ∃ g ∈ groups, pr.1 ∈ g ∧ pr.2 = groupSum m g)
    (h : V2NWF m tris groups v) :
    V2NWF m tris groups (v2nInsertMany tris ps v) := by
  induction ps generalizing v with
  | nil => exact h
  | cons pr ps ih =>
      rw [v2nInsertMany_cons]
      rcases hl : lookupTV pr.1 tris with _ | vid
      · exact ih _ (fun q hq => hps q (List.mem_cons_of_mem _ hq)) h
      · obtain ⟨g, hg, hmem, he⟩ := hps pr (List.mem_cons_self _ _)
        refine ih (v2nInsert vid pr.2 pr.1 v)
          (fun q hq => hps q (List.mem_cons_of_mem _ hq)) ?_
        rw [he]
        exact h.insert vid pr.1 g hg hmem hl

theorem v2nInsertMany_count (tris : List (ℕ × ℕ)) (ps : List (ℕ × Vec3))
    (v : V2N) (x : ℕ) :
    v2nCount x (v2nInsertMany tris ps v)
      ≤ v2nCount x v + (ps.map Prod.fst).count x := by
  induction ps generalizing v with
  | nil => simp [v2nInsertMany]
  | cons pr ps ih =>
      rw [v2nInsertMany_cons, List.map_cons, List.count_cons]
      rcases hl : lookupTV pr.1 tris with _ | vid
      · show v2nCount x (v2nInsertMany tris ps v) ≤ _
        have := ih v
        omega
      · show v2nCount x (v2nInsertMany tris ps (v2nInsert vid pr.2 pr.1 v)) ≤ _
        have h1 := ih (v2nInsert vid pr.2 pr.1 v)
        rw [v2nCount_insert] at h1
        have hite : (if (pr.1 == x) = true then 1 else 0)
            = (if x = pr.1 then 1 else 0) := by
          by_cases hx : x = pr.1
          · simp [hx]
          · simp [hx, Ne.symm hx]
        rw [hite]
        omega

theorem t_mem_flatTs_innerInsert (n : Vec3) (t : ℕ) (e : List (Vec3 × List ℕ)) :
    t ∈ flatTs (innerInsert n t e) := by
  induction e with
  | nil =>
      rw [show flatTs (innerInsert n t []) = [t] from rfl]
      simp
  | cons p rest ih =>
      obtain ⟨k, ts⟩ := p
      by_cases hs : sameRay3 n k
      · rw [innerInsert_cons, if_pos hs, flatTs_cons]
        exact List.mem_append.2 (Or.inl (List.mem_append.2 (Or.inr (by simp))))
      · rw [innerInsert_cons, if_neg hs, flatTs_cons]
        exact List.mem_append.2 (Or.inr ih)

theorem v2nInsert_self (vid : ℕ) (n : Vec3) (t : ℕ) (v : V2N) :
    ∃ j < (v2nInsert vid n t v).length,
      ((v2nInsert vid n t v).getD j default).1 = vid ∧
      t ∈ flatTs ((v2nInsert vid n t v).getD j default).2 := by
  induction v with
  | nil =>
      refine ⟨0, by simp [v2nInsert], rfl, ?_⟩
      show t ∈ flatTs [(n, [t])]
      rw [show flatTs [(n, [t])] = [t] from rfl]
      simp
  | cons p rest ih =>
      obtain ⟨v', e⟩ := p
      by_cases hv : vid = v'
      · subst hv
        rw [v2nInsert_cons, if_pos rfl]
        exact ⟨0, by simp, rfl, t_mem_flatTs_innerInsert n t e⟩
      · rw [v2nInsert_cons, if_neg hv]
        obtain ⟨j, hj, hk, hm⟩ := ih
        refine ⟨j + 1, by simpa using hj, hk, hm⟩

theorem v2nInsert_mono (vid : ℕ) (n : Vec3) (t : ℕ) (v : V2N) (j : ℕ)
    (hj : j < v.length) :
    j < (v2nInsert vid n t v).length ∧
    ((v2nInsert vid n t v).getD j default).1 = (v.getD j default).1 ∧
    ∀ x ∈ flatTs (v.getD j default).2,
      x ∈ flatTs ((v2nInsert vid n t v).getD j default).2 := by
  induction v generalizing j with
  | nil => simp at hj
  | cons p rest ih =>
      obtain ⟨v', e⟩ := p
      by_cases hv : vid = v'
      · subst hv
        rw [v2nInsert_cons, if_pos rfl]
        cases j with
        | zero =>
            exact ⟨by simp, rfl, fun x hx => flatTs_innerInsert_superset n t e x hx⟩
        | succ j' =>
            exact ⟨by simpa using hj, rfl, fun x hx => hx⟩
      · rw [v2nInsert_cons, if_neg hv]
        cases j with
        | zero => exact ⟨by simp, rfl, fun x hx => hx⟩
        | succ j' =>
            obtain ⟨h1, h2, h3⟩ := ih j' (by simpa using hj)
            exact ⟨by simpa using h1, h2, h3⟩

theorem v2nInsertMany_complete (tris : List (ℕ × ℕ)) (ps : List (ℕ × Vec3))
    (v : V2N) (t vid : ℕ) (h : lookupTV t tris = some vid)
    (hin : (∃ n, (t, n) ∈ ps) ∨
      ∃ j < v.length, (v.getD j default).1 = vid ∧
        t ∈ flatTs (v.getD j default).2) :
    ∃ j < (v2nInsertMany tris ps v).length,
      ((v2nInsertMany tris ps v).getD j default).1 = vid ∧
      t ∈ flatTs ((v2nInsertMany tris ps v).getD j default).2 := by
  induction ps generalizing v with
  | nil =>
      rcases hin with ⟨n, hn⟩ | h'
      · simp at hn
      · exact h'
  | cons pr ps ih =>
      rw [v2nInsertMany_cons]
      rcases hl : lookupTV pr.1 tris with _ | vid'
      · apply ih v
        rcases hin with ⟨n, hn⟩ | h'
        · rcases List.mem_cons.1 hn with h2 | h2
          · exfalso
            have hpr1 : pr.1 = t := by rw [← h2]
            rw [hpr1, h] at hl
            exact Option.noConfusion hl
          · exact Or.inl ⟨n, h2⟩
        · exact Or.inr h'
      · apply ih (v2nInsert vid' pr.2 pr.1 v)
        rcases hin with ⟨n, hn⟩ | ⟨j, hj, hk, hm⟩
        · rcases List.mem_cons.1 hn with h2 | h2
          · right
            have hpr1 : pr.1 = t := by rw [← h2]
            have hvv : vid' = vid := by
              rw [hpr1, h] at hl
              exact (Option.some.injEq _ _ ▸ hl).symm
            obtain ⟨j, hj, hk, hm⟩ := v2nInsert_self vid' pr.2 pr.1 v
            exact ⟨j, hj, by rw [hk, hvv], by rw [← hpr1]; exact hm⟩
          · exact Or.inl ⟨n, h2⟩
        · right
          obtain ⟨h1, h2, h3⟩ := v2nInsert_mono vid' pr.2 pr.1 v j hj
          exact ⟨j, h1, by rw [h2]; exact hk, h3 t hm⟩

theorem mem_flatTs_exists_getD (e : List (Vec3 × List ℕ)) (t : ℕ)
    (h : t ∈ flatTs e) : ∃ ki < e.length, t ∈ (e.getD ki default).2 := by
  induction e with
  | nil => simp [flatTs] at h
  | cons q rest ih =>
      rw [flatTs_cons] at h
      rcases List.mem_append.1 h with h' | h'
      · exact ⟨0, by simp, h'⟩
      · obtain ⟨ki, hki, hm⟩ := ih h'
        exact ⟨ki + 1, by simpa using hki, hm⟩

/-- Master well-formedness of the `v2n` structure built for one point:
structural invariants, global multiplicity ≤ 1 of every triangle id, and
completeness (every `tris` entry's triangle lands in its vertex's entry). -/
theorem v2n_master (s : Mesh) (tris : List (ℕ × ℕ)) (splitCos : ℚ)
    (hnd : (tris.map Prod.fst).Nodup) :
    V2NWF s tris (_compute_normal_groups s (tris.map Prod.fst) splitCos)
      (_compute_vertex_duplication s tris
        (_compute_normal_groups s (tris.map Prod.fst) splitCos)) ∧
    (∀ x, v2nCount x (_compute_vertex_duplication s tris
      (_compute_normal_groups s (tris.map Prod.fst) splitCos)) ≤ 1) ∧
    ∀ t vid, lookupTV t tris = some vid →
      ∃ j < (_compute_vertex_duplication s tris
          (_compute_normal_groups s (tris.map Prod.fst) splitCos)).length,
        ((_compute_vertex_duplication s tris
          (_compute_normal_groups s (tris.map Prod.fst) splitCos)).getD j
            default).1 = vid ∧
        t ∈ flatTs ((_compute_vertex_duplication s tris
          (_compute_normal_groups s (tris.map Prod.fst) splitCos)).getD j
            default).2 := by
  set tkeys := tris.map Prod.fst with htk
  set groups := _compute_normal_groups s tkeys splitCos with hgr
  set ps := (groups.map (fun g => g.map (fun t => (t, groupSum s g)))).join with hps
  have hveq : _compute_vertex_duplication s tris groups = v2nInsertMany tris ps [] :=
    vdup_eq_insertMany s tris groups
  have hpsrc : ∀ pr ∈ ps, ∃ g ∈ groups, pr.1 ∈ g ∧ pr.2 = groupSum s g := by
    intro pr hpr
    rw [hps] at hpr
    obtain ⟨sub, hsub, hmem⟩ := List.mem_join.1 hpr
    obtain ⟨g, hg, hge⟩ := List.mem_map.1 hsub
    rw [← hge] at hmem
    obtain ⟨t, htg, hte⟩ := List.mem_map.1 hmem
    exact ⟨g, hg, by rw [← hte]; exact htg, by rw [← hte]⟩
  have hpairs : ∀ (n : Vec3) (g : List ℕ),
      List.map Prod.fst (g.map (fun t => (t, n))) = g := by
    intro n g
    induction g with
    | nil => rfl
    | cons a g' ihg => rw [List.map_cons, List.map_cons, ihg]
  have hfst : ps.map Prod.fst = groups.join := by
    rw [hps, List.map_join, List.map_map]
    have hcong : groups.map (List.map Prod.fst ∘ fun g : List ℕ =>
        g.map (fun t => (t, groupSum s g))) = groups.map (fun g => g) :=
      List.map_congr_left (fun g _ => hpairs (groupSum s g) g)
    rw [hcong]
    have hmapid : groups.map (fun g => g) = groups := by
      induction groups with
      | nil => rfl
      | cons a gs ihg => rw [List.map_cons, ihg]
    rw [hmapid]
  have hjoin_count : ∀ x, (groups.join).count x = tkeys.count x := by
    intro x
    rw [hgr]
    unfold _compute_normal_groups
    simpa using normal_groups_fold_count s splitCos tkeys [] x
  have hcount : ∀ x, v2nCount x (v2nInsertMany tris ps []) ≤ 1 := by
    intro x
    have h1 := v2nInsertMany_count tris ps [] x
    have h2 : v2nCount x ([] : V2N) = 0 := rfl
    rw [h2, hfst] at h1
    have h3 := hjoin_count x
    have h4 : tkeys.count x ≤ 1 := List.nodup_iff_count_le_one.1 hnd x
    omega
  have hcomp : ∀ t vid, lookupTV t tris = some vid →
      ∃ j < (v2nInsertMany tris ps []).length,
        ((v2nInsertMany tris ps []).getD j default).1 = vid ∧
        t ∈ flatTs ((v2nInsertMany tris ps []).getD j default).2 := by
    intro t vid hl
    apply v2nInsertMany_complete tris ps [] t vid hl
    left
    have htk : t ∈ tkeys := List.mem_map.2 ⟨(t, vid), lookupTV_mem t vid tris hl, rfl⟩
    have hj : t ∈ groups.join := by
      rw [hgr]
      exact mem_tris_mem_join s splitCos tkeys t htk
    obtain ⟨g, hg, htg⟩ := List.mem_join.1 hj
    exact ⟨groupSum s g,
      List.mem_join.2 ⟨g.map (fun t => (t, groupSum s g)),
        List.mem_map.2 ⟨g, hg, rfl⟩, List.mem_map.2 ⟨t, htg, rfl⟩⟩⟩
  rw [hveq]
  exact ⟨v2nInsertMany_wf s tris groups ps [] hpsrc (V2NWF.nil s tris groups),
    hcount, hcomp⟩

/-! ## The final loop of `_compute_smooth_normals` over all `v2n` entries -/

/-- The fold of `processVertexEntry` over the `v2n` entries (the final loop
of `_compute_smooth_normals` for one point). -/
def foldEntriesFn (l : V2N) (s : Mesh) : Mesh :=
  l.foldl (fun mm ve => mm.processVertexEntry ve.1 ve.2) s

/-- Number of fresh vertices created by the entries before position `j`. -/
def entOff (l : V2N) (j : ℕ) : ℕ :=
  ((l.take j).map (fun pr => pr.2.length - 1)).sum

theorem entOff_zero (l : V2N) : entOff l 0 = 0 := rfl

theorem entOff_cons (pr : ℕ × List (Vec3 × List ℕ)) (l : V2N) (j : ℕ) :
    entOff (pr :: l) (j + 1) = (pr.2.length - 1) + entOff l j := by
  unfold entOff
  rw [List.take_succ_cons, List.map_cons, List.sum_cons]

theorem entOff_succ_getD (l : V2N) (j : ℕ) (hj : j < l.length) :
    entOff l (j + 1) = entOff l j + ((l.getD j default).2.length - 1) := by
  induction l generalizing j with
  | nil => simp at hj
  | cons pr l ih =>
      cases j with
      | zero =>
          rw [entOff_cons, entOff_zero]
          show pr.2.length - 1 + 0 = 0 + (pr.2.length - 1)
          omega
      | succ j' =>
          rw [entOff_cons, entOff_cons, ih j' (by simpa using hj)]
          show pr.2.length - 1 + (entOff l j' + ((l.getD j' default).2.length - 1))
            = pr.2.length - 1 + entOff l j' + ((l.getD j' default).2.length - 1)
          omega

theorem entOff_cover (l : V2N) (d : ℕ) (hd : d < entOff l l.length) :
    ∃ j < l.length, ∃ i < (l.getD j default).2.length - 1,
      d = entOff l j + i := by
  induction l generalizing d with
  | nil => simp [entOff] at hd
  | cons pr l ih =>
      rw [show (pr :: l).length = l.length + 1 from rfl, entOff_cons] at hd
      by_cases hcase : d < pr.2.length - 1
      · exact ⟨0, by simp, d, hcase, by rw [entOff_zero]; omega⟩
      · have hd' : d - (pr.2.length - 1) < entOff l l.length := by omega
        obtain ⟨j, hj, i, hi, he⟩ := ih (d - (pr.2.length - 1)) hd'
        refine ⟨j + 1, by simpa using hj, i, hi, ?_⟩
        rw [entOff_cons]
        omega

theorem getD_mem_of_lt {α : Type _} [Inhabited α] (l : List α) (j : ℕ)
    (h : j < l.length) : l.getD j default ∈ l := by
  rw [getD_lt_eq l j default h]
  exact List.getElem_mem h

theorem mem_flatTs_tail (e : List (Vec3 × List ℕ)) (t : ℕ)
    (h : t ∈ flatTs e.tail) : t ∈ flatTs e := by
  cases e with
  | nil => exact h
  | cons q rest =>
      rw [flatTs_cons]
      exact List.mem_append.2 (Or.inr h)

/-- Full characterization of the fold of `processVertexEntry` over a list
of `v2n` entries: incidence preserved, points/triangle count unchanged,
fresh ids laid out contiguously per entry (offset `entOff`), every entry's
vertex getting the first key's normal and the pruned incidence list, fresh
vertices carrying the keys' normals and lists, and every listed triangle
redirected once. -/
theorem foldEntries_spec (l : V2N) (s : Mesh)
    (hInc : Inc s)
    (hkeys : (l.map Prod.fst).Nodup)
    (hvid : ∀ pr ∈ l, pr.1 < s.vertices.length)
    (hsub : ∀ pr ∈ l, ∀ t ∈ flatTs pr.2, t ∈ (s.getV pr.1).triangles)
    (hnodup : ∀ pr ∈ l, (flatTs pr.2).Nodup)
    (hne : ∀ pr ∈ l, pr.2 ≠ [])
    (hdisj : List.Pairwise (fun a b => ∀ t, t ∈ flatTs a.2 → t ∉ flatTs b.2) l) :
    Inc (foldEntriesFn l s) ∧
    (foldEntriesFn l s).points = s.points ∧
    (foldEntriesFn l s).triangles.length = s.triangles.length ∧
    (foldEntriesFn l s).vertices.length = s.vertices.length + entOff l l.length ∧
    (∀ w < s.vertices.length, w ∉ l.map Prod.fst →
      (foldEntriesFn l s).getV w = s.getV w) ∧
    (∀ j < l.length,
      (foldEntriesFn l s).getV (l.getD j default).1
        = { s.getV (l.getD j default).1 with
            normal := .unit (((l.getD j default).2.getD 0 default).1),
            triangles := removeList (flatTs (l.getD j default).2.tail)
              (s.getV (l.getD j default).1).triangles }) ∧
    (∀ j < l.length, ∀ i < (l.getD j default).2.tail.length,
      (foldEntriesFn l s).getV (s.vertices.length + entOff l j + i)
        = ⟨(s.getV (l.getD j default).1).point,
           (s.getV (l.getD j default).1).color,
           (s.getV (l.getD j default).1).texCoord,
           ((l.getD j default).2.tail.getD i default).2,
           .unit ((l.getD j default).2.tail.getD i default).1⟩) ∧
    (∀ u, (∀ pr ∈ l, u ∉ flatTs pr.2.tail) →
      (foldEntriesFn l s).getT u = s.getT u) ∧
    (∀ j < l.length, ∀ i < (l.getD j default).2.tail.length,
      ∀ t ∈ ((l.getD j default).2.tail.getD i default).2,
        (foldEntriesFn l s).getT t
          = (s.getT t).replaceV (l.getD j default).1
              (s.vertices.length + entOff l j + i)) := by
  induction l generalizing s with
  | nil =>
      refine ⟨hInc, rfl, rfl, by show s.vertices.length = s.vertices.length + 0; omega,
        fun w hw _ => rfl, fun j hj => absurd hj (by simp),
        fun j hj => absurd hj (by simp), fun u _ => rfl,
        fun j hj => absurd hj (by simp)⟩
  | cons pr l ih =>
      obtain ⟨vid, entry⟩ := pr
      have hstep : foldEntriesFn ((vid, entry) :: l) s
          = foldEntriesFn l (s.processVertexEntry vid entry) := rfl
      obtain ⟨pInc, pPts, pLenV, pLenT, pGetVO, pGetVvid, pGetVnew, pGetTO, pGetTt⟩ :=
        processVertexEntry_spec s vid entry
          (hvid (vid, entry) (List.mem_cons_self _ _)) hInc
          (hsub _ (List.mem_cons_self _ _)) (hnodup _ (List.mem_cons_self _ _))
          (hne _ (List.mem_cons_self _ _))
      set s1 := s.processVertexEntry vid entry with hs1
      have hkv : vid ∉ l.map Prod.fst ∧ (l.map Prod.fst).Nodup := by
        rw [List.map_cons, List.nodup_cons] at hkeys
        exact hkeys
      have hVpres : ∀ q ∈ l, s1.getV q.1 = s.getV q.1 := by
        intro q hq
        apply pGetVO q.1 (hvid q (List.mem_cons_of_mem _ hq))
        intro hc
        exact hkv.1 (hc ▸ List.mem_map.2 ⟨q, hq, rfl⟩)
      have hdisj' := List.Pairwise.of_cons hdisj
      have hheadDisj : ∀ q ∈ l, ∀ t, t ∈ flatTs entry → t ∉ flatTs q.2 := by
        intro q hq t ht
        exact (List.pairwise_cons.1 hdisj).1 q hq t ht
      obtain ⟨iInc, iPts, iLenT, iLenV, iGetVO, iGetVent, iGetVnew, iGetTO, iGetTt⟩ :=
        ih s1 pInc hkv.2
          (fun q hq => lt_of_lt_of_le (hvid q (List.mem_cons_of_mem _ hq))
            (by rw [pLenV]; omega))
          (fun q hq t ht => by
            rw [hVpres q hq]
            exact hsub q (List.mem_cons_of_mem _ hq) t ht)
          (fun q hq => hnodup q (List.mem_cons_of_mem _ hq))
          (fun q hq => hne q (List.mem_cons_of_mem _ hq))
          hdisj'
      rw [hstep]
      refine ⟨iInc, ?_, ?_, ?_, ?_, ?_, ?_, ?_, ?_⟩
      · rw [iPts, pPts]
      · rw [iLenT, pLenT]
      · rw [iLenV, pLenV,
          show ((vid, entry) :: l).length = l.length + 1 from rfl, entOff_cons]
        show s.vertices.length + (entry.length - 1) + entOff l l.length
          = s.vertices.length + ((entry.length - 1) + entOff l l.length)
        omega
      · intro w hw hnm
        have hwne : w ≠ vid := by
          intro hc
          apply hnm
          rw [List.map_cons]
          exact hc ▸ List.mem_cons_self _ _
        have hwnm : w ∉ l.map Prod.fst := by
          intro hc
          apply hnm
          rw [List.map_cons]
          exact List.mem_cons_of_mem _ hc
        rw [iGetVO w (by rw [pLenV]; omega) hwnm]
        exact pGetVO w hw hwne
      · intro j hj
        cases j with
        | zero =>
            have hvv : vid < s.vertices.length :=
              hvid (vid, entry) (List.mem_cons_self _ _)
            show (foldEntriesFn l s1).getV vid = _
            rw [iGetVO vid (by rw [pLenV]; omega) hkv.1, pGetVvid]
            rfl
        | succ j' =>
            have hj' : j' < l.length := by simpa using hj
            have hmem : l.getD j' default ∈ l := getD_mem_of_lt l j' hj'
            show (foldEntriesFn l s1).getV (l.getD j' default).1 = _
            rw [iGetVent j' hj', hVpres _ hmem]
            rfl
      · intro j hj i hi
        cases j with
        | zero =>
            have hid : s.vertices.length + entOff ((vid, entry) :: l) 0 + i
                = s.vertices.length + i := by
              rw [entOff_zero]
              omega
            rw [hid]
            have hit : i < entry.tail.length := hi
            have hlt : s.vertices.length + i < s1.vertices.length := by
              rw [pLenV]
              have hlen : entry.tail.length = entry.length - 1 := by
                rw [List.length_tail]
              omega
            have hnk : s.vertices.length + i ∉ l.map Prod.fst := by
              intro hc
              obtain ⟨q, hq, he⟩ := List.mem_map.1 hc
              have := hvid q (List.mem_cons_of_mem _ hq)
              omega
            rw [iGetVO _ hlt hnk, pGetVnew i hit]
            rfl
        | succ j' =>
            have hj' : j' < l.length := by simpa using hj
            have hmem : l.getD j' default ∈ l := getD_mem_of_lt l j' hj'
            have hid : s.vertices.length + entOff ((vid, entry) :: l) (j' + 1) + i
                = s1.vertices.length + entOff l j' + i := by
              rw [entOff_cons, pLenV]
              show s.vertices.length + ((entry.length - 1) + entOff l j') + i
                = s.vertices.length + (entry.length - 1) + entOff l j' + i
              omega
            rw [hid, iGetVnew j' hj' i hi, hVpres _ hmem]
            rfl
      · intro u hu
        rw [iGetTO u (fun q hq => hu q (List.mem_cons_of_mem _ hq)),
          pGetTO u (hu (vid, entry) (List.mem_cons_self _ _))]
      · intro j hj i hi t ht
        cases j with
        | zero =>
            have hid : s.vertices.length + entOff ((vid, entry) :: l) 0 + i
                = s.vertices.length + i := by
              rw [entOff_zero]
              omega
            rw [hid]
            have hit : i < entry.tail.length := hi
            have htflat : t ∈ flatTs entry.tail := mem_flatTs_of_getD _ i t hit ht
            have htfull : t ∈ flatTs entry := mem_flatTs_tail entry t htflat
            have hnt : ∀ q ∈ l, t ∉ flatTs q.2.tail := by
              intro q hq hc
              exact hheadDisj q hq t htfull (mem_flatTs_tail _ _ hc)
            rw [iGetTO t hnt, pGetTt i hit t ht]
            rfl
        | succ j' =>
            have hj' : j' < l.length := by simpa using hj
            have hmem : l.getD j' default ∈ l := getD_mem_of_lt l j' hj'
            have hid : s.vertices.length + entOff ((vid, entry) :: l) (j' + 1) + i
                = s1.vertices.length + entOff l j' + i := by
              rw [entOff_cons, pLenV]
              show s.vertices.length + ((entry.length - 1) + entOff l j') + i
                = s.vertices.length + (entry.length - 1) + entOff l j' + i
              omega
            have htq : t ∈ flatTs (l.getD j' default).2 := by
              apply mem_flatTs_tail
              exact mem_flatTs_of_getD _ i t hi ht
            have hns : t ∉ flatTs entry.tail := by
              intro hc
              exact hheadDisj _ hmem t (mem_flatTs_tail _ _ hc) htq
            rw [hid, iGetTt j' hj' i hi t ht, pGetTO t hns]
            rfl

/-! ## Slot-level facts about `replaceV` -/

theorem slot_exists_of_slotCount (t : Triangle) (old : ℕ)
    (h : 1 ≤ t.slotCount old) : ∃ i : Fin 3, t.slot i = old := by
  unfold Triangle.slotCount at h
  by_cases ha : t.va = old
  · exact ⟨0, ha⟩
  · by_cases hb : t.vb = old
    · exact ⟨1, hb⟩
    · by_cases hc : t.vc = old
      · exact ⟨2, hc⟩
      · simp [ha, hb, hc] at h

theorem replaceV_slot_witness (t : Triangle) (old new : ℕ)
    (h : 1 ≤ t.slotCount old) :
    ∃ i : Fin 3, t.slot i = old ∧ (t.replaceV old new).slot i = new := by
  unfold Triangle.slotCount at h
  unfold Triangle.replaceV
  by_cases ha : t.va = old
  · exact ⟨0, ha, by simp [ha, Triangle.slot]⟩
  · by_cases hb : t.vb = old
    · exact ⟨1, hb, by simp [ha, hb, Triangle.slot]⟩
    · by_cases hc : t.vc = old
      · exact ⟨2, hc, by simp [ha, hb, hc, Triangle.slot]⟩
      · simp [ha, hb, hc] at h

theorem replaceV_slot_cases (t : Triangle) (old new : ℕ) (i : Fin 3) :
    (t.replaceV old new).slot i = t.slot i ∨
    (t.replaceV old new).slot i = new := by
  unfold Triangle.replaceV
  split_ifs <;> fin_cases i <;> simp [Triangle.slot]

theorem replaceV_slot_ne (t : Triangle) (old new : ℕ) (i : Fin 3)
    (h : t.slot i ≠ old) : (t.replaceV old new).slot i = t.slot i := by
  unfold Triangle.replaceV
  have h0 := h
  fin_cases i <;> unfold Triangle.slot at * <;> split_ifs <;> simp_all

theorem replaceV_normalMag (t : Triangle) (old new : ℕ) :
    (t.replaceV old new).normalMag = t.normalMag := by
  unfold Triangle.replaceV
  split_ifs <;> rfl

theorem tail_getD {α : Type _} [Inhabited α] (l : List α) (i : ℕ) :
    l.tail.getD i default = l.getD (i + 1) default := by
  cases l with
  | nil =>
      show ([] : List α).getD i default = ([] : List α).getD (i + 1) default
      simp
  | cons a l => rfl

/-- When every pair of triangles is mutually accepting (no angle exceeds
the threshold), the greedy grouping produces at most one cluster. -/
theorem normal_groups_single (m : Mesh) (splitCos : ℚ) (tris : List ℕ)
    (hacc : ∀ t1 ∈ tris, ∀ t2 ∈ tris,
      unitDotLt (m.getT t1).normalMag (m.getT t2).normalMag splitCos = false) :
    (_compute_normal_groups m tris splitCos).length ≤ 1 := by
  suffices H : ∀ (ts : List ℕ) (gs : List (List ℕ)),
      (∀ t ∈ ts, t ∈ tris) →
      (∀ g ∈ gs, ∀ t ∈ g, t ∈ tris) →
      gs.length ≤ 1 →
      (ts.foldl
        (fun groups t =>
          if groups.isEmpty then [[t]]
          else
            match pickGroup m splitCos t groups with
            | some i => listModify groups i (· ++ [t])
            | none => groups ++ [[t]])
        gs).length ≤ 1 ∧
      (∀ g ∈ ts.foldl
        (fun groups t =>
          if groups.isEmpty then [[t]]
          else
            match pickGroup m splitCos t groups with
            | some i => listModify groups i (· ++ [t])
            | none => groups ++ [[t]])
        gs, ∀ t ∈ g, t ∈ tris) by
    exact (H tris [] (fun t ht => ht) (by simp) (by simp)).1
  intro ts
  induction ts with
  | nil => exact fun gs _ hg hlen => ⟨hlen, hg⟩
  | cons t ts ih =>
      intro gs hts hgs hlen
      rw [List.foldl_cons]
      have htt : t ∈ tris := hts t (List.mem_cons_self _ _)
      by_cases hemp : gs.isEmpty
      · rw [if_pos hemp]
        apply ih _ (fun u hu => hts u (List.mem_cons_of_mem _ hu))
        · intro g hg u hu
          have hg' : g = [t] := by simpa using hg
          rw [hg'] at hu
          have : u = t := by simpa using hu
          rw [this]
          exact htt
        · simp
      · rw [if_neg hemp]
        obtain ⟨g0, hg0⟩ : ∃ g0, gs = [g0] := by
          cases gs with
          | nil => simp at hemp
          | cons g0 gs' =>
              cases gs' with
              | nil => exact ⟨g0, rfl⟩
              | cons a b => simp at hlen
        subst hg0
        have haccept : groupAccepts m splitCos t g0 = true := by
          unfold groupAccepts
          rw [List.all_eq_true]
          intro tt htt'
          have := hacc t htt tt (hgs g0 (List.mem_cons_self _ _) tt htt')
          simp [this]
        have hpick : pickGroup m splitCos t [g0] = some 0 := by
          unfold pickGroup
          rw [if_pos haccept]
        rw [hpick]
        apply ih _ (fun u hu => hts u (List.mem_cons_of_mem _ hu))
        · intro g hg u hu
          have hg' : g = g0 ++ [t] := by
            have hg2 : g ∈ [g0 ++ [t]] := hg
            simpa using hg2
          rw [hg'] at hu
          rcases List.mem_append.1 hu with h' | h'
          · exact hgs g0 (List.mem_cons_self _ _) u h'
          · have : u = t := by simpa using h'
            rw [this]
            exact htt
        · rfl

theorem entOff_eq_zero_of (l : V2N) (h : ∀ pr ∈ l, pr.2.length - 1 = 0) :
    entOff l l.length = 0 := by
  induction l with
  | nil => rfl
  | cons pr l ih =>
      rw [show (pr :: l).length = l.length + 1 from rfl, entOff_cons,
        ih (fun q hq => h q (List.mem_cons_of_mem _ hq)),
        h pr (List.mem_cons_self _ _)]

theorem entOff_mono (l : V2N) (j j' : ℕ) (hjj : j ≤ j') (hj' : j' ≤ l.length) :
    entOff l j ≤ entOff l j' := by
  induction j' with
  | zero =>
      have : j = 0 := by omega
      rw [this]
  | succ k ihk =>
      rcases Nat.lt_or_ge j (k + 1) with h' | h'
      · have h1 : entOff l j ≤ entOff l k := ihk (by omega) (by omega)
        have h2 : entOff l (k + 1) = entOff l k + ((l.getD k default).2.length - 1) :=
          entOff_succ_getD l k (by omega)
        omega
      · have : j = k + 1 := by omega
        rw [this]

theorem v2n_keys_getD_inj (l : V2N) (h : (l.map Prod.fst).Nodup) (j1 j2 : ℕ)
    (h1 : j1 < l.length) (h2 : j2 < l.length)
    (he : (l.getD j1 default).1 = (l.getD j2 default).1) : j1 = j2 := by
  have hm1 : l.getD j1 default = l[j1] := getD_lt_eq l j1 default h1
  have hm2 : l.getD j2 default = l[j2] := getD_lt_eq l j2 default h2
  rw [hm1, hm2] at he
  have hb1 : j1 < (l.map Prod.fst).length := by simpa using h1
  have hb2 : j2 < (l.map Prod.fst).length := by simpa using h2
  have hg1 : (l.map Prod.fst)[j1] = l[j1].1 := List.getElem_map _
  have hg2 : (l.map Prod.fst)[j2] = l[j2].1 := List.getElem_map _
  have : (l.map Prod.fst)[j1] = (l.map Prod.fst)[j2] := by
    rw [hg1, hg2]
    exact he
  exact h.getElem_inj_iff.1 this

theorem mem_len_le_one_eq {α : Type _} {l : List α} (h : l.length ≤ 1) {a b : α}
    (ha : a ∈ l) (hb : b ∈ l) : a = b := by
  cases l with
  | nil => simp at ha
  | cons x rest =>
      cases rest with
      | nil =>
          have h1 : a = x := by simpa using ha
          have h2 : b = x := by simpa using hb
          rw [h1, h2]
      | cons y rest' => simp at h

theorem v2nCount_ge_two (l : V2N) (x : ℕ) (i j : ℕ) (hij : i < j)
    (hj : j < l.length) (hxi : x ∈ flatTs (l.getD i default).2)
    (hxj : x ∈ flatTs (l.getD j default).2) : 2 ≤ v2nCount x l := by
  induction l generalizing i j with
  | nil => simp at hj
  | cons pr l ih =>
      show 2 ≤ (flatTs pr.2).count x + v2nCount x l
      cases i with
      | zero =>
          have h1 : 0 < (flatTs pr.2).count x := List.count_pos_iff.2 hxi
          cases j with
          | zero => omega
          | succ j' =>
              have hj'' : j' < l.length := by simpa using hj
              have h2 : 0 < (flatTs (l.getD j' default).2).count x :=
                List.count_pos_iff.2 hxj
              have h3 := flat_count_le_v2nCount x l _ (getD_mem_of_lt l j' hj'')
              omega
      | succ i' =>
          cases j with
          | zero => omega
          | succ j' =>
              have := ih i' j' (by omega) (by simpa using hj) hxi hxj
              omega

theorem v2n_pos_uniq (l : V2N) (hcnt : ∀ x, v2nCount x l ≤ 1) (x j j' : ℕ)
    (hj : j < l.length) (hj' : j' < l.length)
    (hx : x ∈ flatTs (l.getD j default).2)
    (hx' : x ∈ flatTs (l.getD j' default).2) : j = j' := by
  rcases Nat.lt_trichotomy j j' with h | h | h
  · have h1 := v2nCount_ge_two l x j j' h hj' hx hx'
    have h2 := hcnt x
    omega
  · exact h
  · have h1 := v2nCount_ge_two l x j' j h hj hx' hx
    have h2 := hcnt x
    omega

/-- Core characterization of `processPoint` (the body of
`_compute_smooth_normals` for one point) at a state `s` whose registered
vertices for the point all live at position `p`: incidence and the points
dict are preserved, vertices at other positions and triangle-less vertices
are untouched, frozen raw normals never change, every fresh vertex sits at
`p`, a triangle slot either survives or is redirected to a fresh id, slots
not referencing the point's registered vertices always survive, the
per-entry normals are assigned, and an all-accepting point creates no
vertex. -/
theorem processPoint_core (s : Mesh) (pt : MPoint) (splitCos : ℚ) (p : Vec3)
    (hInc : Inc s)
    (hcb : ∀ cb ∈ pt.combinations,
      cb.2 < s.vertices.length ∧ (s.getV cb.2).point = p) :
    Inc (s.processPoint splitCos pt) ∧
    (s.processPoint splitCos pt).points = s.points ∧
    (s.processPoint splitCos pt).triangles.length = s.triangles.length ∧
    s.vertices.length ≤ (s.processPoint splitCos pt).vertices.length ∧
    (∀ w < s.vertices.length, (s.getV w).point ≠ p →
      (s.processPoint splitCos pt).getV w = s.getV w) ∧
    (∀ w < s.vertices.length, (s.getV w).triangles = [] →
      (s.processPoint splitCos pt).getV w = s.getV w) ∧
    (∀ u, ((s.processPoint splitCos pt).getT u).normalMag
      = (s.getT u).normalMag) ∧
    (∀ w, s.vertices.length ≤ w →
      w < (s.processPoint splitCos pt).vertices.length →
      ((s.processPoint splitCos pt).getV w).point = p) ∧
    (∀ u (i : Fin 3),
      ((s.processPoint splitCos pt).getT u).slot i = (s.getT u).slot i ∨
      s.vertices.length ≤ ((s.processPoint splitCos pt).getT u).slot i) ∧
    (∀ u (i : Fin 3), (∀ cb ∈ pt.combinations, (s.getT u).slot i ≠ cb.2) →
      ((s.processPoint splitCos pt).getT u).slot i = (s.getT u).slot i) ∧
    ((∀ x1 ∈ (s.trisFor pt).map Prod.fst, ∀ x2 ∈ (s.trisFor pt).map Prod.fst,
        unitDotLt (s.getT x1).normalMag (s.getT x2).normalMag splitCos = false) →
      (s.processPoint splitCos pt).vertices.length = s.vertices.length) := by
  classical
  set tris := s.trisFor pt with htris
  set tkeys := tris.map Prod.fst with htkeys
  set groups := _compute_normal_groups s tkeys splitCos with hgroups
  set v2n := _compute_vertex_duplication s tris groups with hv2ndef
  have hknd : tkeys.Nodup := trisFor_keys_nodup s pt
  obtain ⟨hwf, hcnt, hcompl⟩ := v2n_master s tris splitCos hknd
  rw [← htkeys, ← hgroups, ← hv2ndef] at hwf hcnt hcompl
  have hkeyinfo : ∀ pr ∈ v2n, pr.1 < s.vertices.length ∧
      (s.getV pr.1).point = p ∧ ∃ cb ∈ pt.combinations, cb.2 = pr.1 := by
    intro pr hpr
    obtain ⟨t, hl⟩ := hwf.key_src pr hpr
    have hmem := lookupTV_mem t pr.1 tris hl
    obtain ⟨hcmb, _⟩ := mem_trisFor s pt (t, pr.1) hmem
    obtain ⟨cb, hcb', hce⟩ := List.mem_map.1 hcmb
    obtain ⟨hlt, hptq⟩ := hcb cb hcb'
    rw [hce] at hlt hptq
    exact ⟨hlt, hptq, cb, hcb', hce⟩
  have hsub' : ∀ pr ∈ v2n, ∀ t ∈ flatTs pr.2, t ∈ (s.getV pr.1).triangles := by
    intro pr hpr t ht
    have hl := hwf.tri_src pr hpr t ht
    have hmem := lookupTV_mem t pr.1 tris hl
    exact (mem_trisFor s pt (t, pr.1) hmem).2
  have hnodup' : ∀ pr ∈ v2n, (flatTs pr.2).Nodup := by
    intro pr hpr
    rw [List.nodup_iff_count_le_one]
    intro x
    have h1 := flat_count_le_v2nCount x v2n pr hpr
    have h2 := hcnt x
    omega
  obtain ⟨fInc, fPts, fLenT, fLenV, fGetVO, fGetVent, fGetVnew, fGetTO, fGetTt⟩ :=
    foldEntries_spec v2n s hInc hwf.keys_nodup
      (fun pr hpr => (hkeyinfo pr hpr).1) hsub' hnodup' hwf.entry_ne
      (v2n_pairwise_disjoint v2n hcnt)
  have hpp : s.processPoint splitCos pt = foldEntriesFn v2n s := rfl
  rw [hpp]
  refine ⟨fInc, fPts, fLenT, ?_, ?_, ?_, ?_, ?_, ?_, ?_, ?_⟩
  · rw [fLenV]
    omega
  · intro w hw hnep
    apply fGetVO w hw
    intro hc
    obtain ⟨pr, hpr, he⟩ := List.mem_map.1 hc
    exact hnep (by rw [← he]; exact (hkeyinfo pr hpr).2.1)
  · intro w hw hemp
    apply fGetVO w hw
    intro hc
    obtain ⟨pr, hpr, he⟩ := List.mem_map.1 hc
    obtain ⟨q, hq⟩ := List.exists_mem_of_ne_nil _ (hwf.entry_ne pr hpr)
    obtain ⟨x, hx⟩ := List.exists_mem_of_ne_nil _ (hwf.ts_ne pr hpr q hq)
    have hxf : x ∈ flatTs pr.2 :=
      List.mem_join.2 ⟨q.2, List.mem_map.2 ⟨q, hq, rfl⟩, hx⟩
    have := hsub' pr hpr x hxf
    rw [he, hemp] at this
    simp at this
  · intro u
    by_cases hu : ∀ pr ∈ v2n, u ∉ flatTs pr.2.tail
    · rw [fGetTO u hu]
    · push_neg at hu
      obtain ⟨pr, hpr, hmem⟩ := hu
      obtain ⟨j, hj, hje⟩ : ∃ j < v2n.length, v2n.getD j default = pr := by
        obtain ⟨n, hn, he⟩ := List.getElem_of_mem hpr
        exact ⟨n, hn, by rw [getD_lt_eq _ _ _ hn, he]⟩
      obtain ⟨ki, hki, hkm⟩ := mem_flatTs_exists_getD pr.2.tail u hmem
      have hkit : ki < (v2n.getD j default).2.tail.length := by
        rw [hje]
        exact hki
      have hred := fGetTt j hj ki hkit u (by rw [hje]; exact hkm)
      rw [hred, replaceV_normalMag]
  · intro w hwge hwlt
    rw [fLenV] at hwlt
    have hd : w - s.vertices.length < entOff v2n v2n.length := by omega
    obtain ⟨j, hj, i, hi, he⟩ := entOff_cover v2n (w - s.vertices.length) hd
    have hit : i < (v2n.getD j default).2.tail.length := by
      rw [List.length_tail]
      exact hi
    have hw' : w = s.vertices.length + entOff v2n j + i := by omega
    rw [hw', fGetVnew j hj i hit]
    show (s.getV (v2n.getD j default).1).point = p
    exact (hkeyinfo _ (getD_mem_of_lt v2n j hj)).2.1
  · intro u i
    by_cases hu : ∀ pr ∈ v2n, u ∉ flatTs pr.2.tail
    · rw [fGetTO u hu]
      exact Or.inl rfl
    · push_neg at hu
      obtain ⟨pr, hpr, hmem⟩ := hu
      obtain ⟨j, hj, hje⟩ : ∃ j < v2n.length, v2n.getD j default = pr := by
        obtain ⟨n, hn, he⟩ := List.getElem_of_mem hpr
        exact ⟨n, hn, by rw [getD_lt_eq _ _ _ hn, he]⟩
      obtain ⟨ki, hki, hkm⟩ := mem_flatTs_exists_getD pr.2.tail u hmem
      have hkit : ki < (v2n.getD j default).2.tail.length := by
        rw [hje]
        exact hki
      have hred := fGetTt j hj ki hkit u (by rw [hje]; exact hkm)
      rw [hred]
      rcases replaceV_slot_cases (s.getT u) _ _ i with h' | h'
      · exact Or.inl h'
      · right
        rw [h']
        omega
  · intro u i hne'
    by_cases hu : ∀ pr ∈ v2n, u ∉ flatTs pr.2.tail
    · rw [fGetTO u hu]
    · push_neg at hu
      obtain ⟨pr, hpr, hmem⟩ := hu
      obtain ⟨j, hj, hje⟩ : ∃ j < v2n.length, v2n.getD j default = pr := by
        obtain ⟨n, hn, he⟩ := List.getElem_of_mem hpr
        exact ⟨n, hn, by rw [getD_lt_eq _ _ _ hn, he]⟩
      obtain ⟨ki, hki, hkm⟩ := mem_flatTs_exists_getD pr.2.tail u hmem
      have hkit : ki < (v2n.getD j default).2.tail.length := by
        rw [hje]
        exact hki
      have hred := fGetTt j hj ki hkit u (by rw [hje]; exact hkm)
      rw [hred]
      apply replaceV_slot_ne
      obtain ⟨cb, hcb', hce⟩ := (hkeyinfo _ (getD_mem_of_lt v2n j hj)).2.2
      intro hc
      exact hne' cb hcb' (by rw [hc, ← hce])
  · intro hall
    rw [fLenV]
    have hone : groups.length ≤ 1 := normal_groups_single s splitCos tkeys hall
    have hlen1 : ∀ pr ∈ v2n, pr.2.length - 1 = 0 := by
      intro pr hpr
      by_contra hcon
      have h2 : 2 ≤ pr.2.length := by omega
      have hq0m : pr.2.getD 0 default ∈ pr.2 := getD_mem_of_lt _ 0 (by omega)
      have hq1m : pr.2.getD 1 default ∈ pr.2 := getD_mem_of_lt _ 1 (by omega)
      obtain ⟨g0, hg0, he0⟩ := hwf.key_grp pr hpr _ hq0m
      obtain ⟨g1, hg1, he1⟩ := hwf.key_grp pr hpr _ hq1m
      have hgg : g0 = g1 := mem_len_le_one_eq hone hg0 hg1
      have hsame : sameRay3 (pr.2.getD 0 default).1 (pr.2.getD 1 default).1
          = true := by
        rw [he0, he1, hgg]
        exact sameRay3_refl _
      have hsep := hwf.key_sep pr hpr
      have hfalse := (List.pairwise_iff_getElem.1 hsep) 0 1
        (by omega) (by omega) (by omega)
      rw [getD_lt_eq _ 0 _ (by omega), getD_lt_eq _ 1 _ (by omega)] at hsame
      rw [hfalse] at hsame
      exact Bool.noConfusion hsame
    rw [entOff_eq_zero_of v2n hlen1]
    omega

/-- The edge-split outcome of `processPoint` for two distinct triangles
incident to the point via registered vertices, whose unit face normals are
farther apart than the threshold, provided no two distinct clusters have
positively-parallel summed normals: the slot each triangle used for its
registered vertex ends at vertex ids that are distinct and both sit at the
point's position. -/
theorem processPoint_split (s : Mesh) (pt : MPoint) (splitCos : ℚ) (p : Vec3)
    (hInc : Inc s)
    (hcb : ∀ cb ∈ pt.combinations,
      cb.2 < s.vertices.length ∧ (s.getV cb.2).point = p)
    (t1 t2 v1 v2 : ℕ) (hne12 : t1 ≠ t2)
    (hl1 : lookupTV t1 (s.trisFor pt) = some v1)
    (hl2 : lookupTV t2 (s.trisFor pt) = some v2)
    (hpw : List.Pairwise (fun g1 g2 =>
      sameRay3 (groupSum s g1) (groupSum s g2) = false)
      (_compute_normal_groups s ((s.trisFor pt).map Prod.fst) splitCos))
    (hang : unitDotLt (s.getT t1).normalMag (s.getT t2).normalMag splitCos
      = true) :
    ∃ i1 i2 : Fin 3, ∃ a1 a2 : ℕ,
      (s.getT t1).slot i1 = v1 ∧
      ((s.processPoint splitCos pt).getT t1).slot i1 = a1 ∧
      (s.getT t2).slot i2 = v2 ∧
      ((s.processPoint splitCos pt).getT t2).slot i2 = a2 ∧
      a1 ≠ a2 ∧
      ((s.processPoint splitCos pt).getV a1).point = p ∧
      ((s.processPoint splitCos pt).getV a2).point = p ∧
      (a1 = v1 ∨ s.vertices.length ≤ a1) ∧
      (a2 = v2 ∨ s.vertices.length ≤ a2) := by
  classical
  set tris := s.trisFor pt with htris
  set tkeys := tris.map Prod.fst with htkeys
  set groups := _compute_normal_groups s tkeys splitCos with hgroups
  set v2n := _compute_vertex_duplication s tris groups with hv2ndef
  have hknd : tkeys.Nodup := trisFor_keys_nodup s pt
  obtain ⟨hwf, hcnt, hcompl⟩ := v2n_master s tris splitCos hknd
  rw [← htkeys, ← hgroups, ← hv2ndef] at hwf hcnt hcompl
  have hkeyinfo : ∀ pr ∈ v2n, pr.1 < s.vertices.length ∧
      (s.getV pr.1).point = p ∧ ∃ cb ∈ pt.combinations, cb.2 = pr.1 := by
    intro pr hpr
    obtain ⟨t, hl⟩ := hwf.key_src pr hpr
    have hmem := lookupTV_mem t pr.1 tris hl
    obtain ⟨hcmb, _⟩ := mem_trisFor s pt (t, pr.1) hmem
    obtain ⟨cb, hcb', hce⟩ := List.mem_map.1 hcmb
    obtain ⟨hlt, hptq⟩ := hcb cb hcb'
    rw [hce] at hlt hptq
    exact ⟨hlt, hptq, cb, hcb', hce⟩
  have hsub' : ∀ pr ∈ v2n, ∀ t ∈ flatTs pr.2, t ∈ (s.getV pr.1).triangles := by
    intro pr hpr t ht
    have hl := hwf.tri_src pr hpr t ht
    have hmem := lookupTV_mem t pr.1 tris hl
    exact (mem_trisFor s pt (t, pr.1) hmem).2
  have hnodup' : ∀ pr ∈ v2n, (flatTs pr.2).Nodup := by
    intro pr hpr
    rw [List.nodup_iff_count_le_one]
    intro x
    have h1 := flat_count_le_v2nCount x v2n pr hpr
    have h2 := hcnt x
    omega
  obtain ⟨fInc, fPts, fLenT, fLenV, fGetVO, fGetVent, fGetVnew, fGetTO, fGetTt⟩ :=
    foldEntries_spec v2n s hInc hwf.keys_nodup
      (fun pr hpr => (hkeyinfo pr hpr).1) hsub' hnodup' hwf.entry_ne
      (v2n_pairwise_disjoint v2n hcnt)
  have hpp : s.processPoint splitCos pt = foldEntriesFn v2n s := rfl
  rw [hpp]
  obtain ⟨j1, hj1, hk1, hf1⟩ := hcompl t1 v1 hl1
  obtain ⟨j2, hj2, hk2, hf2⟩ := hcompl t2 v2 hl2
  obtain ⟨ki1, hki1, hm1⟩ := mem_flatTs_exists_getD _ t1 hf1
  obtain ⟨ki2, hki2, hm2⟩ := mem_flatTs_exists_getD _ t2 hf2
  have hv1lt : v1 < s.vertices.length := by
    have h := (hkeyinfo _ (getD_mem_of_lt v2n j1 hj1)).1
    rw [hk1] at h
    exact h
  have hv2lt : v2 < s.vertices.length := by
    have h := (hkeyinfo _ (getD_mem_of_lt v2n j2 hj2)).1
    rw [hk2] at h
    exact h
  have ht1mem : t1 ∈ (s.getV v1).triangles := by
    have h := hsub' _ (getD_mem_of_lt v2n j1 hj1) t1 hf1
    rw [hk1] at h
    exact h
  have ht2mem : t2 ∈ (s.getV v2).triangles := by
    have h := hsub' _ (getD_mem_of_lt v2n j2 hj2) t2 hf2
    rw [hk2] at h
    exact h
  have hsc1 : 1 ≤ (s.getT t1).slotCount v1 := by
    have h1 := hInc.count v1 hv1lt t1 (hInc.listValid v1 hv1lt t1 ht1mem)
    have h2 := List.count_pos_iff.2 ht1mem
    omega
  have hsc2 : 1 ≤ (s.getT t2).slotCount v2 := by
    have h1 := hInc.count v2 hv2lt t2 (hInc.listValid v2 hv2lt t2 ht2mem)
    have h2 := List.count_pos_iff.2 ht2mem
    omega
  have hout : ∀ j ki t v, ∀ (hj : j < v2n.length)
      (hki : ki < (v2n.getD j default).2.length)
      (hkey : (v2n.getD j default).1 = v)
      (hmem : t ∈ ((v2n.getD j default).2.getD ki default).2)
      (hsc : 1 ≤ (s.getT t).slotCount v),
      ∃ i : Fin 3, ∃ a : ℕ,
        (s.getT t).slot i = v ∧ ((foldEntriesFn v2n s).getT t).slot i = a ∧
        ((foldEntriesFn v2n s).getV a).point = p ∧
        ((ki = 0 ∧ a = v) ∨
         (0 < ki ∧ a = s.vertices.length + entOff v2n j + (ki - 1))) := by
    intro j ki t v hj hki hkey hmem hsc
    have hflatj : t ∈ flatTs (v2n.getD j default).2 :=
      mem_flatTs_of_getD _ ki t hki hmem
    rcases Nat.eq_zero_or_pos ki with hki0 | hkipos
    · subst hki0
      have hnt : ∀ q ∈ v2n, t ∉ flatTs q.2.tail := by
        intro q hq hc
        obtain ⟨j', hj', hje'⟩ : ∃ j' < v2n.length, v2n.getD j' default = q := by
          obtain ⟨n, hn, he⟩ := List.getElem_of_mem hq
          exact ⟨n, hn, by rw [getD_lt_eq _ _ _ hn, he]⟩
        have hflatq : t ∈ flatTs q.2 := mem_flatTs_tail _ _ hc
        have hjj : j = j' := v2n_pos_uniq v2n hcnt t j j' hj hj' hflatj
          (by rw [hje']; exact hflatq)
        rw [← hje', ← hjj] at hc
        obtain ⟨q0, rest, hqe⟩ :=
          List.exists_cons_of_ne_nil (hwf.entry_ne _ (getD_mem_of_lt v2n j hj))
        have hnd := hnodup' _ (getD_mem_of_lt v2n j hj)
        rw [hqe, flatTs_cons] at hnd
        have hm0 : t ∈ q0.2 := by
          have h := hmem
          rw [hqe] at h
          exact h
        have hcr : t ∈ flatTs rest := by
          have h := hc
          rw [hqe] at h
          exact h
        exact (List.disjoint_of_nodup_append hnd) hm0 hcr
      obtain ⟨i, hi⟩ := slot_exists_of_slotCount (s.getT t) v hsc
      refine ⟨i, v, hi, by rw [fGetTO t hnt]; exact hi, ?_, Or.inl ⟨rfl, rfl⟩⟩
      have hent := fGetVent j hj
      rw [hkey] at hent
      rw [hent]
      show (s.getV v).point = p
      have h := (hkeyinfo _ (getD_mem_of_lt v2n j hj)).2.1
      rw [hkey] at h
      exact h
    · have hki' : ki - 1 < (v2n.getD j default).2.tail.length := by
        rw [List.length_tail]
        omega
      have hmem' : t ∈ ((v2n.getD j default).2.tail.getD (ki - 1) default).2 := by
        rw [tail_getD]
        have he : ki - 1 + 1 = ki := by omega
        rw [he]
        exact hmem
      have hred := fGetTt j hj (ki - 1) hki' t hmem'
      rw [hkey] at hred
      obtain ⟨i, hi, hinew⟩ := replaceV_slot_witness (s.getT t) v
        (s.vertices.length + entOff v2n j + (ki - 1)) hsc
      refine ⟨i, s.vertices.length + entOff v2n j + (ki - 1), hi,
        by rw [hred]; exact hinew, ?_, Or.inr ⟨hkipos, rfl⟩⟩
      rw [fGetVnew j hj (ki - 1) hki']
      show (s.getV (v2n.getD j default).1).point = p
      exact (hkeyinfo _ (getD_mem_of_lt v2n j hj)).2.1
  obtain ⟨i1, a1, hsl1, hsl1', hp1, hcase1⟩ := hout j1 ki1 t1 v1 hj1 hki1 hk1 hm1 hsc1
  obtain ⟨i2, a2, hsl2, hsl2', hp2, hcase2⟩ := hout j2 ki2 t2 v2 hj2 hki2 hk2 hm2 hsc2
  refine ⟨i1, i2, a1, a2, hsl1, hsl1', hsl2, hsl2', ?_, hp1, hp2, ?_, ?_⟩
  · by_cases hvv : v1 = v2
    · have hjj : j1 = j2 :=
        v2n_keys_getD_inj v2n hwf.keys_nodup j1 j2 hj1 hj2 (by rw [hk1, hk2, hvv])
      have hkk : ki1 ≠ ki2 := by
        intro hke
        obtain ⟨g1, hg1, htg1, hsr1⟩ := hwf.tri_grp _ (getD_mem_of_lt v2n j1 hj1)
          _ (getD_mem_of_lt _ ki1 hki1) t1 hm1
        obtain ⟨g2, hg2, htg2, hsr2⟩ := hwf.tri_grp _ (getD_mem_of_lt v2n j2 hj2)
          _ (getD_mem_of_lt _ ki2 hki2) t2 hm2
        rw [← hjj, ← hke] at hsr2
        have hsr : sameRay3 (groupSum s g1) (groupSum s g2) = true :=
          sameRay3_trans_key hsr1 hsr2
        obtain ⟨idx1, hidx1, hie1⟩ : ∃ idx < groups.length, groups.getD idx [] = g1 := by
          obtain ⟨n, hn, he⟩ := List.getElem_of_mem hg1
          exact ⟨n, hn, by rw [getD_lt_eq _ _ _ hn, he]⟩
        obtain ⟨idx2, hidx2, hie2⟩ : ∃ idx < groups.length, groups.getD idx [] = g2 := by
          obtain ⟨n, hn, he⟩ := List.getElem_of_mem hg2
          exact ⟨n, hn, by rw [getD_lt_eq _ _ _ hn, he]⟩
        by_cases hii : idx1 = idx2
        · have hgg : g1 = g2 := by rw [← hie1, ← hie2, hii]
          have hpg := normal_groups_pairwise s splitCos tkeys g1 hg1
          have htg2' : t2 ∈ g1 := by rw [hgg]; exact htg2
          obtain ⟨n1, hn1, he1⟩ : ∃ n < g1.length, g1.getD n 0 = t1 := by
            obtain ⟨n, hn, he⟩ := List.getElem_of_mem htg1
            exact ⟨n, hn, by rw [getD_lt_eq _ _ _ hn, he]⟩
          obtain ⟨n2, hn2, he2⟩ : ∃ n < g1.length, g1.getD n 0 = t2 := by
            obtain ⟨n, hn, he⟩ := List.getElem_of_mem htg2'
            exact ⟨n, hn, by rw [getD_lt_eq _ _ _ hn, he]⟩
          have hnn : n1 ≠ n2 := by
            intro hc
            apply hne12
            rw [← he1, ← he2, hc]
          rcases Nat.lt_or_ge n1 n2 with ho | ho
          · have hrel : unitDotLt (s.getT (g1.getD n1 0)).normalMag
                (s.getT (g1.getD n2 0)).normalMag splitCos = false := by
              rw [getD_lt_eq _ _ _ hn1, getD_lt_eq _ _ _ hn2]
              exact (List.pairwise_iff_getElem.1 hpg) n1 n2 hn1 hn2 ho
            rw [he1, he2] at hrel
            rw [hrel] at hang
            exact Bool.noConfusion hang
          · have ho' : n2 < n1 := by omega
            have hrel : unitDotLt (s.getT (g1.getD n2 0)).normalMag
                (s.getT (g1.getD n1 0)).normalMag splitCos = false := by
              rw [getD_lt_eq _ _ _ hn2, getD_lt_eq _ _ _ hn1]
              exact (List.pairwise_iff_getElem.1 hpg) n2 n1 hn2 hn1 ho'
            rw [he2, he1, unitDotLt_symm] at hrel
            rw [hrel] at hang
            exact Bool.noConfusion hang
        · rcases Nat.lt_or_ge idx1 idx2 with ho | ho
          · have hrel : sameRay3 (groupSum s (groups.getD idx1 []))
                (groupSum s (groups.getD idx2 [])) = false := by
              rw [getD_lt_eq _ _ _ hidx1, getD_lt_eq _ _ _ hidx2]
              exact (List.pairwise_iff_getElem.1 hpw) idx1 idx2 hidx1 hidx2 ho
            rw [hie1, hie2] at hrel
            rw [hrel] at hsr
            exact Bool.noConfusion hsr
          · have ho' : idx2 < idx1 := by omega
            have hrel : sameRay3 (groupSum s (groups.getD idx2 []))
                (groupSum s (groups.getD idx1 [])) = false := by
              rw [getD_lt_eq _ _ _ hidx2, getD_lt_eq _ _ _ hidx1]
              exact (List.pairwise_iff_getElem.1 hpw) idx2 idx1 hidx2 hidx1 ho'
            rw [hie2, hie1] at hrel
            rw [sameRay3_symm] at hsr
            rw [hrel] at hsr
            exact Bool.noConfusion hsr
      rcases hcase1 with ⟨hz1, ha1⟩ | ⟨hpos1, ha1⟩
      · rcases hcase2 with ⟨hz2, ha2⟩ | ⟨hpos2, ha2⟩
        · exact absurd (hz1.trans hz2.symm) hkk
        · rw [ha1, ha2]
          omega
      · rcases hcase2 with ⟨hz2, ha2⟩ | ⟨hpos2, ha2⟩
        · rw [ha1, ha2]
          omega
        · rw [ha1, ha2, hjj]
          intro hc
          apply hkk
          omega
    · have hjj : j1 ≠ j2 := by
        intro hc
        apply hvv
        rw [← hk1, ← hk2, hc]
      rcases hcase1 with ⟨hz1, ha1⟩ | ⟨hpos1, ha1⟩
      · rcases hcase2 with ⟨hz2, ha2⟩ | ⟨hpos2, ha2⟩
        · rw [ha1, ha2]
          exact hvv
        · rw [ha1, ha2]
          omega
      · rcases hcase2 with ⟨hz2, ha2⟩ | ⟨hpos2, ha2⟩
        · rw [ha1, ha2]
          omega
        · rw [ha1, ha2]
          have hb1 : ki1 - 1 < (v2n.getD j1 default).2.length - 1 := by omega
          have hb2 : ki2 - 1 < (v2n.getD j2 default).2.length - 1 := by omega
          rcases Nat.lt_or_ge j1 j2 with ho | ho
          · have hg1 : entOff v2n (j1 + 1)
                = entOff v2n j1 + ((v2n.getD j1 default).2.length - 1) :=
              entOff_succ_getD v2n j1 hj1
            have hg2 : entOff v2n (j1 + 1) ≤ entOff v2n j2 :=
              entOff_mono v2n (j1 + 1) j2 (by omega) (by omega)
            omega
          · have ho' : j2 < j1 := by omega
            have hg1 : entOff v2n (j2 + 1)
                = entOff v2n j2 + ((v2n.getD j2 default).2.length - 1) :=
              entOff_succ_getD v2n j2 hj2
            have hg2 : entOff v2n (j2 + 1) ≤ entOff v2n j1 :=
              entOff_mono v2n (j2 + 1) j1 (by omega) (by omega)
            omega
  · rcases hcase1 with ⟨hz1, ha1⟩ | ⟨hpos1, ha1⟩
    · exact Or.inl ha1
    · right
      rw [ha1]
      omega
  · rcases hcase2 with ⟨hz2, ha2⟩ | ⟨hpos2, ha2⟩
    · exact Or.inl ha2
    · right
      rw [ha2]
      omega

/-! ## The smoothing pass as a fold over the points dict -/

/-- The outer loop of `_compute_smooth_normals` over a list of points. -/
def foldPointsFn (splitCos : ℚ) (l : List (Vec3 × MPoint)) (s : Mesh) : Mesh :=
  l.foldl (fun mm pp => mm.processPoint splitCos pp.2) s

theorem smooth_eq_foldPoints (m : Mesh) (splitCos : ℚ) :
    m._compute_smooth_normals splitCos = foldPointsFn splitCos m.points m := rfl

/-- Pass-level invariants of the smoothing fold, relative to its start
state: incidence, the points dict and the triangle count are preserved,
vertices at positions other than the processed keys (and triangle-less
vertices) are untouched, frozen raw normals never change, every fresh
vertex sits at a processed key, and a triangle slot either survives or is
redirected to a fresh id — in particular it survives whenever it is not a
registered vertex of one of the processed points. -/
theorem foldPoints_spec (splitCos : ℚ) (l : List (Vec3 × MPoint)) (s : Mesh)
    (hInc : Inc s)
    (hknd : (l.map Prod.fst).Nodup)
    (hcb : ∀ pr ∈ l, ∀ cb ∈ pr.2.combinations,
      cb.2 < s.vertices.length ∧ (s.getV cb.2).point = pr.1) :
    Inc (foldPointsFn splitCos l s) ∧
    (foldPointsFn splitCos l s).points = s.points ∧
    (foldPointsFn splitCos l s).triangles.length = s.triangles.length ∧
    s.vertices.length ≤ (foldPointsFn splitCos l s).vertices.length ∧
    (∀ w < s.vertices.length, (∀ pr ∈ l, (s.getV w).point ≠ pr.1) →
      (foldPointsFn splitCos l s).getV w = s.getV w) ∧
    (∀ w < s.vertices.length, (s.getV w).triangles = [] →
      (foldPointsFn splitCos l s).getV w = s.getV w) ∧
    (∀ u, ((foldPointsFn splitCos l s).getT u).normalMag
      = (s.getT u).normalMag) ∧
    (∀ w, s.vertices.length ≤ w →
      w < (foldPointsFn splitCos l s).vertices.length →
      ∃ pr ∈ l, ((foldPointsFn splitCos l s).getV w).point = pr.1) ∧
    (∀ u (i : Fin 3),
      ((foldPointsFn splitCos l s).getT u).slot i = (s.getT u).slot i ∨
      s.vertices.length ≤ ((foldPointsFn splitCos l s).getT u).slot i) ∧
    (∀ u (i : Fin 3),
      (∀ pr ∈ l, ∀ cb ∈ pr.2.combinations, (s.getT u).slot i ≠ cb.2) →
      ((foldPointsFn splitCos l s).getT u).slot i = (s.getT u).slot i) := by
  induction l generalizing s with
  | nil =>
      exact ⟨hInc, rfl, rfl, le_refl _, fun w hw _ => rfl, fun w hw _ => rfl,
        fun u => rfl,
        fun w hge hlt => absurd (lt_of_le_of_lt hge hlt) (lt_irrefl _),
        fun u i => Or.inl rfl, fun u i _ => rfl⟩
  | cons pr l ih =>
      obtain ⟨p, pt⟩ := pr
      have hstep : foldPointsFn splitCos ((p, pt) :: l) s
          = foldPointsFn splitCos l (s.processPoint splitCos pt) := rfl
      obtain ⟨cInc, cPts, cLenT, cLenV, cFrameP, cFrameE, cNorm, cNewPos,
        cSlot, cSlotF, _⟩ :=
        processPoint_core s pt splitCos p hInc
          (fun cb hcb' => hcb (p, pt) (List.mem_cons_self _ _) cb hcb')
      set s1 := s.processPoint splitCos pt with hs1
      have hkk : p ∉ l.map Prod.fst ∧ (l.map Prod.fst).Nodup := by
        rw [List.map_cons, List.nodup_cons] at hknd
        exact hknd
      have hcb1 : ∀ q ∈ l, ∀ cb ∈ q.2.combinations,
          cb.2 < s1.vertices.length ∧ (s1.getV cb.2).point = q.1 := by
        intro q hq cb hcb'
        obtain ⟨hlt, hpos⟩ := hcb q (List.mem_cons_of_mem _ hq) cb hcb'
        have hqp : q.1 ≠ p := by
          intro hc
          exact hkk.1 (hc ▸ List.mem_map.2 ⟨q, hq, rfl⟩)
        have hframe := cFrameP cb.2 hlt (by rw [hpos]; exact hqp)
        exact ⟨lt_of_lt_of_le hlt cLenV, by rw [hframe]; exact hpos⟩
      obtain ⟨iInc, iPts, iLenT, iLenV, iFrameP, iFrameE, iNorm, iNewPos,
        iSlot, iSlotF⟩ := ih s1 cInc hkk.2 hcb1
      rw [hstep]
      refine ⟨iInc, by rw [iPts, cPts], by rw [iLenT, cLenT],
        le_trans cLenV iLenV, ?_, ?_, ?_, ?_, ?_, ?_⟩
      · intro w hw hnp
        have hp : (s.getV w).point ≠ p := hnp (p, pt) (List.mem_cons_self _ _)
        have hframe := cFrameP w hw hp
        rw [iFrameP w (lt_of_lt_of_le hw cLenV)
          (fun q hq => by rw [hframe]; exact hnp q (List.mem_cons_of_mem _ hq)),
          hframe]
      · intro w hw hemp
        have hframe := cFrameE w hw hemp
        have hw1 : w < s1.vertices.length := lt_of_lt_of_le hw cLenV
        rw [iFrameE w hw1 (by rw [hframe]; exact hemp), hframe]
      · intro u
        rw [iNorm u, cNorm u]
      · intro w hge hlt
        by_cases hw1 : w < s1.vertices.length
        · have hpos := cNewPos w hge hw1
          have hframe := iFrameP w hw1 (fun q hq => by
            rw [hpos]
            intro hc
            exact hkk.1 (by rw [hc]; exact List.mem_map.2 ⟨q, hq, rfl⟩))
          exact ⟨(p, pt), List.mem_cons_self _ _, by rw [hframe]; exact hpos⟩
        · obtain ⟨q, hq, hpos⟩ := iNewPos w (by omega) hlt
          exact ⟨q, List.mem_cons_of_mem _ hq, hpos⟩
      · intro u i
        rcases iSlot u i with h' | h'
        · rw [h']
          exact cSlot u i
        · exact Or.inr (le_trans cLenV h')
      · intro u i hno
        have hc1 := cSlotF u i (fun cb hcb' =>
          hno (p, pt) (List.mem_cons_self _ _) cb hcb')
        have hc2 := iSlotF u i (fun q hq cb hcb' => by
          rw [hc1]
          exact hno q (List.mem_cons_of_mem _ hq) cb hcb')
        rw [hc2, hc1]

/-! ## Claim C9: bidirectional incidence -/

theorem slotCount_slot (t : Triangle) (i : Fin 3) :
    1 ≤ t.slotCount (t.slot i) := by
  unfold Triangle.slotCount
  fin_cases i <;> simp only [Triangle.slot] <;> split_ifs <;> omega

/-- Both directions of the incidence invariant follow from `Inc`: a
triangle is listed by each vertex it references, and every triangle listed
by a vertex references that vertex in one of its three slots. -/
theorem inc_bidir (m : Mesh) (h : Inc m) :
    (∀ tid < m.triangles.length, ∀ i : Fin 3,
      tid ∈ (m.getV ((m.getT tid).slot i)).triangles) ∧
    (∀ vid < m.vertices.length, ∀ tid ∈ (m.getV vid).triangles,
      ∃ i : Fin 3, (m.getT tid).slot i = vid) := by
  constructor
  · intro tid ht i
    obtain ⟨ha, hb, hc⟩ := h.slotValid tid ht
    have hv : (m.getT tid).slot i < m.vertices.length := by
      fin_cases i <;> simp only [Triangle.slot] <;> assumption
    have hsc := slotCount_slot (m.getT tid) i
    have hcnt := h.count _ hv tid ht
    exact List.count_pos_iff.1 (by omega)
  · intro vid hv tid htmem
    have ht := h.listValid vid hv tid htmem
    have hcnt := h.count vid hv tid ht
    have hpos : 0 < (m.getV vid).triangles.count tid :=
      List.count_pos_iff.2 htmem
    exact slot_exists_of_slotCount _ _ (by omega)

/-- Claim C9: on any mesh built through the public API whose triangles each
reference three distinct vertex ids, and again after the smoothing pass,
every triangle occurs in the incidence list of each vertex it currently
references, and a vertex's incidence list holds only triangles that
currently reference it. -/
theorem incidence_bidirectional (m : Mesh) (hm : Built m) (splitCos : ℚ)
    (hdist : ∀ tid < m.triangles.length,
      (m.getT tid).va ≠ (m.getT tid).vb ∧ (m.getT tid).va ≠ (m.getT tid).vc ∧
      (m.getT tid).vb ≠ (m.getT tid).vc) :
    ((∀ tid < m.triangles.length, ∀ i : Fin 3,
        tid ∈ (m.getV ((m.getT tid).slot i)).triangles) ∧
      (∀ vid < m.vertices.length, ∀ tid ∈ (m.getV vid).triangles,
        ∃ i : Fin 3, (m.getT tid).slot i = vid)) ∧
    ((∀ tid < (m._compute_smooth_normals splitCos).triangles.length,
        ∀ i : Fin 3, tid ∈ ((m._compute_smooth_normals splitCos).getV
          (((m._compute_smooth_normals splitCos).getT tid).slot i)).triangles) ∧
      (∀ vid < (m._compute_smooth_normals splitCos).vertices.length,
        ∀ tid ∈ ((m._compute_smooth_normals splitCos).getV vid).triangles,
        ∃ i : Fin 3,
          ((m._compute_smooth_normals splitCos).getT tid).slot i = vid)) := by
  have hwf := hm.dedupWF
  refine ⟨inc_bidir m hm.inc, ?_⟩
  have hcb : ∀ pr ∈ m.points, ∀ cb ∈ pr.2.combinations,
      cb.2 < m.vertices.length ∧ (m.getV cb.2).point = pr.1 := by
    intro pr hpr cb hcbm
    obtain ⟨h1, h2, _, _⟩ := hwf.combo_valid pr hpr cb hcbm
    exact ⟨h1, h2⟩
  have hs := foldPoints_spec splitCos m.points m hm.inc hwf.keys_nodup hcb
  rw [smooth_eq_foldPoints]
  exact inc_bidir _ hs.1

/-- A concrete mesh with three vertices spanning a proper triangle. -/
def wMesh9 : Mesh :=
  (((Mesh.init.add_vertex ⟨0,0,0⟩ ⟨1,1,1,1⟩ ⟨0,0⟩).1.add_vertex ⟨1,0,0⟩
    ⟨1,1,1,1⟩ ⟨0,0⟩).1.add_vertex ⟨0,1,0⟩ ⟨1,1,1,1⟩ ⟨0,0⟩).1

/-- `wMesh9` with the triangle `(0, 1, 2)` added. -/
def wMesh9T : Mesh := ((wMesh9.add_triangle 0 1 2).getD (Mesh.init, 0)).1

theorem wMesh9T_built : Built wMesh9T := by
  have h0 : Built wMesh9 :=
    Built.vertex _ _ _ (Built.vertex _ _ _ (Built.vertex _ _ _ Built.init))
  exact Built.triangle h0
    (show wMesh9.add_triangle 0 1 2 = some (wMesh9T, 0) by
      with_unfolding_all rfl)

/-- Witness for C9 at a concrete one-triangle mesh. -/
theorem incidence_bidirectional_witness :
    (∀ tid < wMesh9T.triangles.length,
      (wMesh9T.getT tid).va ≠ (wMesh9T.getT tid).vb ∧
      (wMesh9T.getT tid).va ≠ (wMesh9T.getT tid).vc ∧
      (wMesh9T.getT tid).vb ≠ (wMesh9T.getT tid).vc) ∧
    (((∀ tid < wMesh9T.triangles.length, ∀ i : Fin 3,
        tid ∈ (wMesh9T.getV ((wMesh9T.getT tid).slot i)).triangles) ∧
      (∀ vid < wMesh9T.vertices.length,
        ∀ tid ∈ (wMesh9T.getV vid).triangles,
        ∃ i : Fin 3, (wMesh9T.getT tid).slot i = vid)) ∧
      ((∀ tid < (wMesh9T._compute_smooth_normals (1/2)).triangles.length,
          ∀ i : Fin 3, tid ∈ ((wMesh9T._compute_smooth_normals (1/2)).getV
            (((wMesh9T._compute_smooth_normals (1/2)).getT tid).slot
              i)).triangles) ∧
        (∀ vid < (wMesh9T._compute_smooth_normals (1/2)).vertices.length,
          ∀ tid ∈ ((wMesh9T._compute_smooth_normals (1/2)).getV vid).triangles,
          ∃ i : Fin 3,
            ((wMesh9T._compute_smooth_normals (1/2)).getT tid).slot i
              = vid))) := by
  have hd : ∀ tid < wMesh9T.triangles.length,
      (wMesh9T.getT tid).va ≠ (wMesh9T.getT tid).vb ∧
      (wMesh9T.getT tid).va ≠ (wMesh9T.getT tid).vc ∧
      (wMesh9T.getT tid).vb ≠ (wMesh9T.getT tid).vc := by
    with_unfolding_all decide
  exact ⟨hd, incidence_bidirectional wMesh9T wMesh9T_built (1/2) hd⟩

/-! ## Claim C10: triangle-less vertices keep the sentinel normal -/

theorem normal_add_to_triangle (m : Mesh) (v t w : ℕ) :
    ((m.add_to_triangle v t).getV w).normal = (m.getV w).normal :=
  getV_updV_pres m v w _ Vertex.normal (fun _ => rfl)

theorem point_add_to_triangle (m : Mesh) (v t w : ℕ) :
    ((m.add_to_triangle v t).getV w).point = (m.getV w).point :=
  getV_updV_pres m v w _ Vertex.point (fun _ => rfl)

/-- Characterization of a successful `add_triangle`: the new triangle
record (with the raw face normal frozen from the three current vertex
positions), the id layout, preservation of existing triangle records and
of every vertex's position and normal. -/
theorem add_triangle_getT {m m' : Mesh} {a b c tid : ℕ}
    (h : m.add_triangle a b c = some (m', tid)) :
    m'.getT tid = ⟨a, b, c,
      tri_face_norm (m.getV a).point (m.getV b).point (m.getV c).point⟩ ∧
    m'.triangles.length = m.triangles.length + 1 ∧
    tid = m.triangles.length ∧
    (∀ u < m.triangles.length, m'.getT u = m.getT u) ∧
    (∀ w, (m'.getV w).point = (m.getV w).point) ∧
    (∀ w, (m'.getV w).normal = (m.getV w).normal) := by
  unfold Mesh.add_triangle at h
  split at h
  · rename_i va vb vc ha hb hc
    injection h with h'
    injection h' with hm htid
    subst hm
    subst htid
    have hva : m.getV a = va := by
      simp [Mesh.getV, List.getD_eq_getElem?_getD, ha]
    have hvb : m.getV b = vb := by
      simp [Mesh.getV, List.getD_eq_getElem?_getD, hb]
    have hvc : m.getV c = vc := by
      simp [Mesh.getV, List.getD_eq_getElem?_getD, hc]
    refine ⟨?_, ?_, rfl, ?_, ?_, ?_⟩
    · show (m.triangles
          ++ [Triangle.mk a b c (tri_face_norm va.point vb.point vc.point)]).getD
          m.triangles.length default
        = ⟨a, b, c,
            tri_face_norm (m.getV a).point (m.getV b).point (m.getV c).point⟩
      rw [getD_snoc_length, hva, hvb, hvc]
    · show (m.triangles
          ++ [Triangle.mk a b c (tri_face_norm va.point vb.point vc.point)]).length
        = m.triangles.length + 1
      simp
    · intro u hu
      show (m.triangles
          ++ [Triangle.mk a b c (tri_face_norm va.point vb.point vc.point)]).getD
          u default = m.triangles.getD u default
      exact getD_append_lt _ _ _ _ hu
    · intro w
      show ((((m.add_to_triangle a m.triangles.length).add_to_triangle b
          m.triangles.length).add_to_triangle c m.triangles.length).getV
            w).point = (m.getV w).point
      rw [point_add_to_triangle, point_add_to_triangle,
        point_add_to_triangle]
    · intro w
      show ((((m.add_to_triangle a m.triangles.length).add_to_triangle b
          m.triangles.length).add_to_triangle c m.triangles.length).getV
            w).normal = (m.getV w).normal
      rw [normal_add_to_triangle, normal_add_to_triangle,
        normal_add_to_triangle]
  · exact Option.noConfusion h

theorem normal_getD_snoc (l : List Vertex) (v : Vertex) (vid : ℕ)
    (hl : ∀ w, (l.getD w default).normal = NormalV.sentinel)
    (hv : v.normal = NormalV.sentinel) :
    ((l ++ [v]).getD vid default).normal = NormalV.sentinel := by
  rcases lt_trichotomy vid l.length with h | h | h
  · rw [getD_append_lt _ _ _ _ h]
    exact hl vid
  · rw [h, getD_snoc_length]
    exact hv
  · rw [getD_of_ge _ _ _ (by simp; omega)]
    rfl

/-- Nothing reachable by `add_vertex` / `add_triangle` ever assigns a
normal: every vertex (and every out-of-range read) still carries the
constructor's sentinel `Vec3(-2)`. -/
theorem normal_sentinel_built {m : Mesh} (h : Built m) :
    ∀ vid, (m.getV vid).normal = NormalV.sentinel := by
  induction h with
  | init => intro vid; rfl
  | @vertex m0 p c tc hb ih =>
      intro vid
      rcases add_vertex_cases m0 p c tc with
        ⟨pt, w, hp, hc2, he⟩ | ⟨pt, hp, hc2, he⟩ | ⟨hp, he⟩
      · rw [he]
        exact ih vid
      · rw [he]
        exact normal_getD_snoc m0.vertices _ vid ih rfl
      · rw [he]
        exact normal_getD_snoc m0.vertices _ vid ih rfl
  | @triangle m0 m' a b c tid hb he ih =>
      intro vid
      rw [(add_triangle_getT he).2.2.2.2.2 vid]
      exact ih vid


theorem getD_map_lt {α β : Type _} (f : α → β) (l : List α) (i : ℕ) (d : α)
    (e : β) (h : i < l.length) : (l.map f).getD i e = f (l.getD i d) := by
  rw [getD_lt_eq (l.map f) i e (by simpa using h), getD_lt_eq l i d h]
  simp

/-- Claim C10: a vertex with no incident triangles keeps the constructor's
sentinel normal `(-2,-2,-2)`: the smoothing pass leaves its record
untouched, and the smooth-shading `export` emits the sentinel as the row's
normal — and, with `normal_as_color` set, the sentinel color
`(-2,-2,-2,1)`. -/
theorem sentinel_normal_kept (m : Mesh) (hm : Built m) (splitCos : ℚ)
    (nac : Bool) (vid : ℕ) (hv : vid < m.vertices.length)
    (hemp : (m.getV vid).triangles = []) :
    (m.getV vid).normal = NormalV.sentinel ∧
    (m._compute_smooth_normals splitCos).getV vid = m.getV vid ∧
    ((m._compute_smooth_normals splitCos).getV vid).normal
      = NormalV.sentinel ∧
    (m.export false false splitCos nac).1.getD vid default
      = ⟨(m.getV vid).point, NormalV.sentinel,
          (if nac then ColorOut.c ⟨-2, -2, -2, 1⟩
           else ColorOut.c (m.getV vid).color), (m.getV vid).texCoord⟩ := by
  have hsent := normal_sentinel_built hm vid
  have hwf := hm.dedupWF
  have hcb : ∀ pr ∈ m.points, ∀ cb ∈ pr.2.combinations,
      cb.2 < m.vertices.length ∧ (m.getV cb.2).point = pr.1 := by
    intro pr hpr cb hcbm
    obtain ⟨h1, h2, _, _⟩ := hwf.combo_valid pr hpr cb hcbm
    exact ⟨h1, h2⟩
  have hs := foldPoints_spec splitCos m.points m hm.inc hwf.keys_nodup hcb
  have hsm : (m._compute_smooth_normals splitCos).getV vid = m.getV vid := by
    rw [smooth_eq_foldPoints]
    exact hs.2.2.2.2.2.1 vid hv hemp
  have hlen : vid < (m._compute_smooth_normals splitCos).vertices.length := by
    rw [smooth_eq_foldPoints]
    exact lt_of_lt_of_le hv hs.2.2.2.1
  refine ⟨hsent, hsm, by rw [hsm]; exact hsent, ?_⟩
  show ((m._compute_smooth_normals splitCos).vertices.map fun v =>
      Row.mk v.point v.normal
        (if nac then nColor v.normal else .c v.color) v.texCoord).getD vid
      default = _
  rw [getD_map_lt _ _ _ default _ hlen]
  have hsm' : (m._compute_smooth_normals splitCos).vertices.getD vid default
      = m.getV vid := hsm
  rw [hsm', hsent]
  cases nac <;> rfl

/-- A concrete mesh with one vertex and no triangles. -/
def wMesh10 : Mesh := (Mesh.init.add_vertex ⟨0,0,0⟩ ⟨1,1,1,1⟩ ⟨0,0⟩).1

/-- Witness for C10 at a concrete triangle-less vertex. -/
theorem sentinel_normal_kept_witness :
    0 < wMesh10.vertices.length ∧
    (wMesh10.getV 0).triangles = [] ∧
    ((wMesh10.getV 0).normal = NormalV.sentinel ∧
      (wMesh10._compute_smooth_normals (1/2)).getV 0 = wMesh10.getV 0 ∧
      ((wMesh10._compute_smooth_normals (1/2)).getV 0).normal
        = NormalV.sentinel ∧
      (wMesh10.export false false (1/2) true).1.getD 0 default
        = ⟨(wMesh10.getV 0).point, NormalV.sentinel,
            ColorOut.c ⟨-2, -2, -2, 1⟩, (wMesh10.getV 0).texCoord⟩) := by
  have hb : Built wMesh10 := Built.vertex _ _ _ Built.init
  refine ⟨by with_unfolding_all decide, by with_unfolding_all rfl, ?_⟩
  have h := sentinel_normal_kept wMesh10 hb (1/2) true 0
    (by with_unfolding_all decide) (by with_unfolding_all rfl)
  exact ⟨h.1, h.2.1, h.2.2.1, by rw [h.2.2.2]; rfl⟩

/-! ## Claim C3: per-vertex cluster splitting and non-registration -/

/-- Processing one vertex's `v2n` entry (its list of normal keys, each
with that key's triangles): a single key only assigns its normal and
creates nothing; with several, the first key's normal goes to the
existing vertex, and each additional key yields a brand-new vertex with
the same position/color/texcoord and a fresh id carrying that key's
normal and triangle list, every triangle of that key is redirected from
the original vertex to the fresh id while the original's incidence list
is pruned and other triangles are untouched; the dedup map is completely
untouched, no fresh id is registered in it, and a later `add_vertex`
call never returns a fresh id. -/
theorem split_clusters_spec (s : Mesh) (vid : ℕ)
    (entry : List (Vec3 × List ℕ))
    (hvid : vid < s.vertices.length) (hInc : Inc s) (hwf : DedupWF s)
    (hsub : ∀ t ∈ flatTs entry, t ∈ (s.getV vid).triangles)
    (hnodup : (flatTs entry).Nodup) (hne : entry ≠ []) :
    (entry.length = 1 →
      s.processVertexEntry vid entry
        = s.setNormal vid (.unit (entry.getD 0 default).1)) ∧
    ((s.processVertexEntry vid entry).getV vid
      = { s.getV vid with
          normal := .unit (entry.getD 0 default).1,
          triangles := removeList (flatTs entry.tail)
            (s.getV vid).triangles }) ∧
    ((s.processVertexEntry vid entry).vertices.length
      = s.vertices.length + (entry.length - 1)) ∧
    (∀ w < s.vertices.length, w ≠ vid →
      (s.processVertexEntry vid entry).getV w = s.getV w) ∧
    (∀ i < entry.tail.length,
      (s.processVertexEntry vid entry).getV (s.vertices.length + i)
        = ⟨(s.getV vid).point, (s.getV vid).color, (s.getV vid).texCoord,
            (entry.tail.getD i default).2,
            .unit (entry.tail.getD i default).1⟩) ∧
    (∀ i < entry.tail.length, ∀ t ∈ (entry.tail.getD i default).2,
      (s.processVertexEntry vid entry).getT t
        = (s.getT t).replaceV vid (s.vertices.length + i)) ∧
    (∀ u, u ∉ flatTs entry.tail →
      (s.processVertexEntry vid entry).getT u = s.getT u) ∧
    ((s.processVertexEntry vid entry).points = s.points) ∧
    (∀ i < entry.tail.length, ∀ pr ∈ (s.processVertexEntry vid entry).points,
      ∀ cb ∈ pr.2.combinations, cb.2 ≠ s.vertices.length + i) ∧
    (∀ i < entry.tail.length, ∀ p c tc,
      ((s.processVertexEntry vid entry).add_vertex p c tc).2
        ≠ s.vertices.length + i) := by
  obtain ⟨pInc, pPts, pLenV, pLenT, pGetVO, pGetVvid, pGetVnew, pGetTO, pGetTt⟩ :=
    processVertexEntry_spec s vid entry hvid hInc hsub hnodup hne
  have htail : entry.tail.length = entry.length - 1 := by
    cases entry with
    | nil => rfl
    | cons a l => simp
  have hreg : ∀ i, i < entry.tail.length →
      ∀ pr ∈ (s.processVertexEntry vid entry).points,
      ∀ cb ∈ pr.2.combinations, cb.2 ≠ s.vertices.length + i := by
    intro i hi pr hpr cb hcb
    rw [pPts] at hpr
    have := (hwf.combo_valid pr hpr cb hcb).1
    omega
  refine ⟨?_, pGetVvid, pLenV, pGetVO, pGetVnew, pGetTt, pGetTO, pPts,
    hreg, ?_⟩
  · intro h1
    cases entry with
    | nil => exact absurd rfl hne
    | cons kt rest =>
        cases rest with
        | nil =>
            obtain ⟨n, ts⟩ := kt
            rfl
        | cons kt2 rest' => simp at h1
  · intro i hi p c tc
    rcases add_vertex_cases (s.processVertexEntry vid entry) p c tc with
      ⟨pt, w, hp, hc, he⟩ | ⟨pt, hp, hc, he⟩ | ⟨hp, he⟩
    · rw [he]
      have hmem : (p, pt) ∈ (s.processVertexEntry vid entry).points :=
        lookupPoint_mem _ _ _ hp
      have hcmem : ((c, tc), w) ∈ pt.combinations := lookupCombo_mem _ _ _ hc
      exact hreg i hi (p, pt) hmem ((c, tc), w) hcmem
    · rw [he]
      show (s.processVertexEntry vid entry).vertices.length
        ≠ s.vertices.length + i
      rw [pLenV]
      omega
    · rw [he]
      show (s.processVertexEntry vid entry).vertices.length
        ≠ s.vertices.length + i
      rw [pLenV]
      omega

/-- A two-cluster `v2n` entry for the witness below. -/
def wEntry3 : List (Vec3 × List ℕ) := [(⟨0,0,1⟩, [0]), (⟨0,1,0⟩, [])]

/-- Concrete instance of the entry-processing characterization on a
one-triangle mesh with a two-key entry. -/
theorem split_clusters_spec_witness :
    (0 < wMesh9T.vertices.length ∧
      (∀ t ∈ flatTs wEntry3, t ∈ (wMesh9T.getV 0).triangles) ∧
      (flatTs wEntry3).Nodup ∧ wEntry3 ≠ []) ∧
    ((wEntry3.length = 1 →
      wMesh9T.processVertexEntry 0 wEntry3
        = wMesh9T.setNormal 0 (.unit (wEntry3.getD 0 default).1)) ∧
    ((wMesh9T.processVertexEntry 0 wEntry3).getV 0
      = { wMesh9T.getV 0 with
          normal := .unit (wEntry3.getD 0 default).1,
          triangles := removeList (flatTs wEntry3.tail)
            (wMesh9T.getV 0).triangles }) ∧
    ((wMesh9T.processVertexEntry 0 wEntry3).vertices.length
      = wMesh9T.vertices.length + (wEntry3.length - 1)) ∧
    (∀ w < wMesh9T.vertices.length, w ≠ 0 →
      (wMesh9T.processVertexEntry 0 wEntry3).getV w = wMesh9T.getV w) ∧
    (∀ i < wEntry3.tail.length,
      (wMesh9T.processVertexEntry 0 wEntry3).getV
          (wMesh9T.vertices.length + i)
        = ⟨(wMesh9T.getV 0).point, (wMesh9T.getV 0).color,
            (wMesh9T.getV 0).texCoord, (wEntry3.tail.getD i default).2,
            .unit (wEntry3.tail.getD i default).1⟩) ∧
    (∀ i < wEntry3.tail.length, ∀ t ∈ (wEntry3.tail.getD i default).2,
      (wMesh9T.processVertexEntry 0 wEntry3).getT t
        = (wMesh9T.getT t).replaceV 0 (wMesh9T.vertices.length + i)) ∧
    (∀ u, u ∉ flatTs wEntry3.tail →
      (wMesh9T.processVertexEntry 0 wEntry3).getT u = wMesh9T.getT u) ∧
    ((wMesh9T.processVertexEntry 0 wEntry3).points = wMesh9T.points) ∧
    (∀ i < wEntry3.tail.length,
      ∀ pr ∈ (wMesh9T.processVertexEntry 0 wEntry3).points,
      ∀ cb ∈ pr.2.combinations, cb.2 ≠ wMesh9T.vertices.length + i) ∧
    (∀ i < wEntry3.tail.length, ∀ p c tc,
      ((wMesh9T.processVertexEntry 0 wEntry3).add_vertex p c tc).2
        ≠ wMesh9T.vertices.length + i)) := by
  refine ⟨⟨by with_unfolding_all decide, by with_unfolding_all decide,
    by with_unfolding_all decide, by with_unfolding_all decide⟩, ?_⟩
  exact split_clusters_spec wMesh9T 0 wEntry3 (by with_unfolding_all decide)
    wMesh9T_built.inc wMesh9T_built.dedupWF (by with_unfolding_all decide)
    (by with_unfolding_all decide) (by with_unfolding_all decide)

/-! ## Claim C4: cluster normals are sums of raw face normals -/

theorem add_vertex_preserves (m : Mesh) (p : Vec3) (c : Vec4) (tc : Vec2) :
    (m.add_vertex p c tc).1.triangles = m.triangles ∧
    (∀ w < m.vertices.length, (m.add_vertex p c tc).1.getV w = m.getV w) := by
  rcases add_vertex_cases m p c tc with
    ⟨pt, w0, hp, hc, he⟩ | ⟨pt, hp, hc, he⟩ | ⟨hp, he⟩
  · rw [he]
    exact ⟨rfl, fun w hw => rfl⟩
  · rw [he]
    refine ⟨rfl, fun w hw => ?_⟩
    show (m.vertices ++ [Vertex.mk pt.point c tc [] .sentinel]).getD w default
      = m.vertices.getD w default
    exact getD_append_lt _ _ _ _ hw
  · rw [he]
    refine ⟨rfl, fun w hw => ?_⟩
    show (m.vertices ++ [Vertex.mk p c tc [] .sentinel]).getD w default
      = m.vertices.getD w default
    exact getD_append_lt _ _ _ _ hw

/-- Every triangle of a public-API mesh carries, as its frozen raw face
normal, exactly `cross(p2 - p1, p3 - p1)` of the current positions of the
three vertices it references (positions never change, so the construction
positions are the current ones). -/
theorem normalMag_faithful {m : Mesh} (h : Built m) :
    ∀ tid < m.triangles.length,
      (m.getT tid).normalMag
        = tri_face_norm (m.getV (m.getT tid).va).point
            (m.getV (m.getT tid).vb).point
            (m.getV (m.getT tid).vc).point := by
  induction h with
  | init => intro tid ht; simp [Mesh.init] at ht
  | @vertex m0 p c tc hb ih =>
      intro tid ht
      obtain ⟨hTri, hVpres⟩ := add_vertex_preserves m0 p c tc
      have hgT : ∀ u, (m0.add_vertex p c tc).1.getT u = m0.getT u := by
        intro u
        show (m0.add_vertex p c tc).1.triangles.getD u default
          = m0.triangles.getD u default
        rw [hTri]
      rw [hTri] at ht
      rw [hgT tid]
      obtain ⟨hva, hvb, hvc⟩ := hb.inc.slotValid tid ht
      rw [hVpres _ hva, hVpres _ hvb, hVpres _ hvc]
      exact ih tid ht
  | @triangle m0 m' a b c tid0 hb he ih =>
      intro tid ht
      obtain ⟨hNew, hLen, htid0, hOld, hPpres, hNpres⟩ := add_triangle_getT he
      rw [hLen] at ht
      rcases Nat.lt_or_ge tid m0.triangles.length with hlt | hge
      · rw [hOld tid hlt, hPpres, hPpres, hPpres]
        exact ih tid hlt
      · have htt : tid = tid0 := by omega
        rw [htt, hNew]
        show tri_face_norm (m0.getV a).point (m0.getV b).point
            (m0.getV c).point
          = tri_face_norm (m'.getV a).point (m'.getV b).point
              (m'.getV c).point
        rw [hPpres a, hPpres b, hPpres c]

theorem foldl_add_congr (l : List ℕ) (f1 f2 : ℕ → Vec3)
    (h : ∀ t ∈ l, f1 t = f2 t) (init : Vec3) :
    l.foldl (fun acc t => acc + f1 t) init
      = l.foldl (fun acc t => acc + f2 t) init := by
  induction l generalizing init with
  | nil => rfl
  | cons a l ihl =>
      rw [List.foldl_cons, List.foldl_cons, h a (List.mem_cons_self a l)]
      exact ihl (fun t ht => h t (List.mem_cons_of_mem _ ht)) _

/-- Claim C4: for every cluster at a point of a public-API mesh, the
cluster's averaged normal is (the normalization of) the plain sum of its
members' raw face normals, each raw normal being `cross(p2-p1, p3-p1)` of
the triangle's vertex positions; every `v2n` normal key is exactly the raw
sum of one of the clusters, and the smoothing step for the point assigns
`.unit` of the respective key both to the surviving vertex of each entry
and to every split-off fresh vertex. -/
theorem cluster_normal_spec (m : Mesh) (hm : Built m) (splitCos : ℚ)
    (p : Vec3) (pt : MPoint) (hmem : (p, pt) ∈ m.points)
    (groups : List (List ℕ)) (v2n : V2N)
    (hg : groups
      = _compute_normal_groups m ((m.trisFor pt).map Prod.fst) splitCos)
    (hv : v2n = _compute_vertex_duplication m (m.trisFor pt) groups) :
    (∀ tid < m.triangles.length,
      (m.getT tid).normalMag
        = tri_face_norm (m.getV (m.getT tid).va).point
            (m.getV (m.getT tid).vb).point
            (m.getV (m.getT tid).vc).point) ∧
    (∀ g ∈ groups,
      groupSum m g
        = g.foldl (fun acc t => acc
            + tri_face_norm (m.getV (m.getT t).va).point
                (m.getV (m.getT t).vb).point
                (m.getV (m.getT t).vc).point) 0) ∧
    (∀ pr ∈ v2n, ∀ q ∈ pr.2, ∃ g ∈ groups, q.1 = groupSum m g) ∧
    (∀ j < v2n.length,
      ((m.processPoint splitCos pt).getV ((v2n.getD j default).1)).normal
        = .unit (((v2n.getD j default).2.getD 0 default).1)) ∧
    (∀ j < v2n.length, ∀ i < (v2n.getD j default).2.tail.length,
      ((m.processPoint splitCos pt).getV
          (m.vertices.length + entOff v2n j + i)).normal
        = .unit (((v2n.getD j default).2.tail.getD i default).1)) := by
  classical
  have hwfm := hm.dedupWF
  have hInc := hm.inc
  have hA := normalMag_faithful hm
  have hcb : ∀ cb ∈ pt.combinations,
      cb.2 < m.vertices.length ∧ (m.getV cb.2).point = p := by
    intro cb hcbm
    obtain ⟨h1, h2, _, _⟩ := hwfm.combo_valid (p, pt) hmem cb hcbm
    exact ⟨h1, h2⟩
  subst hg
  subst hv
  set tris := m.trisFor pt with htris
  set tkeys := tris.map Prod.fst with htkeys
  set groups := _compute_normal_groups m tkeys splitCos with hgroups
  set v2n := _compute_vertex_duplication m tris groups with hv2ndef
  have hknd : tkeys.Nodup := trisFor_keys_nodup m pt
  obtain ⟨hwf, hcnt, hcompl⟩ := v2n_master m tris splitCos hknd
  rw [← htkeys, ← hgroups, ← hv2ndef] at hwf hcnt hcompl
  have htlt : ∀ t ∈ tkeys, t < m.triangles.length := by
    intro t ht
    obtain ⟨pr, hpr, hpe⟩ := List.mem_map.1 ht
    obtain ⟨hc2, htr⟩ := mem_trisFor m pt pr hpr
    obtain ⟨cb, hcbm, hce⟩ := List.mem_map.1 hc2
    have hlt := (hcb cb hcbm).1
    rw [hce] at hlt
    have hfin := hInc.listValid pr.2 hlt pr.1 htr
    rw [hpe] at hfin
    exact hfin
  have hkeyinfo : ∀ pr ∈ v2n, pr.1 < m.vertices.length := by
    intro pr hpr
    obtain ⟨t, hl⟩ := hwf.key_src pr hpr
    have hmem2 := lookupTV_mem t pr.1 tris hl
    obtain ⟨hcmb, _⟩ := mem_trisFor m pt (t, pr.1) hmem2
    obtain ⟨cb, hcb', hce⟩ := List.mem_map.1 hcmb
    have hlt := (hcb cb hcb').1
    rw [hce] at hlt
    exact hlt
  have hsub' : ∀ pr ∈ v2n, ∀ t ∈ flatTs pr.2, t ∈ (m.getV pr.1).triangles := by
    intro pr hpr t ht
    have hl := hwf.tri_src pr hpr t ht
    have hmem2 := lookupTV_mem t pr.1 tris hl
    exact (mem_trisFor m pt (t, pr.1) hmem2).2
  have hnodup' : ∀ pr ∈ v2n, (flatTs pr.2).Nodup := by
    intro pr hpr
    rw [List.nodup_iff_count_le_one]
    intro x
    have h1 := flat_count_le_v2nCount x v2n pr hpr
    have h2 := hcnt x
    omega
  obtain ⟨fInc, fPts, fLenT, fLenV, fGetVO, fGetVent, fGetVnew, fGetTO, fGetTt⟩ :=
    foldEntries_spec v2n m hInc hwf.keys_nodup hkeyinfo hsub' hnodup'
      hwf.entry_ne (v2n_pairwise_disjoint v2n hcnt)
  have hpp : m.processPoint splitCos pt = foldEntriesFn v2n m := rfl
  refine ⟨hA, ?_, ?_, ?_, ?_⟩
  · intro g hgm
    show g.foldl (fun n t => n + (m.getT t).normalMag) 0 = _
    exact foldl_add_congr g _ _ (fun t ht =>
      hA t (htlt t (normal_groups_mem_tris m splitCos tkeys g hgm t ht))) 0
  · exact fun pr hpr q hq => hwf.key_grp pr hpr q hq
  · intro j hj
    rw [hpp, fGetVent j hj]
  · intro j hj i hi
    rw [hpp, fGetVnew j hj i hi]

/-- The point record registered at the origin of `wMesh9T`. -/
def wPt9 : MPoint := ⟨⟨0,0,0⟩, [((⟨1,1,1,1⟩, ⟨0,0⟩), 0)]⟩

def wGroups9 : List (List ℕ) :=
  _compute_normal_groups wMesh9T ((wMesh9T.trisFor wPt9).map Prod.fst) (1/2)

def wV2n9 : V2N :=
  _compute_vertex_duplication wMesh9T (wMesh9T.trisFor wPt9) wGroups9

/-- Witness for C4 on the concrete one-triangle mesh. -/
theorem cluster_normal_spec_witness :
    ((⟨0,0,0⟩, wPt9) : Vec3 × MPoint) ∈ wMesh9T.points ∧
    ((∀ tid < wMesh9T.triangles.length,
      (wMesh9T.getT tid).normalMag
        = tri_face_norm (wMesh9T.getV (wMesh9T.getT tid).va).point
            (wMesh9T.getV (wMesh9T.getT tid).vb).point
            (wMesh9T.getV (wMesh9T.getT tid).vc).point) ∧
    (∀ g ∈ wGroups9,
      groupSum wMesh9T g
        = g.foldl (fun acc t => acc
            + tri_face_norm (wMesh9T.getV (wMesh9T.getT t).va).point
                (wMesh9T.getV (wMesh9T.getT t).vb).point
                (wMesh9T.getV (wMesh9T.getT t).vc).point) 0) ∧
    (∀ pr ∈ wV2n9, ∀ q ∈ pr.2, ∃ g ∈ wGroups9, q.1 = groupSum wMesh9T g) ∧
    (∀ j < wV2n9.length,
      ((wMesh9T.processPoint (1/2) wPt9).getV
          ((wV2n9.getD j default).1)).normal
        = .unit (((wV2n9.getD j default).2.getD 0 default).1)) ∧
    (∀ j < wV2n9.length, ∀ i < (wV2n9.getD j default).2.tail.length,
      ((wMesh9T.processPoint (1/2) wPt9).getV
          (wMesh9T.vertices.length + entOff wV2n9 j + i)).normal
        = .unit (((wV2n9.getD j default).2.tail.getD i default).1))) := by
  refine ⟨by with_unfolding_all decide, ?_⟩
  exact cluster_normal_spec wMesh9T wMesh9T_built (1/2) ⟨0,0,0⟩ wPt9
    (by with_unfolding_all decide) wGroups9 wV2n9 rfl rfl

/-! ## Claim C1: the edge-split invariant -/

theorem trisFor_congr (m s : Mesh) (pt : MPoint)
    (h : ∀ cb ∈ pt.combinations, s.getV cb.2 = m.getV cb.2) :
    s.trisFor pt = m.trisFor pt := by
  unfold Mesh.trisFor
  suffices H : ∀ (cbs : List ((Vec4 × Vec2) × ℕ)),
      (∀ cb ∈ cbs, s.getV cb.2 = m.getV cb.2) →
      ∀ acc : List (ℕ × ℕ),
      cbs.foldl (fun acc kv => (s.getV kv.2).triangles.foldl
        (fun acc t => dictInsertTV t kv.2 acc) acc) acc
        = cbs.foldl (fun acc kv => (m.getV kv.2).triangles.foldl
            (fun acc t => dictInsertTV t kv.2 acc) acc) acc by
    exact H pt.combinations h []
  intro cbs
  induction cbs with
  | nil => intro _ acc; rfl
  | cons kv rest ih =>
      intro hcbs acc
      rw [List.foldl_cons, List.foldl_cons, hcbs kv (List.mem_cons_self _ _)]
      exact ih (fun cb hcb => hcbs cb (List.mem_cons_of_mem _ hcb)) _

theorem groupAccepts_nil (s : Mesh) (splitCos : ℚ) (t : ℕ) :
    groupAccepts s splitCos t [] = true := rfl

theorem groupAccepts_cons (s : Mesh) (splitCos : ℚ) (t a : ℕ)
    (g : List ℕ) :
    groupAccepts s splitCos t (a :: g)
      = (!unitDotLt (s.getT t).normalMag (s.getT a).normalMag splitCos
          && groupAccepts s splitCos t g) := rfl

theorem groupAccepts_congr (m s : Mesh) (splitCos : ℚ)
    (hN : ∀ u, (s.getT u).normalMag = (m.getT u).normalMag) (t : ℕ)
    (g : List ℕ) :
    groupAccepts s splitCos t g = groupAccepts m splitCos t g := by
  induction g with
  | nil => rw [groupAccepts_nil, groupAccepts_nil]
  | cons a g ih =>
      rw [groupAccepts_cons, groupAccepts_cons, ih, hN t, hN a]

theorem pickGroup_nil (s : Mesh) (splitCos : ℚ) (t : ℕ) :
    pickGroup s splitCos t [] = none := rfl

theorem pickGroup_cons (s : Mesh) (splitCos : ℚ) (t : ℕ) (g : List ℕ)
    (gs : List (List ℕ)) :
    pickGroup s splitCos t (g :: gs)
      = (if groupAccepts s splitCos t g then some 0
         else (pickGroup s splitCos t gs).map (· + 1)) := rfl

theorem pickGroup_congr (m s : Mesh) (splitCos : ℚ)
    (hN : ∀ u, (s.getT u).normalMag = (m.getT u).normalMag) (t : ℕ) :
    ∀ gs, pickGroup s splitCos t gs = pickGroup m splitCos t gs := by
  intro gs
  induction gs with
  | nil => rw [pickGroup_nil, pickGroup_nil]
  | cons g gs ih =>
      rw [pickGroup_cons, pickGroup_cons, ih,
        groupAccepts_congr m s splitCos hN t g]

theorem foldl_congr_fn {α β : Type _} (l : List α) (f1 f2 : β → α → β)
    (h : ∀ b a, f1 b a = f2 b a) :
    ∀ init, l.foldl f1 init = l.foldl f2 init := by
  intro init
  induction l generalizing init with
  | nil => rfl
  | cons a l ih =>
      rw [List.foldl_cons, List.foldl_cons, h init a]
      exact ih _

theorem normal_groups_congr (m s : Mesh) (splitCos : ℚ)
    (hN : ∀ u, (s.getT u).normalMag = (m.getT u).normalMag)
    (tks : List ℕ) :
    _compute_normal_groups s tks splitCos
      = _compute_normal_groups m tks splitCos := by
  unfold _compute_normal_groups
  refine foldl_congr_fn tks _ _ (fun acc t => ?_) []
  show (if acc.isEmpty then [[t]]
      else
        match pickGroup s splitCos t acc with
        | some i => listModify acc i (· ++ [t])
        | none => acc ++ [[t]])
    = (if acc.isEmpty then [[t]]
      else
        match pickGroup m splitCos t acc with
        | some i => listModify acc i (· ++ [t])
        | none => acc ++ [[t]])
  rw [pickGroup_congr m s splitCos hN t acc]

theorem groupSum_congr (m s : Mesh)
    (hN : ∀ u, (s.getT u).normalMag = (m.getT u).normalMag) (g : List ℕ) :
    groupSum s g = groupSum m g := by
  unfold groupSum
  exact foldl_add_congr g _ _ (fun t _ => hN t) 0

theorem foldPointsFn_append (splitCos : ℚ) (l1 l2 : List (Vec3 × MPoint))
    (s : Mesh) :
    foldPointsFn splitCos (l1 ++ l2) s
      = foldPointsFn splitCos l2 (foldPointsFn splitCos l1 s) := by
  unfold foldPointsFn
  rw [List.foldl_append]

theorem foldPointsFn_cons (splitCos : ℚ) (q : Vec3) (qpt : MPoint)
    (l : List (Vec3 × MPoint)) (s : Mesh) :
    foldPointsFn splitCos ((q, qpt) :: l) s
      = foldPointsFn splitCos l (s.processPoint splitCos qpt) := rfl

/-- Claim C1, amended: fix a public-API mesh and a registered point `p`.
(i) If two distinct triangles are incident to `p` through registered
vertices and the angle between their frozen face normals exceeds the edge
angle, then — provided no two greedy clusters at `p` have positively
parallel summed normals — after the smoothing pass run by
`export(flat_shading=False)` the slots through which the triangles
referenced `p` hold distinct vertex ids, both located at `p`.
(ii) If every pair of triangles incident to `p` is within the edge angle,
the pass creates no vertex at `p`: all pre-existing vertices keep their
positions and every fresh vertex sits at a position other than `p`. -/
theorem edge_split_amended (m : Mesh) (hm : Built m) (splitCos : ℚ)
    (p : Vec3) (pt : MPoint) (hmem : (p, pt) ∈ m.points) :
    (∀ t1 t2 v1 v2 : ℕ, t1 ≠ t2 →
      lookupTV t1 (m.trisFor pt) = some v1 →
      lookupTV t2 (m.trisFor pt) = some v2 →
      List.Pairwise (fun g1 g2 =>
        sameRay3 (groupSum m g1) (groupSum m g2) = false)
        (_compute_normal_groups m ((m.trisFor pt).map Prod.fst) splitCos) →
      unitDotLt (m.getT t1).normalMag (m.getT t2).normalMag splitCos
        = true →
      ∃ i1 i2 : Fin 3, ∃ a1 a2 : ℕ,
        (m.getT t1).slot i1 = v1 ∧
        (m.getT t2).slot i2 = v2 ∧
        ((m._compute_smooth_normals splitCos).getT t1).slot i1 = a1 ∧
        ((m._compute_smooth_normals splitCos).getT t2).slot i2 = a2 ∧
        a1 ≠ a2 ∧
        ((m._compute_smooth_normals splitCos).getV a1).point = p ∧
        ((m._compute_smooth_normals splitCos).getV a2).point = p) ∧
    ((∀ x1 ∈ (m.trisFor pt).map Prod.fst,
        ∀ x2 ∈ (m.trisFor pt).map Prod.fst,
        unitDotLt (m.getT x1).normalMag (m.getT x2).normalMag splitCos
          = false) →
      (∀ w < m.vertices.length,
        ((m._compute_smooth_normals splitCos).getV w).point
          = (m.getV w).point) ∧
      (∀ w, m.vertices.length ≤ w →
        w < (m._compute_smooth_normals splitCos).vertices.length →
        ((m._compute_smooth_normals splitCos).getV w).point ≠ p)) := by
  classical
  have hwfm := hm.dedupWF
  have hIncm := hm.inc
  have hcbAll : ∀ pr ∈ m.points, ∀ cb ∈ pr.2.combinations,
      cb.2 < m.vertices.length ∧ (m.getV cb.2).point = pr.1 := by
    intro pr hpr cb hcbm
    obtain ⟨h1, h2, _, _⟩ := hwfm.combo_valid pr hpr cb hcbm
    exact ⟨h1, h2⟩
  obtain ⟨done, rest, hsplitEq⟩ := List.append_of_mem hmem
  have hknd := hwfm.keys_nodup
  rw [hsplitEq, List.map_append, List.map_cons] at hknd
  obtain ⟨hndd, hndc, hdisj⟩ := List.nodup_append.1 hknd
  have hpnr : p ∉ rest.map Prod.fst := (List.nodup_cons.1 hndc).1
  have hndr : (rest.map Prod.fst).Nodup := (List.nodup_cons.1 hndc).2
  have hpnd : p ∉ done.map Prod.fst := by
    intro hc
    exact hdisj hc (List.mem_cons_self _ _)
  have hdone_ne : ∀ q ∈ done, q.1 ≠ p := by
    intro q hq hc
    exact hpnd (List.mem_map.2 ⟨q, hq, hc⟩)
  have hrest_ne : ∀ q ∈ rest, q.1 ≠ p := by
    intro q hq hc
    exact hpnr (List.mem_map.2 ⟨q, hq, hc⟩)
  have hdr_ne : ∀ q ∈ rest, ∀ dq ∈ done, q.1 ≠ dq.1 := by
    intro q hq dq hdq hc
    have h1 : dq.1 ∈ done.map Prod.fst := List.mem_map.2 ⟨dq, hdq, rfl⟩
    apply hdisj h1
    rw [← hc]
    exact List.mem_cons_of_mem _ (List.mem_map.2 ⟨q, hq, rfl⟩)
  have hdone_sub : ∀ q ∈ done, q ∈ m.points := by
    intro q hq
    rw [hsplitEq]
    exact List.mem_append.2 (Or.inl hq)
  have hrest_sub : ∀ q ∈ rest, q ∈ m.points := by
    intro q hq
    rw [hsplitEq]
    exact List.mem_append.2 (Or.inr (List.mem_cons_of_mem _ hq))
  obtain ⟨dInc, dPts, dLenT, dLenV, dFrameP, dFrameE, dNorm, dNewPos, dSlot,
    dSlotF⟩ :=
    foldPoints_spec splitCos done m hIncm hndd
      (fun q hq => hcbAll q (hdone_sub q hq))
  set s := foldPointsFn splitCos done m with hs
  have hsV : ∀ cb ∈ pt.combinations, s.getV cb.2 = m.getV cb.2 := by
    intro cb hcbm
    obtain ⟨hlt, hpos⟩ := hcbAll (p, pt) hmem cb hcbm
    exact dFrameP cb.2 hlt (fun q hq => by
      rw [hpos]
      exact fun hc => hdone_ne q hq hc.symm)
  have hcb_s : ∀ cb ∈ pt.combinations,
      cb.2 < s.vertices.length ∧ (s.getV cb.2).point = p := by
    intro cb hcbm
    obtain ⟨hlt, hpos⟩ := hcbAll (p, pt) hmem cb hcbm
    exact ⟨lt_of_lt_of_le hlt dLenV, by rw [hsV cb hcbm]; exact hpos⟩
  have htris_s : s.trisFor pt = m.trisFor pt := trisFor_congr m s pt hsV
  have hgroups_s : _compute_normal_groups s
        ((s.trisFor pt).map Prod.fst) splitCos
      = _compute_normal_groups m ((m.trisFor pt).map Prod.fst) splitCos := by
    rw [htris_s]
    exact normal_groups_congr m s splitCos dNorm _
  obtain ⟨cInc, cPts, cLenT, cLenV, cFrameP, cFrameE, cNorm, cNewPos, cSlot,
    cSlotF, cNoSplit⟩ := processPoint_core s pt splitCos p dInc hcb_s
  set s2 := s.processPoint splitCos pt with hs2
  have hrest_pres : ∀ q ∈ rest, ∀ cb ∈ q.2.combinations,
      cb.2 < s2.vertices.length ∧ (s2.getV cb.2).point = q.1 := by
    intro q hq cb hcbq
    obtain ⟨hlt, hpos⟩ := hcbAll q (hrest_sub q hq) cb hcbq
    have h1 : s.getV cb.2 = m.getV cb.2 :=
      dFrameP cb.2 hlt (fun dq hdq => by
        rw [hpos]
        exact hdr_ne q hq dq hdq)
    have h2 : s2.getV cb.2 = s.getV cb.2 :=
      cFrameP cb.2 (lt_of_lt_of_le hlt dLenV) (by
        rw [h1, hpos]
        exact hrest_ne q hq)
    refine ⟨lt_of_lt_of_le (lt_of_lt_of_le hlt dLenV) cLenV, ?_⟩
    rw [h2, h1]
    exact hpos
  obtain ⟨rInc, rPts, rLenT, rLenV, rFrameP, rFrameE, rNorm, rNewPos, rSlot,
    rSlotF⟩ := foldPoints_spec splitCos rest s2 cInc hndr hrest_pres
  set M := foldPointsFn splitCos rest s2 with hMd
  have hM : m._compute_smooth_normals splitCos = M := by
    rw [smooth_eq_foldPoints, hsplitEq, foldPointsFn_append, ← hs,
      foldPointsFn_cons, ← hs2, ← hMd]
  constructor
  · intro t1 t2 v1 v2 hne12 hl1 hl2 hpw hang
    rw [hM]
    have hl1s : lookupTV t1 (s.trisFor pt) = some v1 := by
      rw [htris_s]
      exact hl1
    have hl2s : lookupTV t2 (s.trisFor pt) = some v2 := by
      rw [htris_s]
      exact hl2
    have hpws : List.Pairwise (fun g1 g2 =>
        sameRay3 (groupSum s g1) (groupSum s g2) = false)
        (_compute_normal_groups s ((s.trisFor pt).map Prod.fst) splitCos) := by
      rw [hgroups_s]
      exact hpw.imp (fun h12 => by
        rw [groupSum_congr m s dNorm, groupSum_congr m s dNorm]
        exact h12)
    have hangs : unitDotLt (s.getT t1).normalMag (s.getT t2).normalMag
        splitCos = true := by
      rw [dNorm t1, dNorm t2]
      exact hang
    obtain ⟨i1, i2, a1, a2, hv1s, ha1s, hv2s, ha2s, hane, hp1, hp2, hd1, hd2⟩ :=
      processPoint_split s pt splitCos p dInc hcb_s t1 t2 v1 v2 hne12
        hl1s hl2s hpws hangs
    rw [← hs2] at ha1s ha2s hp1 hp2
    obtain ⟨cb1, hcb1m, hce1, htr1⟩ : ∃ cb ∈ pt.combinations,
        cb.2 = v1 ∧ t1 ∈ (m.getV v1).triangles := by
      have hmm := lookupTV_mem t1 v1 (m.trisFor pt) hl1
      obtain ⟨hc2, htr⟩ := mem_trisFor m pt (t1, v1) hmm
      obtain ⟨cb, hcbm, hce⟩ := List.mem_map.1 hc2
      exact ⟨cb, hcbm, hce, htr⟩
    obtain ⟨cb2, hcb2m, hce2, htr2⟩ : ∃ cb ∈ pt.combinations,
        cb.2 = v2 ∧ t2 ∈ (m.getV v2).triangles := by
      have hmm := lookupTV_mem t2 v2 (m.trisFor pt) hl2
      obtain ⟨hc2, htr⟩ := mem_trisFor m pt (t2, v2) hmm
      obtain ⟨cb, hcbm, hce⟩ := List.mem_map.1 hc2
      exact ⟨cb, hcbm, hce, htr⟩
    have hv1lt : v1 < m.vertices.length := by
      have h := (hcbAll (p, pt) hmem cb1 hcb1m).1
      rw [hce1] at h
      exact h
    have hv2lt : v2 < m.vertices.length := by
      have h := (hcbAll (p, pt) hmem cb2 hcb2m).1
      rw [hce2] at h
      exact h
    have ht1lt : t1 < m.triangles.length := hIncm.listValid v1 hv1lt t1 htr1
    have ht2lt : t2 < m.triangles.length := hIncm.listValid v2 hv2lt t2 htr2
    have hslot1m : (m.getT t1).slot i1 = v1 := by
      rcases dSlot t1 i1 with h' | h'
      · rw [← h']
        exact hv1s
      · rw [hv1s] at h'
        exact absurd h' (by omega)
    have hslot2m : (m.getT t2).slot i2 = v2 := by
      rcases dSlot t2 i2 with h' | h'
      · rw [← h']
        exact hv2s
      · rw [hv2s] at h'
        exact absurd h' (by omega)
    have hts1 : t1 < s2.triangles.length := by
      rw [cLenT, dLenT]
      exact ht1lt
    have hts2' : t2 < s2.triangles.length := by
      rw [cLenT, dLenT]
      exact ht2lt
    have ha1lt : a1 < s2.vertices.length := by
      obtain ⟨hsa, hsb, hsc⟩ := cInc.slotValid t1 hts1
      rw [← ha1s]
      fin_cases i1 <;> simp only [Triangle.slot] <;> assumption
    have ha2lt : a2 < s2.vertices.length := by
      obtain ⟨hsa, hsb, hsc⟩ := cInc.slotValid t2 hts2'
      rw [← ha2s]
      fin_cases i2 <;> simp only [Triangle.slot] <;> assumption
    have hcond1 : ∀ q ∈ rest, ∀ cb ∈ q.2.combinations,
        (s2.getT t1).slot i1 ≠ cb.2 := by
      intro q hq cb hcbq
      rw [ha1s]
      intro hc
      have hqq := (hrest_pres q hq cb hcbq).2
      rw [← hc] at hqq
      rw [hp1] at hqq
      exact hrest_ne q hq hqq.symm
    have hcond2 : ∀ q ∈ rest, ∀ cb ∈ q.2.combinations,
        (s2.getT t2).slot i2 ≠ cb.2 := by
      intro q hq cb hcbq
      rw [ha2s]
      intro hc
      have hqq := (hrest_pres q hq cb hcbq).2
      rw [← hc] at hqq
      rw [hp2] at hqq
      exact hrest_ne q hq hqq.symm
    have hkeep1 : (M.getT t1).slot i1 = a1 := by
      rw [rSlotF t1 i1 hcond1]
      exact ha1s
    have hkeep2 : (M.getT t2).slot i2 = a2 := by
      rw [rSlotF t2 i2 hcond2]
      exact ha2s
    have hposM1 : (M.getV a1).point = p := by
      have hfr := rFrameP a1 ha1lt (fun q hq => by
        rw [hp1]
        exact fun hc => hrest_ne q hq hc.symm)
      rw [hfr]
      exact hp1
    have hposM2 : (M.getV a2).point = p := by
      have hfr := rFrameP a2 ha2lt (fun q hq => by
        rw [hp2]
        exact fun hc => hrest_ne q hq hc.symm)
      rw [hfr]
      exact hp2
    exact ⟨i1, i2, a1, a2, hslot1m, hslot2m, hkeep1, hkeep2, hane,
      hposM1, hposM2⟩
  · intro hall
    refine ⟨fun w hw => pct_point ((MExt.smooth m splitCos).pct w hw), ?_⟩
    rw [hM]
    intro w hge hlt
    have halls : ∀ x1 ∈ (s.trisFor pt).map Prod.fst,
        ∀ x2 ∈ (s.trisFor pt).map Prod.fst,
        unitDotLt (s.getT x1).normalMag (s.getT x2).normalMag splitCos
          = false := by
      intro x1 hx1 x2 hx2
      rw [htris_s] at hx1 hx2
      rw [dNorm x1, dNorm x2]
      exact hall x1 hx1 x2 hx2
    have hs2len : s2.vertices.length = s.vertices.length := cNoSplit halls
    rcases Nat.lt_or_ge w s.vertices.length with hws | hws
    · obtain ⟨q, hq, hqpos⟩ := dNewPos w hge hws
      have h2 : s2.getV w = s.getV w :=
        cFrameP w hws (by rw [hqpos]; exact hdone_ne q hq)
      have h3 : M.getV w = s2.getV w :=
        rFrameP w (by omega) (fun r hr => by
          rw [h2, hqpos]
          exact Ne.symm (hdr_ne r hr q hq))
      rw [h3, h2, hqpos]
      exact hdone_ne q hq
    · obtain ⟨r, hr, hrpos⟩ := rNewPos w (by omega) hlt
      rw [hrpos]
      exact hrest_ne r hr

/-- `add_triangle` with the `KeyError` case defaulted away (all uses below
are on valid ids, as the accompanying `Built` proofs show). -/
def addTri (m : Mesh) (a b c : ℕ) : Mesh :=
  ((m.add_triangle a b c).getD (Mesh.init, 0)).1

/-- Five vertices: the origin and four satellites. -/
def cMesh1V : Mesh :=
  (((((Mesh.init.add_vertex ⟨0,0,0⟩ ⟨1,1,1,1⟩ ⟨0,0⟩).1.add_vertex ⟨0,1,0⟩
    ⟨1,1,1,1⟩ ⟨0,0⟩).1.add_vertex ⟨0,0,1⟩ ⟨1,1,1,1⟩ ⟨0,0⟩).1.add_vertex
    ⟨1,0,0⟩ ⟨1,1,1,1⟩ ⟨0,0⟩).1.add_vertex ⟨-1,1,0⟩ ⟨1,1,1,1⟩ ⟨0,0⟩).1

def cM1a : Mesh := addTri cMesh1V 0 1 2
def cM1b : Mesh := addTri cM1a 0 2 3
def cM1c : Mesh := addTri cM1b 0 2 4
def cM1d : Mesh := addTri cM1c 0 2 1
def cM1e : Mesh := addTri cM1d 0 3 2

/-- Six triangles through the origin whose raw face normals are
`(1,0,0), (0,1,0), (-1,-1,0), (-1,0,0), (0,-1,0), (1,1,0)`: the greedy
pass at `cos E = -3/4` clusters them as `[[0,1,2],[3,4,5]]`, and both
cluster sums are the zero vector. -/
def cMesh1 : Mesh := addTri cM1e 0 4 2

theorem cMesh1_built : Built cMesh1 := by
  have h0 : Built cMesh1V :=
    Built.vertex _ _ _ (Built.vertex _ _ _ (Built.vertex _ _ _
      (Built.vertex _ _ _ (Built.vertex _ _ _ Built.init))))
  have h1 : Built cM1a := Built.triangle h0
    (show cMesh1V.add_triangle 0 1 2 = some (cM1a, 0) by
      with_unfolding_all rfl)
  have h2 : Built cM1b := Built.triangle h1
    (show cM1a.add_triangle 0 2 3 = some (cM1b, 1) by
      with_unfolding_all rfl)
  have h3 : Built cM1c := Built.triangle h2
    (show cM1b.add_triangle 0 2 4 = some (cM1c, 2) by
      with_unfolding_all rfl)
  have h4 : Built cM1d := Built.triangle h3
    (show cM1c.add_triangle 0 2 1 = some (cM1d, 3) by
      with_unfolding_all rfl)
  have h5 : Built cM1e := Built.triangle h4
    (show cM1d.add_triangle 0 3 2 = some (cM1e, 4) by
      with_unfolding_all rfl)
  exact Built.triangle h5
    (show cM1e.add_triangle 0 4 2 = some (cMesh1, 5) by
      with_unfolding_all rfl)

/-- Counterexample to claim C1 as stated: in the public-API mesh `cMesh1`
the triangles `0` and `3` share the origin point through the same vertex
`0` and their frozen face normals are farther apart than the edge angle
(`unitDotLt … = true` at `cos E = -3/4`), yet after the smoothing pass run
by `export(flat_shading=False)` both still reference the one origin
vertex `0`: the two greedy clusters at the origin both sum to the zero
vector, so the pass merges them under a single `v2n` normal key and never
splits the vertex. -/
theorem edge_split_cex :
    Built cMesh1 ∧
    ((cMesh1.getV 0).point = ⟨0, 0, 0⟩ ∧
      (cMesh1.getT 0).va = 0 ∧ (cMesh1.getT 3).va = 0) ∧
    unitDotLt (cMesh1.getT 0).normalMag (cMesh1.getT 3).normalMag (-3/4)
      = true ∧
    ((cMesh1._compute_smooth_normals (-3/4)).getT 0).va = 0 ∧
    ((cMesh1._compute_smooth_normals (-3/4)).getT 3).va = 0 ∧
    ((cMesh1._compute_smooth_normals (-3/4)).getV 0).point = ⟨0, 0, 0⟩ :=
  ⟨cMesh1_built, by with_unfolding_all decide⟩

/-- Four vertices spanning a 90° dihedral over the shared edge `0-1`. -/
def wMesh1V : Mesh :=
  ((((Mesh.init.add_vertex ⟨0,0,0⟩ ⟨1,1,1,1⟩ ⟨0,0⟩).1.add_vertex ⟨1,0,0⟩
    ⟨1,1,1,1⟩ ⟨0,0⟩).1.add_vertex ⟨0,1,0⟩ ⟨1,1,1,1⟩ ⟨0,0⟩).1.add_vertex
    ⟨0,0,-1⟩ ⟨1,1,1,1⟩ ⟨0,0⟩).1

def wMesh1A : Mesh := addTri wMesh1V 0 1 2

/-- The dihedral mesh: triangles `(0,1,2)` and `(0,1,3)` with raw normals
`(0,0,1)` and `(0,1,0)`. -/
def wMesh1 : Mesh := addTri wMesh1A 0 1 3

theorem wMesh1_built : Built wMesh1 := by
  have h0 : Built wMesh1V :=
    Built.vertex _ _ _ (Built.vertex _ _ _ (Built.vertex _ _ _
      (Built.vertex _ _ _ Built.init)))
  have h1 : Built wMesh1A := Built.triangle h0
    (show wMesh1V.add_triangle 0 1 2 = some (wMesh1A, 0) by
      with_unfolding_all rfl)
  exact Built.triangle h1
    (show wMesh1A.add_triangle 0 1 3 = some (wMesh1, 1) by
      with_unfolding_all rfl)

/-- The point record registered at the origin of `wMesh1`. -/
def wPt1 : MPoint := ⟨⟨0,0,0⟩, [((⟨1,1,1,1⟩, ⟨0,0⟩), 0)]⟩

/-- Witness for the amended C1 on the 90°-dihedral mesh: the inner
hypotheses of part (i) hold concretely for the triangle pair `(0, 1)`. -/
theorem edge_split_amended_witness :
    (((⟨0,0,0⟩, wPt1) : Vec3 × MPoint) ∈ wMesh1.points ∧
      lookupTV 0 (wMesh1.trisFor wPt1) = some 0 ∧
      lookupTV 1 (wMesh1.trisFor wPt1) = some 0 ∧
      List.Pairwise (fun g1 g2 =>
        sameRay3 (groupSum wMesh1 g1) (groupSum wMesh1 g2) = false)
        (_compute_normal_groups wMesh1 ((wMesh1.trisFor wPt1).map Prod.fst)
          (1/2)) ∧
      unitDotLt (wMesh1.getT 0).normalMag (wMesh1.getT 1).normalMag (1/2)
        = true) ∧
    ((∀ t1 t2 v1 v2 : ℕ, t1 ≠ t2 →
      lookupTV t1 (wMesh1.trisFor wPt1) = some v1 →
      lookupTV t2 (wMesh1.trisFor wPt1) = some v2 →
      List.Pairwise (fun g1 g2 =>
        sameRay3 (groupSum wMesh1 g1) (groupSum wMesh1 g2) = false)
        (_compute_normal_groups wMesh1 ((wMesh1.trisFor wPt1).map Prod.fst)
          (1/2)) →
      unitDotLt (wMesh1.getT t1).normalMag (wMesh1.getT t2).normalMag (1/2)
        = true →
      ∃ i1 i2 : Fin 3, ∃ a1 a2 : ℕ,
        (wMesh1.getT t1).slot i1 = v1 ∧
        (wMesh1.getT t2).slot i2 = v2 ∧
        ((wMesh1._compute_smooth_normals (1/2)).getT t1).slot i1 = a1 ∧
        ((wMesh1._compute_smooth_normals (1/2)).getT t2).slot i2 = a2 ∧
        a1 ≠ a2 ∧
        ((wMesh1._compute_smooth_normals (1/2)).getV a1).point = ⟨0,0,0⟩ ∧
        ((wMesh1._compute_smooth_normals (1/2)).getV a2).point = ⟨0,0,0⟩) ∧
    ((∀ x1 ∈ (wMesh1.trisFor wPt1).map Prod.fst,
        ∀ x2 ∈ (wMesh1.trisFor wPt1).map Prod.fst,
        unitDotLt (wMesh1.getT x1).normalMag (wMesh1.getT x2).normalMag
          (1/2) = false) →
      (∀ w < wMesh1.vertices.length,
        ((wMesh1._compute_smooth_normals (1/2)).getV w).point
          = (wMesh1.getV w).point) ∧
      (∀ w, wMesh1.vertices.length ≤ w →
        w < (wMesh1._compute_smooth_normals (1/2)).vertices.length →
        ((wMesh1._compute_smooth_normals (1/2)).getV w).point
          ≠ ⟨0,0,0⟩))) := by
  refine ⟨⟨by with_unfolding_all decide, by with_unfolding_all decide,
    by with_unfolding_all decide, by with_unfolding_all decide,
    by with_unfolding_all decide⟩, ?_⟩
  exact edge_split_amended wMesh1 wMesh1_built (1/2) ⟨0,0,0⟩ wPt1
    (by with_unfolding_all decide)

/-! ## Claim C2, corrected: the greedy pass and its iteration order -/

/-- First occurrences of a list's elements, in order of first appearance:
the key order of a Python dict built by repeated assignment. -/
def firstOccurrences (l : List ℕ) : List ℕ :=
  l.foldl (fun ks t => if t ∈ ks then ks else ks ++ [t]) []

theorem keys_dictInsertTV_eq (t v : ℕ) (l : List (ℕ × ℕ)) :
    (dictInsertTV t v l).map Prod.fst
      = if t ∈ l.map Prod.fst then l.map Prod.fst
        else l.map Prod.fst ++ [t] := by
  induction l with
  | nil => rfl
  | cons pr rest ih =>
      obtain ⟨t', v'⟩ := pr
      by_cases ht : t = t'
      · subst ht
        have hstep : dictInsertTV t v ((t, v') :: rest) = (t, v) :: rest := by
          simp [dictInsertTV]
        rw [hstep, if_pos (show t ∈ ((t, v') :: rest).map Prod.fst by simp)]
        simp
      · have hstep : dictInsertTV t v ((t', v') :: rest)
            = (t', v') :: dictInsertTV t v rest := by
          simp [dictInsertTV, ht]
        rw [hstep, List.map_cons, ih]
        by_cases hm : t ∈ rest.map Prod.fst
        · rw [if_pos hm, if_pos (show t ∈ ((t', v') :: rest).map Prod.fst by
            simp [hm])]
          simp
        · rw [if_neg hm, if_neg (show t ∉ ((t', v') :: rest).map Prod.fst by
            simp [ht, hm])]
          simp

theorem keys_innerTrisFold_eq (v : ℕ) (ts : List ℕ) :
    ∀ acc : List (ℕ × ℕ),
      (ts.foldl (fun acc t => dictInsertTV t v acc) acc).map Prod.fst
        = ts.foldl (fun ks t => if t ∈ ks then ks else ks ++ [t])
            (acc.map Prod.fst) := by
  induction ts with
  | nil => intro acc; rfl
  | cons t ts ih =>
      intro acc
      show (ts.foldl (fun acc t => dictInsertTV t v acc)
          (dictInsertTV t v acc)).map Prod.fst
        = ts.foldl (fun ks t => if t ∈ ks then ks else ks ++ [t])
            (if t ∈ acc.map Prod.fst then acc.map Prod.fst
             else acc.map Prod.fst ++ [t])
      rw [ih (dictInsertTV t v acc), keys_dictInsertTV_eq]

/-- The iteration order of the per-point `tris` dict: the first occurrence
of each triangle in the variant-major traversal that takes the point's
registered `(color, texcoord)` variants in registration order and each
variant vertex's incidence list in order.  This is in general NOT the
triangles' creation order. -/
theorem trisFor_keys_eq (m : Mesh) (pt : MPoint) :
    (m.trisFor pt).map Prod.fst
      = firstOccurrences
          ((pt.combinations.map (fun cb => (m.getV cb.2).triangles)).join) := by
  suffices H : ∀ (cbs : List ((Vec4 × Vec2) × ℕ)) (acc : List (ℕ × ℕ)),
      (cbs.foldl (fun acc kv => (m.getV kv.2).triangles.foldl
        (fun acc t => dictInsertTV t kv.2 acc) acc) acc).map Prod.fst
        = ((cbs.map (fun cb => (m.getV cb.2).triangles)).join).foldl
            (fun ks t => if t ∈ ks then ks else ks ++ [t])
            (acc.map Prod.fst) by
    exact H pt.combinations []
  intro cbs
  induction cbs with
  | nil => intro acc; rfl
  | cons kv rest ih =>
      intro acc
      show (rest.foldl (fun acc kv => (m.getV kv.2).triangles.foldl
          (fun acc t => dictInsertTV t kv.2 acc) acc)
          ((m.getV kv.2).triangles.foldl
            (fun acc t => dictInsertTV t kv.2 acc) acc)).map Prod.fst
        = ((m.getV kv.2).triangles
            ++ (rest.map (fun cb => (m.getV cb.2).triangles)).join).foldl
            (fun ks t => if t ∈ ks then ks else ks ++ [t])
            (acc.map Prod.fst)
      rw [List.foldl_append,
        ih ((m.getV kv.2).triangles.foldl
          (fun acc t => dictInsertTV t kv.2 acc) acc),
        keys_innerTrisFold_eq kv.2 (m.getV kv.2).triangles acc]

/-- Claim C2, corrected: at every point the smoothing pass partitions the
point's incident triangles by a single greedy pass that iterates them in
the per-point dict order — the first occurrence of each triangle in the
variant-major traversal taking the point's registered `(color, texcoord)`
variants in registration order and each variant vertex's incidence list in
order, which is in general NOT the triangles' creation order — joining
each triangle to the first existing cluster whose EVERY member accepts it
at cosine similarity at least `splitCos` (unanimous acceptance) and
opening a new cluster otherwise; the produced clusters partition the
iterated triangle list, and the per-point pass body consumes exactly
these clusters. -/
theorem greedy_partition_spec (m : Mesh) (pt : MPoint) (splitCos : ℚ) :
    (m.trisFor pt).map Prod.fst
      = firstOccurrences
          ((pt.combinations.map (fun cb => (m.getV cb.2).triangles)).join) ∧
    _compute_normal_groups m ((m.trisFor pt).map Prod.fst) splitCos
      = specGreedyGroups m ((m.trisFor pt).map Prod.fst) splitCos ∧
    (∀ x, ((_compute_normal_groups m ((m.trisFor pt).map Prod.fst)
          splitCos).join).count x
        = ((m.trisFor pt).map Prod.fst).count x) ∧
    m.processPoint splitCos pt
      = foldEntriesFn
          (_compute_vertex_duplication m (m.trisFor pt)
            (_compute_normal_groups m ((m.trisFor pt).map Prod.fst) splitCos))
          m :=
  ⟨trisFor_keys_eq m pt,
   (normal_groups_spec m ((m.trisFor pt).map Prod.fst) splitCos).1,
   (normal_groups_spec m ((m.trisFor pt).map Prod.fst) splitCos).2,
   rfl⟩

/-- Six vertices: two `(color, texcoord)` variants at the origin (white
vertex `0` and black vertex `1`), then four satellites. -/
def cMesh2V : Mesh :=
  ((((((Mesh.init.add_vertex ⟨0,0,0⟩ ⟨1,1,1,1⟩ ⟨0,0⟩).1.add_vertex ⟨0,0,0⟩
    ⟨0,0,0,1⟩ ⟨0,0⟩).1.add_vertex ⟨1,0,0⟩ ⟨1,1,1,1⟩ ⟨0,0⟩).1.add_vertex
    ⟨0,1,0⟩ ⟨1,1,1,1⟩ ⟨0,0⟩).1.add_vertex ⟨-1,0,1⟩ ⟨1,1,1,1⟩
    ⟨0,0⟩).1.add_vertex ⟨-1,0,-1⟩ ⟨1,1,1,1⟩ ⟨0,0⟩).1

def cM2a : Mesh := addTri cMesh2V 0 2 3
def cM2b : Mesh := addTri cM2a 1 3 4

/-- Interleaved creation at one position: white-origin triangle `0`,
black-origin triangle `1`, white-origin triangle `2`, with raw face
normals `(0,0,1)`, `(1,0,1)` and `(-1,0,1)`. -/
def cMesh2 : Mesh := addTri cM2b 0 3 5

theorem cMesh2_built : Built cMesh2 := by
  have h0 : Built cMesh2V :=
    Built.vertex _ _ _ (Built.vertex _ _ _ (Built.vertex _ _ _
      (Built.vertex _ _ _ (Built.vertex _ _ _ (Built.vertex _ _ _
        Built.init)))))
  have h1 : Built cM2a := Built.triangle h0
    (show cMesh2V.add_triangle 0 2 3 = some (cM2a, 0) by
      with_unfolding_all rfl)
  have h2 : Built cM2b := Built.triangle h1
    (show cM2a.add_triangle 1 3 4 = some (cM2b, 1) by
      with_unfolding_all rfl)
  exact Built.triangle h2
    (show cM2b.add_triangle 0 3 5 = some (cMesh2, 2) by
      with_unfolding_all rfl)

/-- The point record registered at the origin of `cMesh2`: two
`(color, texcoord)` variants, the white vertex `0` and the black
vertex `1`. -/
def cPt2 : MPoint :=
  ⟨⟨0,0,0⟩, [((⟨1,1,1,1⟩, ⟨0,0⟩), 0), ((⟨0,0,0,1⟩, ⟨0,0⟩), 1)]⟩

/-- Counterexample to claim C2 as stated: in the public-API mesh `cMesh2`
the per-point dict at the origin iterates the triangles as `[0, 2, 1]`
(variant-major order), not in their creation order `[0, 1, 2]`, and at
`cos E = 1/2` the greedy pass on the dict order produces the clusters
`[[0, 2], [1]]` while on creation order it would produce `[[0, 1], [2]]`:
the iteration order changes the partition. -/
theorem creation_order_cex :
    Built cMesh2 ∧
    ((⟨0, 0, 0⟩, cPt2) : Vec3 × MPoint) ∈ cMesh2.points ∧
    (cMesh2.trisFor cPt2).map Prod.fst = [0, 2, 1] ∧
    _compute_normal_groups cMesh2 ((cMesh2.trisFor cPt2).map Prod.fst)
      (1/2) = [[0, 2], [1]] ∧
    _compute_normal_groups cMesh2 [0, 1, 2] (1/2) = [[0, 1], [2]] :=
  ⟨cMesh2_built, by with_unfolding_all decide⟩

/-- Witness for the amended C2 at the concrete two-variant mesh
`cMesh2`. -/
theorem greedy_partition_spec_witness :
    (cMesh2.trisFor cPt2).map Prod.fst
      = firstOccurrences
          ((cPt2.combinations.map
            (fun cb => (cMesh2.getV cb.2).triangles)).join) ∧
    _compute_normal_groups cMesh2 ((cMesh2.trisFor cPt2).map Prod.fst) (1/2)
      = specGreedyGroups cMesh2 ((cMesh2.trisFor cPt2).map Prod.fst) (1/2) ∧
    (∀ x, ((_compute_normal_groups cMesh2 ((cMesh2.trisFor cPt2).map
          Prod.fst) (1/2)).join).count x
        = ((cMesh2.trisFor cPt2).map Prod.fst).count x) ∧
    cMesh2.processPoint (1/2) cPt2
      = foldEntriesFn
          (_compute_vertex_duplication cMesh2 (cMesh2.trisFor cPt2)
            (_compute_normal_groups cMesh2 ((cMesh2.trisFor cPt2).map
              Prod.fst) (1/2)))
          cMesh2 :=
  greedy_partition_spec cMesh2 cPt2 (1/2)

/-! ## Claim C3, corrected: the split is per normal key, not per cluster -/

/-- The point record registered at the origin of `cMesh1`. -/
def cPt1 : MPoint := ⟨⟨0,0,0⟩, [((⟨1,1,1,1⟩, ⟨0,0⟩), 0)]⟩

/-- Counterexample to claim C3 as stated: at the origin of `cMesh1` the
greedy pass at `cos E = -3/4` finds TWO clusters, `[0,1,2]` and `[3,4,5]`,
both incident to the one origin vertex `0`; but both cluster sums are the
zero vector, so `_compute_vertex_duplication` merges them under a single
normal key — the origin entry of `v2n` has one key, not one per cluster —
and processing the point creates no vertex at all and redirects no
triangle: triangle `3` of the second cluster still references vertex `0`,
although the claim promises it a brand-new vertex. -/
theorem split_clusters_cex :
    Built cMesh1 ∧
    ((⟨0, 0, 0⟩, cPt1) : Vec3 × MPoint) ∈ cMesh1.points ∧
    _compute_normal_groups cMesh1 ((cMesh1.trisFor cPt1).map Prod.fst)
      (-3/4) = [[0, 1, 2], [3, 4, 5]] ∧
    lookupTV 0 (cMesh1.trisFor cPt1) = some 0 ∧
    lookupTV 3 (cMesh1.trisFor cPt1) = some 0 ∧
    (_compute_vertex_duplication cMesh1 (cMesh1.trisFor cPt1)
        (_compute_normal_groups cMesh1 ((cMesh1.trisFor cPt1).map Prod.fst)
          (-3/4))).map (fun pr => (pr.1, pr.2.length)) = [(0, 1)] ∧
    (cMesh1.processPoint (-3/4) cPt1).vertices.length
      = cMesh1.vertices.length ∧
    (cMesh1.processPoint (-3/4) cPt1).getT 3 = cMesh1.getT 3 ∧
    ((cMesh1.processPoint (-3/4) cPt1).getT 3).va = 0 :=
  ⟨cMesh1_built, by with_unfolding_all decide⟩

/-- Claim C3, corrected: the smoothing split at an original vertex is per
distinct normal KEY of the `v2n` structure, not per cluster — clusters
whose summed raw normals are positively parallel (or both zero) are
merged under one key.  For a registered point of a public-API mesh: every
key of each `v2n` entry is the raw sum of one of the point's greedy
clusters, the keys of one entry are pairwise non-(positively-)parallel,
and every triangle listed under a key comes from a cluster whose sum is
positively parallel to the key; processing the point leaves the point
dict untouched, adds exactly one fresh vertex per ADDITIONAL key of each
entry (none for a single-key entry), gives the surviving original vertex
the first key's normal and prunes the split-off triangles from its
incidence list, gives each fresh vertex the original's position, color
and texcoord together with its key's normal and triangle list, redirects
exactly the triangles listed under an additional key from the original
vertex to the respective fresh id, leaves all other vertices and
triangles untouched, and registers no fresh id in any point's dedup map,
so a later `add_vertex` call never returns a fresh id. -/
theorem split_per_key_spec (m : Mesh) (hm : Built m) (splitCos : ℚ)
    (p : Vec3) (pt : MPoint) (hmem : (p, pt) ∈ m.points)
    (groups : List (List ℕ)) (v2n : V2N)
    (hg : groups
      = _compute_normal_groups m ((m.trisFor pt).map Prod.fst) splitCos)
    (hv : v2n = _compute_vertex_duplication m (m.trisFor pt) groups) :
    (∀ pr ∈ v2n, ∀ q ∈ pr.2, ∃ g ∈ groups, q.1 = groupSum m g) ∧
    (∀ pr ∈ v2n, List.Pairwise
      (fun a b : Vec3 × List ℕ => sameRay3 a.1 b.1 = false) pr.2) ∧
    (∀ pr ∈ v2n, ∀ q ∈ pr.2, ∀ t ∈ q.2,
      ∃ g ∈ groups, t ∈ g ∧ sameRay3 (groupSum m g) q.1 = true) ∧
    ((m.processPoint splitCos pt).points = m.points) ∧
    ((m.processPoint splitCos pt).vertices.length
      = m.vertices.length + entOff v2n v2n.length) ∧
    (∀ w < m.vertices.length, w ∉ v2n.map Prod.fst →
      (m.processPoint splitCos pt).getV w = m.getV w) ∧
    (∀ j < v2n.length,
      (m.processPoint splitCos pt).getV (v2n.getD j default).1
        = { m.getV (v2n.getD j default).1 with
            normal := .unit (((v2n.getD j default).2.getD 0 default).1),
            triangles := removeList (flatTs (v2n.getD j default).2.tail)
              (m.getV (v2n.getD j default).1).triangles }) ∧
    (∀ j < v2n.length, ∀ i < (v2n.getD j default).2.tail.length,
      (m.processPoint splitCos pt).getV
          (m.vertices.length + entOff v2n j + i)
        = ⟨(m.getV (v2n.getD j default).1).point,
           (m.getV (v2n.getD j default).1).color,
           (m.getV (v2n.getD j default).1).texCoord,
           ((v2n.getD j default).2.tail.getD i default).2,
           .unit ((v2n.getD j default).2.tail.getD i default).1⟩) ∧
    (∀ j < v2n.length, ∀ i < (v2n.getD j default).2.tail.length,
      ∀ t ∈ ((v2n.getD j default).2.tail.getD i default).2,
        (m.processPoint splitCos pt).getT t
          = (m.getT t).replaceV (v2n.getD j default).1
              (m.vertices.length + entOff v2n j + i)) ∧
    (∀ u, (∀ pr ∈ v2n, u ∉ flatTs pr.2.tail) →
      (m.processPoint splitCos pt).getT u = m.getT u) ∧
    (∀ w, m.vertices.length ≤ w →
      ∀ pr ∈ (m.processPoint splitCos pt).points,
      ∀ cb ∈ pr.2.combinations, cb.2 ≠ w) ∧
    (∀ w, m.vertices.length ≤ w →
      w < (m.processPoint splitCos pt).vertices.length →
      ∀ pc cc tcc,
        ((m.processPoint splitCos pt).add_vertex pc cc tcc).2 ≠ w) := by
  classical
  have hwfm := hm.dedupWF
  have hInc := hm.inc
  have hcb : ∀ cb ∈ pt.combinations,
      cb.2 < m.vertices.length ∧ (m.getV cb.2).point = p := by
    intro cb hcbm
    obtain ⟨h1, h2, _, _⟩ := hwfm.combo_valid (p, pt) hmem cb hcbm
    exact ⟨h1, h2⟩
  subst hg
  subst hv
  set tris := m.trisFor pt with htris
  set tkeys := tris.map Prod.fst with htkeys
  set groups := _compute_normal_groups m tkeys splitCos with hgroups
  set v2n := _compute_vertex_duplication m tris groups with hv2ndef
  have hknd : tkeys.Nodup := trisFor_keys_nodup m pt
  obtain ⟨hwf, hcnt, hcompl⟩ := v2n_master m tris splitCos hknd
  rw [← htkeys, ← hgroups, ← hv2ndef] at hwf hcnt hcompl
  have hkeyinfo : ∀ pr ∈ v2n, pr.1 < m.vertices.length := by
    intro pr hpr
    obtain ⟨t, hl⟩ := hwf.key_src pr hpr
    have hmem2 := lookupTV_mem t pr.1 tris hl
    obtain ⟨hcmb, _⟩ := mem_trisFor m pt (t, pr.1) hmem2
    obtain ⟨cb, hcb', hce⟩ := List.mem_map.1 hcmb
    have hlt := (hcb cb hcb').1
    rw [hce] at hlt
    exact hlt
  have hsub' : ∀ pr ∈ v2n, ∀ t ∈ flatTs pr.2, t ∈ (m.getV pr.1).triangles := by
    intro pr hpr t ht
    have hl := hwf.tri_src pr hpr t ht
    have hmem2 := lookupTV_mem t pr.1 tris hl
    exact (mem_trisFor m pt (t, pr.1) hmem2).2
  have hnodup' : ∀ pr ∈ v2n, (flatTs pr.2).Nodup := by
    intro pr hpr
    rw [List.nodup_iff_count_le_one]
    intro x
    have h1 := flat_count_le_v2nCount x v2n pr hpr
    have h2 := hcnt x
    omega
  obtain ⟨fInc, fPts, fLenT, fLenV, fGetVO, fGetVent, fGetVnew, fGetTO, fGetTt⟩ :=
    foldEntries_spec v2n m hInc hwf.keys_nodup hkeyinfo hsub' hnodup'
      hwf.entry_ne (v2n_pairwise_disjoint v2n hcnt)
  have hpp : m.processPoint splitCos pt = foldEntriesFn v2n m := rfl
  have hreg : ∀ w, m.vertices.length ≤ w →
      ∀ pr ∈ (m.processPoint splitCos pt).points,
      ∀ cb ∈ pr.2.combinations, cb.2 ≠ w := by
    intro w hw pr hpr cb hcbm
    rw [hpp, fPts] at hpr
    have := (hwfm.combo_valid pr hpr cb hcbm).1
    omega
  refine ⟨fun pr hpr q hq => hwf.key_grp pr hpr q hq,
    fun pr hpr => hwf.key_sep pr hpr,
    fun pr hpr q hq t ht => hwf.tri_grp pr hpr q hq t ht,
    by rw [hpp, fPts],
    by rw [hpp, fLenV],
    fun w hw hnm => by rw [hpp, fGetVO w hw hnm],
    fun j hj => by rw [hpp, fGetVent j hj],
    fun j hj i hi => by rw [hpp, fGetVnew j hj i hi],
    fun j hj i hi t ht => by rw [hpp, fGetTt j hj i hi t ht],
    fun u hu => by rw [hpp, fGetTO u hu],
    hreg, ?_⟩
  intro w hw hwlt pc cc tcc
  rcases add_vertex_cases (m.processPoint splitCos pt) pc cc tcc with
    ⟨pt', w', hp, hc, he⟩ | ⟨pt', hp, hc, he⟩ | ⟨hp, he⟩
  · rw [he]
    have hmem2 : (pc, pt') ∈ (m.processPoint splitCos pt).points :=
      lookupPoint_mem _ _ _ hp
    have hcmem : ((cc, tcc), w') ∈ pt'.combinations := lookupCombo_mem _ _ _ hc
    exact hreg w hw (pc, pt') hmem2 ((cc, tcc), w') hcmem
  · rw [he]
    show (m.processPoint splitCos pt).vertices.length ≠ w
    omega
  · rw [he]
    show (m.processPoint splitCos pt).vertices.length ≠ w
    omega

def wGroups1 : List (List ℕ) :=
  _compute_normal_groups wMesh1 ((wMesh1.trisFor wPt1).map Prod.fst) (1/2)

def wV2n1 : V2N :=
  _compute_vertex_duplication wMesh1 (wMesh1.trisFor wPt1) wGroups1

/-- Witness for the amended C3 on the 90°-dihedral mesh `wMesh1`, whose
origin vertex carries two non-parallel normal keys and is actually
split. -/
theorem split_per_key_spec_witness :
    ((⟨0, 0, 0⟩, wPt1) : Vec3 × MPoint) ∈ wMesh1.points ∧
    ((∀ pr ∈ wV2n1, ∀ q ∈ pr.2, ∃ g ∈ wGroups1, q.1 = groupSum wMesh1 g) ∧
    (∀ pr ∈ wV2n1, List.Pairwise
      (fun a b : Vec3 × List ℕ => sameRay3 a.1 b.1 = false) pr.2) ∧
    (∀ pr ∈ wV2n1, ∀ q ∈ pr.2, ∀ t ∈ q.2,
      ∃ g ∈ wGroups1, t ∈ g ∧ sameRay3 (groupSum wMesh1 g) q.1 = true) ∧
    ((wMesh1.processPoint (1/2) wPt1).points = wMesh1.points) ∧
    ((wMesh1.processPoint (1/2) wPt1).vertices.length
      = wMesh1.vertices.length + entOff wV2n1 wV2n1.length) ∧
    (∀ w < wMesh1.vertices.length, w ∉ wV2n1.map Prod.fst →
      (wMesh1.processPoint (1/2) wPt1).getV w = wMesh1.getV w) ∧
    (∀ j < wV2n1.length,
      (wMesh1.processPoint (1/2) wPt1).getV (wV2n1.getD j default).1
        = { wMesh1.getV (wV2n1.getD j default).1 with
            normal := .unit (((wV2n1.getD j default).2.getD 0 default).1),
            triangles := removeList (flatTs (wV2n1.getD j default).2.tail)
              (wMesh1.getV (wV2n1.getD j default).1).triangles }) ∧
    (∀ j < wV2n1.length, ∀ i < (wV2n1.getD j default).2.tail.length,
      (wMesh1.processPoint (1/2) wPt1).getV
          (wMesh1.vertices.length + entOff wV2n1 j + i)
        = ⟨(wMesh1.getV (wV2n1.getD j default).1).point,
           (wMesh1.getV (wV2n1.getD j default).1).color,
           (wMesh1.getV (wV2n1.getD j default).1).texCoord,
           ((wV2n1.getD j default).2.tail.getD i default).2,
           .unit ((wV2n1.getD j default).2.tail.getD i default).1⟩) ∧
    (∀ j < wV2n1.length, ∀ i < (wV2n1.getD j default).2.tail.length,
      ∀ t ∈ ((wV2n1.getD j default).2.tail.getD i default).2,
        (wMesh1.processPoint (1/2) wPt1).getT t
          = (wMesh1.getT t).replaceV (wV2n1.getD j default).1
              (wMesh1.vertices.length + entOff wV2n1 j + i)) ∧
    (∀ u, (∀ pr ∈ wV2n1, u ∉ flatTs pr.2.tail) →
      (wMesh1.processPoint (1/2) wPt1).getT u = wMesh1.getT u) ∧
    (∀ w, wMesh1.vertices.length ≤ w →
      ∀ pr ∈ (wMesh1.processPoint (1/2) wPt1).points,
      ∀ cb ∈ pr.2.combinations, cb.2 ≠ w) ∧
    (∀ w, wMesh1.vertices.length ≤ w →
      w < (wMesh1.processPoint (1/2) wPt1).vertices.length →
      ∀ pc cc tcc,
        ((wMesh1.processPoint (1/2) wPt1).add_vertex pc cc tcc).2 ≠ w)) := by
  refine ⟨by with_unfolding_all decide, ?_⟩
  exact split_per_key_spec wMesh1 wMesh1_built (1/2) ⟨0, 0, 0⟩ wPt1
    (by with_unfolding_all decide) wGroups1 wV2n1 rfl rfl


end Thirty
